import Mathlib

/-!
Shallow embedding of the `fstw-mensaplan-generator` sudoku core
(`src/lib/sudoku/board.py` and `src/lib/sudoku/sudoku.py`, Python 2).

Conventions of the embedding:
* Characters are modelled by their (ASCII) code points as `Nat`
  (`48` = digit zero, `65` = letter A, `97` = letter a, `120` = letter x,
  `35` = hash, `32` = space, `10` = newline).
* Python integers are `Int`; list indices and loop counters are `Nat`.
* Python exceptions are modelled by `Option`/`Except` results; functions
  that mutate an object and may raise return the mutated object together
  with an optional error, mirroring the fact that a Python exception does
  not roll back earlier attribute assignments.
* Unbounded `while` loops and the recursive constraint propagation are
  modelled with an explicit fuel parameter; running out of fuel yields
  `none`.  A Python run that terminates corresponds to a sufficiently
  large fuel.
-/

namespace PySudoku

/-! ## Character helpers (`str.isdigit`, `str.upper`, `chr`, `ord`) -/

/-- A code point is a decimal digit (Python `str.isdigit` on one char). -/
def isDigitC (c : Nat) : Bool := 48 ≤ c && c ≤ 57

/-- Python `str.upper` on one character code. -/
def upperC (c : Nat) : Nat := if 97 ≤ c && c ≤ 122 then c - 32 else c

/-! ## `Value` (board.py lines 20-76)

`Value.__init__` accepts an `int` or a one-character string; `Value.string`
renders values below ten as the decimal digit and larger values as
`chr(ord('A') + value - 10)`.  `Value` of a one-character token parses a
digit with `int` and any other character as `ord(upper) - ord('A') + 10`.
-/

/-- Embeds `str(Value(v))` for an integer `v`, as a list of character
codes.  `none` models the paths where `board.py`'s `save` would raise:
a negative value renders as a multi-character string (and `"%3c"` then
raises `TypeError`), and `chr` raises for code points above 255. -/
def valueStr (v : Int) : Option (List Nat) :=
  if 0 ≤ v ∧ v < 10 then some [(48 + v).toNat]
  else if 10 ≤ v ∧ v ≤ 200 then some [(55 + v).toNat]
  else none

/-- Embeds `Value(token).integer()` for a string token (list of character
codes); `none` models the `ValueError` raised for tokens that are not a
single character. -/
def valueParse (tok : List Nat) : Option Int :=
  match tok with
  | [c] =>
      if isDigitC c then some ((c : Int) - 48)
      else some ((upperC c : Int) - 65 + 10)
  | _ => none

/-- C8, part of the statement: the round trip integer-to-string-to-integer. -/
def valueRoundTrips (v : Int) : Prop :=
  ∃ s, valueStr v = some s ∧ valueParse s = some v

instance (v : Int) : Decidable (valueRoundTrips v) := by
  unfold valueRoundTrips
  cases h : valueStr v with
  | none => exact .isFalse (by simp [h])
  | some s => exact decidable_of_iff (valueParse s = some v) (by simp [h])

/-! ## `Board` (board.py lines 79-245)

`numbers` is modelled as a total function; the Python object only ever
reads and writes indices below `boardsize`.  `boardsize` is always
`cellsize[0] * cellsize[1]` in the source, so we store only the cell
dimensions `w` (region width, `cellsize[0]`) and `h` (region height,
`cellsize[1]`).
-/

structure Board where
  w : Nat
  h : Nat
  numbers : Nat → Nat → Int
  filename : Option (List Nat)

/-- The `boardsize` attribute. -/
def Board.N (b : Board) : Nat := b.w * b.h

/-- Errors raised by `Board` methods. -/
inductive BErr where
  /-- `ValueError("board too small")` (constructor, boardsize <= 1). -/
  | tooSmall : BErr
  /-- `ValueError("value > boardsize")` in `__setitem__`. -/
  | valueTooBig : BErr
  /-- `IndexError` from indexing `numbers` out of bounds. -/
  | indexErr : BErr
  /-- `ValueError` (bare) for a malformed `# boardsize` directive. -/
  | badDirective : BErr
  /-- `ValueError("... Not a number sequence")`, with the line number. -/
  | notNumberSequence : Nat → BErr
  /-- `ValueError` from `max([])` on a token-free, directive-free file. -/
  | maxOfEmpty : BErr
  /-- `ValueError` from `(negative) ** 0.5` in the grid-size inference. -/
  | negSqrt : BErr
  /-- `ValueError("... not a square grid of squares ...")`. -/
  | notSquareGrid : BErr
  /-- `ValueError` from unpacking a dimension list whose length is not 2. -/
  | unpackDims : BErr
  /-- `ValueError("number-sequence does not match grid size")`. -/
  | sizeMismatch : BErr
deriving DecidableEq

/-- Board.clear (board.py lines 144-150): `boardsize ** 2` zeros. -/
def Board.clear (b : Board) : Board := { b with numbers := fun _ _ => 0 }

/-- The empty-construction path of `Board.__init__` with a `cellsize`
tuple `(w, h)` and no `board`/`filename` argument: clear the numbers and
fail with `ValueError("board too small")` if `boardsize <= 1`. -/
def boardEmpty (w h : Nat) : Except BErr Board :=
  let b : Board := { w := w, h := h, numbers := fun _ _ => 0, filename := none }
  if b.N ≤ 1 then .error .tooSmall else .ok b

/-- Board.__getitem__. -/
def Board.get (b : Board) (j i : Nat) : Int := b.numbers j i

/-- Board.__setitem__ (board.py lines 131-141): reject `value > boardsize`
with `ValueError`, then write; an out-of-range index raises `IndexError`
(the write in the source indexes the `boardsize * boardsize` array). -/
def Board.set (b : Board) (j i : Nat) (v : Int) : Except BErr Board :=
  if v > (b.N : Int) then .error .valueTooBig
  else if j < b.N ∧ i < b.N then
    .ok { b with numbers := fun j' i' => if j' = j ∧ i' = i then v else b.numbers j' i' }
  else .error .indexErr

/-- Board.load_numbers (board.py lines 207-224).  The method overwrites
`boardsize` and `cellsize` and clears `numbers` *before* checking that
the token count matches, so a failed call still returns the mutated
board (first component) together with the error. -/
def Board.load_numbers (b : Board) (ns : List Int) (wh : Nat × Nat) :
    Board × Option BErr :=
  let b1 : Board := { b with w := wh.1, h := wh.2, numbers := fun _ _ => 0 }
  if b1.N ^ 2 ≠ ns.length ∨ b1.N < 2 then (b1, some .sizeMismatch)
  else
    ({ b1 with numbers := fun j i =>
        if j < b1.N ∧ i < b1.N then ns.getD (j * b1.N + i) 0 else 0 }, none)

/-! ## Text format helpers

`load` reads the file line by line and splits each line on whitespace
(`line.split()`); `save` writes raw characters.  Files are modelled as
lists of character codes.
-/

/-- Whitespace for `str.split()` (the source files contain only spaces
and tabs inside a line; universal-newline mode removes carriage
returns). -/
def isSpaceC (c : Nat) : Bool := c = 32 || c = 9

/-- Helper for `words`: accumulate the current (reversed) token. -/
def wordsAux : List Nat → List Nat → List (List Nat)
  | [], acc => if acc = [] then [] else [acc.reverse]
  | c :: cs, acc =>
      if isSpaceC c then
        if acc = [] then wordsAux cs [] else acc.reverse :: wordsAux cs []
      else wordsAux cs (c :: acc)

/-- Python `line.split()`: the maximal whitespace-free tokens. -/
def words (l : List Nat) : List (List Nat) := wordsAux l []

/-- Helper for `splitOnC`. -/
def splitCAux (d : Nat) : List Nat → List Nat → List (List Nat)
  | [], acc => [acc.reverse]
  | c :: cs, acc =>
      if c = d then acc.reverse :: splitCAux d cs [] else splitCAux d cs (c :: acc)

/-- Python `str.split(sep)` for a one-character separator (keeps empty
pieces); with separator `10` it recovers the lines an iteration over the
file yields (a trailing empty piece corresponds to no extra line, and is
skipped by `load` anyway because it has no tokens). -/
def splitOnC (d : Nat) (l : List Nat) : List (List Nat) := splitCAux d l []

/-- Digit-string value, `none` if empty or not all digits. -/
def digitsVal (l : List Nat) : Option Nat :=
  if l ≠ [] ∧ l.all isDigitC then
    some (l.foldl (fun a c => a * 10 + (c - 48)) 0)
  else none

/-- Python `int(token)` on a whitespace-free token: optional sign, then
decimal digits; anything else raises (`none`). -/
def intParse (l : List Nat) : Option Int :=
  if l.headD 0 = 45 then (digitsVal l.tail).map (fun n => -(n : Int))
  else if l.headD 0 = 43 then (digitsVal l.tail).map (fun n => (n : Int))
  else (digitsVal l).map (fun n => (n : Int))

/-- Python `str.lower` on one character code. -/
def lowerC (c : Nat) : Nat := if 65 ≤ c && c ≤ 90 then c + 32 else c

/-- The character codes of `"boardsize"`. -/
def boardsizeChars : List Nat := [98, 111, 97, 114, 100, 115, 105, 122, 101]

/-- The directive handling inside `load`'s comment branch (board.py lines
186-190): on a comment/blank line whose token list has at least four
entries and whose second token lowercases to `"boardsize"`, join the
remaining tokens, split on `"x"` and parse each piece with `int`.
Result: `none` = no directive on this line; `some none` = a directive
whose parse raised (the bare `except` turns it into `ValueError`);
`some (some ds)` = parsed dimension list. -/
def parseDirective (items : List (List Nat)) : Option (Option (List Int)) :=
  if 4 ≤ items.length ∧ (items.getD 1 []).map lowerC = boardsizeChars then
    match (splitOnC 120 (items.drop 2).flatten).mapM intParse with
    | some ds => some (some ds)
    | none => some none
  else none

/-- The line loop of `Board.load` (board.py lines 182-196): accumulate
parsed values and remember the last directive; fail on an unparsable
data token (with its 1-based line number) or a malformed directive. -/
def loadLines : List (List Nat) → Nat → List Int → Option (List Int) →
    Except BErr (List Int × Option (List Int))
  | [], _, array, dims => .ok (array, dims)
  | line :: rest, lineno, array, dims =>
      let items := words line
      if items = [] ∨ (items.getD 0 []).getD 0 0 = 35 then
        match parseDirective items with
        | some none => .error .badDirective
        | some (some ds) => loadLines rest (lineno + 1) array (some ds)
        | none => loadLines rest (lineno + 1) array dims
      else
        match items.mapM valueParse with
        | some row => loadLines rest (lineno + 1) (array ++ row) dims
        | none => .error (.notNumberSequence (lineno + 1))

/-- Board.load (board.py lines 169-204), on a file given as raw
characters.  The board's `filename` is assigned before anything can
fail; on an error the first component is the (possibly partially
mutated) board.  When no directive was seen, the region side is
inferred as `int(max(array) ** 0.5)` — the floor square root of the
*largest parsed value* — and checked against the token count
(`max_n ** 4 != len(array)`).  `max([])` and a fractional power of a
negative number raise.  A directive list that does not have exactly two
entries fails when unpacked by `load_numbers`; negative declared
dimensions (only reachable from a hand-crafted negative directive) are
clamped to `0` here, where Python would keep them. -/
def Board.loadRun (b : Board) (fname : Option (List Nat)) (file : List Nat) :
    Board × Option BErr :=
  let b1 : Board := { b with filename := fname }
  match loadLines (splitOnC 10 file) 0 [] none with
  | .error e => (b1, some e)
  | .ok (array, dims) =>
      match dims with
      | none =>
          match array.max? with
          | none => (b1, some .maxOfEmpty)
          | some m =>
              if m < 0 then (b1, some .negSqrt)
              else
                let n := Nat.sqrt m.toNat
                if n ^ 4 ≠ array.length then (b1, some .notSquareGrid)
                else
                  match b1.load_numbers array (n, n) with
                  | (b2, e) => (b2, e)
      | some ds =>
          if ds.length = 2 then
            match b1.load_numbers array ((ds.getD 0 0).toNat, (ds.getD 1 0).toNat) with
            | (b2, e) => (b2, e)
          else (b1, some .unpackDims)

/-- Helper for `natDecimal`: most significant digits first; the fuel is
an upper bound on the value, keeping the recursion structural. -/
def natDecimalAux : Nat → Nat → List Nat
  | 0, _ => []
  | fuel + 1, n =>
      if n = 0 then [] else natDecimalAux fuel (n / 10) ++ [48 + n % 10]

/-- Decimal representation of a natural number (`"%d"`). -/
def natDecimal (n : Nat) : List Nat :=
  if n = 0 then [48] else natDecimalAux n n

/-- The header `save` writes: `"# boardsize %d x %d\n"` without the
final newline. -/
def headerLine (w h : Nat) : List Nat :=
  [35, 32] ++ boardsizeChars ++ [32] ++ natDecimal w ++ [32, 120, 32] ++ natDecimal h

/-- One `"%3c"`-formatted cell (two pad spaces and the symbol), `none`
where `str(Value(v))` is not a single character (negative `v`) or `chr`
fails (`v > 200`), making the Python `"%3c" %` raise. -/
def saveTok (v : Int) : Option (List Nat) :=
  (valueStr v).map (fun c => [32, 32] ++ c)

/-- One data row of `save` (board.py lines 236-242) without its final
newline: each cell is written with `"%3c"`, and two extra spaces follow
every region-completing column except the last column. -/
def saveRow (b : Board) (j : Nat) : Option (List Nat) :=
  ((List.range b.N).mapM fun i =>
      (saveTok (b.numbers j i)).map fun t =>
        t ++ (if i ≠ b.N - 1 ∧ (i + 1) % b.w = 0 then [32, 32] else [])).map
    List.flatten

/-- Board.save (board.py lines 227-245): header line, then the rows,
with a blank line after every region-completing row except the last. -/
def Board.save (b : Board) : Option (List Nat) :=
  ((List.range b.N).mapM fun j =>
      (saveRow b j).map fun r =>
        r ++ [10] ++ (if (j + 1) % b.h = 0 ∧ j ≠ b.N - 1 then [10] else [])).map
    (fun rows => headerLine b.w b.h ++ [10] ++ rows.flatten)

/-! ## The candidate engine (`sudoku.py`, class `Sudoku`)

The mutable engine state: the cell dimensions, the candidate grid
`_possible_values` (a total function; the source only touches indices
below `boardsize`) and the `_number_changes` counter.
-/

structure SState where
  w : Nat
  h : Nat
  vals : Nat → Nat → List Int
  changes : Int

/-- The `_boardsize` attribute. -/
def SState.N (s : SState) : Nat := s.w * s.h

/-- Replace one cell's candidate list. -/
def setCell (s : SState) (j i : Nat) (l : List Int) : SState :=
  { s with vals := fun j' i' => if j' = j ∧ i' = i then l else s.vals j' i' }

/-- Python `xrange(a, b)`. -/
def rangeL (a b : Nat) : List Nat := (List.range (b - a)).map (a + ·)

/-- Python `xrange(start, stop, step)` for a positive step (the source
uses it with `cellsize` components; `step = 0` would raise, we return
the empty list). -/
def rangeStep (start stop step : Nat) : List Nat :=
  if step = 0 then []
  else (List.range ((stop - start + step - 1) / step)).map (fun k => start + step * k)

/-- Row-major list of all cell coordinates, as produced by the ubiquitous
nested `for j ... for i ...` loops. -/
def cellsOf (n : Nat) : List (Nat × Nat) :=
  (rangeL 0 n).flatMap fun j => (rangeL 0 n).map fun i => (j, i)

/-- Full candidate range `range(1, boardsize + 1)`
(`_initialize_possible_values`, sudoku.py lines 87-96). -/
def fullRange (n : Nat) : List Int := (List.range n).map (fun k : Nat => (k : Int) + 1)

/-- Sudoku.__getitem__ (sudoku.py lines 57-67): the solved value of a
cell, `0` when unsolved. -/
def getItem (s : SState) (j i : Nat) : Int :=
  match s.vals j i with
  | [x] => x
  | _ => 0

/-- `_region_horizontal_limits` (sudoku.py lines 108-118): the column
interval of the region containing column `i` (uses `cellsize[0] = w`). -/
def hLimits (w i : Nat) : Nat × Nat := ((i / w) * w, (i / w) * w + w)

/-- `_region_vertical_limits` (sudoku.py lines 120-130): the row interval
of the region containing row `j` (uses `cellsize[1] = h`). -/
def vLimits (h j : Nat) : Nat × Nat := ((j / h) * h, (j / h) * h + h)

/-- The list of region cells of the region containing `(j, i)`, row-major
(the `for v ... for h ...` loops over the region limits). -/
def regionCells (s : SState) (j i : Nat) : List (Nat × Nat) :=
  (rangeL (vLimits s.h j).1 (vLimits s.h j).2).flatMap fun v =>
    (rangeL (hLimits s.w i).1 (hLimits s.w i).2).map fun hh => (v, hh)

/-!
Mutually recursive constraint propagation (sudoku.py lines 69-84 and
180-220): `__setitem__` with a non-zero value replaces the cell's
candidates by the singleton, bumps `changes` and propagates; with value
`0` on a solved non-zero cell it re-initializes the cell and decrements
`changes`.  `_value_substraction` removes a value from a cell and, if a
single candidate remains, assigns it through `__setitem__` — `[0]`
indexing of the singleton is `headD 0`.  The fuel bounds the nesting
depth of the mutual recursion; `none` models a non-terminating or
stack-exhausting run (which cannot happen in the source's reachable
states, where candidate lists only shrink during propagation).
-/

/-- Tag for the three mutually recursive propagation operations
(`_value_substraction` / `__setitem__` / `_propagate_value_substraction`).
A single fuel-structural function keeps the recursion kernel-reducible. -/
inductive PropOp where
  | sub | set | prop

/-- The mutual recursion of `_value_substraction`, `__setitem__` and
`_propagate_value_substraction`, dispatched on `PropOp` and structurally
recursive on the fuel. -/
def engineStep : Nat → PropOp → SState → Nat → Nat → Int → Option SState
  | 0, _, _, _, _, _ => none
  | fuel + 1, .sub, s, j, i, v =>
      if v ∈ s.vals j i then
        let s1 := setCell s j i ((s.vals j i).erase v)
        if (s1.vals j i).length = 1 then
          engineStep fuel .set s1 j i ((s1.vals j i).headD 0)
        else some s1
      else some s
  | fuel + 1, .set, s, j, i, v =>
      if v ≠ 0 then
        let s1 : SState := { setCell s j i [v] with changes := s.changes + 1 }
        engineStep fuel .prop s1 j i v
      else if getItem s j i ≠ 0 then
        some { setCell s j i (fullRange s.N) with changes := s.changes - 1 }
      else some s
  | fuel + 1, .prop, s, j, i, v => do
      let s ← (rangeL 0 s.N).foldlM
        (fun t hh => if hh ≠ i then engineStep fuel .sub t j hh v else pure t) s
      let s ← (rangeL 0 s.N).foldlM
        (fun t vv => if vv ≠ j then engineStep fuel .sub t vv i v else pure t) s
      (regionCells s j i).foldlM
        (fun t c =>
          if c.2 ≠ i ∨ c.1 ≠ j then engineStep fuel .sub t c.1 c.2 v
          else pure t) s

/-- `_value_substraction` (sudoku.py lines 180-193). -/
def subV (fuel : Nat) (s : SState) (j i : Nat) (v : Int) : Option SState :=
  engineStep fuel .sub s j i v

/-- `Sudoku.__setitem__` (sudoku.py lines 69-84). -/
def setV (fuel : Nat) (s : SState) (j i : Nat) (v : Int) : Option SState :=
  engineStep fuel .set s j i v

/-- `_propagate_value_substraction` (sudoku.py lines 195-220). -/
def propV (fuel : Nat) (s : SState) (j i : Nat) (v : Int) : Option SState :=
  engineStep fuel .prop s j i v

/-- Sudoku construction from a board (`__init__` → `_clear_changes`,
`from_board`, sudoku.py lines 32-47 and 152-166): candidates start as
the full range, `changes` at `0`, and every non-zero board value is
assigned through `__setitem__`. -/
def fromBoard (fuel : Nat) (b : Board) : Option SState :=
  let s0 : SState :=
    { w := b.w, h := b.h, vals := fun _ _ => fullRange (b.w * b.h), changes := 0 }
  (cellsOf s0.N).foldlM
    (fun s c =>
      if b.numbers c.1 c.2 ≠ 0 then setV fuel s c.1 c.2 (b.numbers c.1 c.2)
      else pure s) s0

/-- Sudoku.to_board (sudoku.py lines 168-176): build a fresh `Board` of
the same cell size and store every cell's solved value (`0` when
unsolved) through `Board.__setitem__`; the constructor and the range
check can raise, hence `Option`. -/
def toBoard (s : SState) : Option Board := do
  let b0 ← (boardEmpty s.w s.h).toOption
  (cellsOf s.N).foldlM
    (fun b c => (b.set c.1 c.2 (getItem s c.1 c.2)).toOption) b0

/-- Sudoku.finished (sudoku.py lines 236-243). -/
def finishedF (s : SState) : Bool :=
  (cellsOf s.N).all fun c => (s.vals c.1 c.2).length = 1

/-- Sudoku.are_holes (sudoku.py lines 731-738). -/
def areHoles (s : SState) : Bool :=
  (cellsOf s.N).any fun c => (s.vals c.1 c.2).length = 0

/-- The shared skeleton of `solvable_horizontal` / `solvable_vertical` /
`solvable_region`: walk the cells, collect solved values, and fail on a
repeat. -/
def noDupSolved (s : SState) : List (Nat × Nat) → List Int → Bool
  | [], _ => true
  | c :: cs, seen =>
      if (s.vals c.1 c.2).length = 1 then
        let v := (s.vals c.1 c.2).headD 0
        if v ∈ seen then false else noDupSolved s cs (v :: seen)
      else noDupSolved s cs seen

/-- Sudoku.solvable (sudoku.py lines 246-324).  Faithful to the source:
the region sweep iterates `xrange(cellsize[1], boardsize, cellsize[1])`
by `xrange(cellsize[0], boardsize, cellsize[0])`, **starting at the
second band of regions** — the regions meeting row band 0 or column
band 0 are never checked. -/
def solvableF (s : SState) : Bool :=
  ((rangeL 0 s.N).all fun j =>
    noDupSolved s ((rangeL 0 s.N).map fun i => (j, i)) []) &&
  ((rangeL 0 s.N).all fun i =>
    noDupSolved s ((rangeL 0 s.N).map fun j => (j, i)) []) &&
  ((rangeStep s.h s.N s.h).all fun j =>
    (rangeStep s.w s.N s.w).all fun i =>
      noDupSolved s (regionCells s j i) [])

/-! ## Deduction passes -/

/-- `uniq_horizontal_appearance` (sudoku.py lines 335-352). -/
def uniqHApp (s : SState) (j i : Nat) (v : Int) : Bool :=
  v ∈ s.vals j i &&
  (rangeL 0 s.N).all fun hh => hh = i || !(v ∈ s.vals j hh)

/-- `uniq_vertical_appearance` (sudoku.py lines 367-384). -/
def uniqVApp (s : SState) (j i : Nat) (v : Int) : Bool :=
  v ∈ s.vals j i &&
  (rangeL 0 s.N).all fun vv => vv = j || !(v ∈ s.vals vv i)

/-- `uniq_region_appearance` (sudoku.py lines 399-420). -/
def uniqRApp (s : SState) (j i : Nat) (v : Int) : Bool :=
  v ∈ s.vals j i &&
  (regionCells s j i).all fun c => (c.2 = i && c.1 = j) || !(v ∈ s.vals c.1 c.2)

/-- `uniq_horizontal_value` (sudoku.py lines 354-365): assign the first
candidate unique in its row (and stop scanning) — the scan itself does
not mutate, so it is the first match of the current list. -/
def uniqHValue (fuel : Nat) (s : SState) (j i : Nat) : Option SState :=
  match (s.vals j i).find? (fun v => uniqHApp s j i v) with
  | some v => setV fuel s j i v
  | none => some s

/-- `uniq_vertical_value` (sudoku.py lines 386-397). -/
def uniqVValue (fuel : Nat) (s : SState) (j i : Nat) : Option SState :=
  match (s.vals j i).find? (fun v => uniqVApp s j i v) with
  | some v => setV fuel s j i v
  | none => some s

/-- `uniq_region_value` (sudoku.py lines 422-433). -/
def uniqRValue (fuel : Nat) (s : SState) (j i : Nat) : Option SState :=
  match (s.vals j i).find? (fun v => uniqRApp s j i v) with
  | some v => setV fuel s j i v
  | none => some s

/-- The per-cell body of `_calculate_uniq_values`' sweep: the row check,
then the column check, then the region check, run unconditionally in
sequence (sudoku.py lines 436-444 minus the solved-cell skip). -/
def uniqCell (fuel : Nat) (s : SState) (j i : Nat) : Option SState := do
  let s ← uniqHValue fuel s j i
  let s ← uniqVValue fuel s j i
  uniqRValue fuel s j i

/-- Sudoku._calculate_uniq_values (sudoku.py lines 327-444): one sweep
over all cells, skipping the cells already solved when reached. -/
def calculateUniqValues (fuel : Nat) (s : SState) : Option SState :=
  (cellsOf s.N).foldlM
    (fun s c =>
      if (s.vals c.1 c.2).length = 1 then pure s
      else uniqCell fuel s c.1 c.2) s

/-- The `check` of `remove_horizontal_deductible_values` (sudoku.py lines
463-482): the value appears nowhere in the region's *other rows*. -/
def rdvCheckH (s : SState) (j i : Nat) (v : Int) : Bool :=
  (rangeL (vLimits s.h j).1 (vLimits s.h j).2).all fun vv =>
    vv = j ||
    (rangeL (hLimits s.w i).1 (hLimits s.w i).2).all fun hh =>
      !(v ∈ s.vals vv hh)

/-- The `remove` of `remove_horizontal_deductible_values` (sudoku.py
lines 484-498): subtract along row `j` outside the region — faithfully
to the source, the loop resumes at `hmax + 1`, skipping column `hmax`. -/
def rdvRemoveH (fuel : Nat) (s : SState) (j i : Nat) (v : Int) : Option SState := do
  let s ← (rangeL 0 (hLimits s.w i).1).foldlM (fun t hh => subV fuel t j hh v) s
  (rangeL ((hLimits s.w i).2 + 1) s.N).foldlM (fun t hh => subV fuel t j hh v) s

/-- The `check` of `remove_vertical_deductible_values` (sudoku.py lines
518-537). -/
def rdvCheckV (s : SState) (j i : Nat) (v : Int) : Bool :=
  (rangeL (vLimits s.h j).1 (vLimits s.h j).2).all fun vv =>
    (rangeL (hLimits s.w i).1 (hLimits s.w i).2).all fun hh =>
      hh = i || !(v ∈ s.vals vv hh)

/-- The `remove` of `remove_vertical_deductible_values` (sudoku.py lines
539-553), again resuming at `vmax + 1`. -/
def rdvRemoveV (fuel : Nat) (s : SState) (j i : Nat) (v : Int) : Option SState := do
  let s ← (rangeL 0 (vLimits s.h j).1).foldlM (fun t vv => subV fuel t vv i v) s
  (rangeL ((vLimits s.h j).2 + 1) s.N).foldlM (fun t vv => subV fuel t vv i v) s

/-- The `for value in self._possible_values[j][i]` loop of the
horizontal variant, iterated by index over the live list (the Python
loop walks the list object by index while propagation may shrink it
in place; if a cascade *replaces* the cell's list the Python iterator
would keep the old object — that corner is modelled as reading the
current list). -/
def rdvLoopH (fuel : Nat) (s : SState) (j i : Nat) : Nat → Nat → Option SState
  | 0, _ => none
  | lf + 1, idx =>
      if idx < (s.vals j i).length then
        let v := (s.vals j i).getD idx 0
        match (if rdvCheckH s j i v then rdvRemoveH fuel s j i v else some s) with
        | none => none
        | some s1 => rdvLoopH fuel s1 j i lf (idx + 1)
      else some s

/-- As `rdvLoopH`, for the vertical variant. -/
def rdvLoopV (fuel : Nat) (s : SState) (j i : Nat) : Nat → Nat → Option SState
  | 0, _ => none
  | lf + 1, idx =>
      if idx < (s.vals j i).length then
        let v := (s.vals j i).getD idx 0
        match (if rdvCheckV s j i v then rdvRemoveV fuel s j i v else some s) with
        | none => none
        | some s1 => rdvLoopV fuel s1 j i lf (idx + 1)
      else some s

/-- `remove_horizontal_deductible_values` (sudoku.py lines 454-507):
skip solved or empty cells, then the candidate loop. -/
def rdvH (fuel : Nat) (s : SState) (j i : Nat) : Option SState :=
  if (s.vals j i).length ≤ 1 then some s
  else rdvLoopH fuel s j i fuel 0

/-- `remove_vertical_deductible_values` (sudoku.py lines 509-562). -/
def rdvV (fuel : Nat) (s : SState) (j i : Nat) : Option SState :=
  if (s.vals j i).length ≤ 1 then some s
  else rdvLoopV fuel s j i fuel 0

/-- Sudoku._remove_deductable_values (sudoku.py lines 447-569): for every
cell, the horizontal then the vertical variant. -/
def removeDeductableValues (fuel : Nat) (s : SState) : Option SState :=
  (cellsOf s.N).foldlM
    (fun s c => do
      let s ← rdvH fuel s c.1 c.2
      rdvV fuel s c.1 c.2) s

/-! ## `_unmatched_candidate_deletion` (sudoku.py lines 572-707) -/

/-- The `combination(n, r)` generator (sudoku.py lines 576-584): all
`r`-element combinations in the generator's order.  `combs 1 l` yields
the singletons; for larger `r` the head is prepended to the combinations
of the tail, followed by the combinations avoiding the head — exactly
the order the nested generators produce.  `r = 0` never occurs in the
source (`x` counts down to `2`). -/
def combs : Nat → List (Nat × Nat) → List (List (Nat × Nat))
  | 0, _ => []
  | 1, l => l.map (fun a => [a])
  | _ + 2, [] => []
  | r + 2, a :: t => ((combs (r + 1) t).map (fun c => a :: c)) ++ combs (r + 2) t

/-- The `possible` pre-filter (sudoku.py lines 586-597): every member
cell has at most as many candidates as the combination has cells. -/
def possibleC (s : SState) (c : List (Nat × Nat)) : Bool :=
  c.all fun p => (s.vals p.1 p.2).length ≤ c.length

/-- `addition` (sudoku.py lines 599-603): concatenate the member cells'
candidate lists. -/
def additionC (s : SState) (c : List (Nat × Nat)) : List Int :=
  (c.map fun p => s.vals p.1 p.2).flatten

/-- Helper for `uniqL`, accumulating the already-seen values in order. -/
def uniqGo : List Int → List Int → List Int
  | [], acc => acc
  | a :: t, acc => if a ∈ acc then uniqGo t acc else uniqGo t (acc ++ [a])

/-- `uniq` (sudoku.py lines 605-610): first occurrences, in order. -/
def uniqL (l : List Int) : List Int := uniqGo l []

/-- Python `xrange(a, 1, -1)`: `a, a - 1, ..., 2` (empty for `a < 2`). -/
def downTo2 (a : Nat) : List Nat := (List.range (a - 1)).map (fun k => a - k)

/-- The unsolved positions of row `j` (sudoku.py lines 614-619). -/
def unsolvedH (s : SState) (j : Nat) : List (Nat × Nat) :=
  (rangeL 0 s.N).filterMap fun i =>
    if 1 < (s.vals j i).length then some (j, i) else none

/-- The unsolved positions of column `i` (sudoku.py lines 640-645). -/
def unsolvedV (s : SState) (i : Nat) : List (Nat × Nat) :=
  (rangeL 0 s.N).filterMap fun j =>
    if 1 < (s.vals j i).length then some (j, i) else none

/-- The unsolved positions of the region at `(j, i)` (sudoku.py lines
668-674). -/
def unsolvedR (s : SState) (j i : Nat) : List (Nat × Nat) :=
  (regionCells s j i).filter fun c => 1 < (s.vals c.1 c.2).length

/-- The `remove` of the `horizontal` variant (sudoku.py lines 621-625):
subtract every value from every row cell outside the combination. -/
def ucdRemoveH (fuel : Nat) (s : SState) (j : Nat) (c : List (Nat × Nat))
    (values : List Int) : Option SState :=
  (rangeL 0 s.N).foldlM
    (fun t i =>
      if (j, i) ∈ c then pure t
      else values.foldlM (fun t v => subV fuel t j i v) t) s

/-- The `remove` of the `vertical` variant (sudoku.py lines 647-651). -/
def ucdRemoveV (fuel : Nat) (s : SState) (i : Nat) (c : List (Nat × Nat))
    (values : List Int) : Option SState :=
  (rangeL 0 s.N).foldlM
    (fun t j =>
      if (j, i) ∈ c then pure t
      else values.foldlM (fun t v => subV fuel t j i v) t) s

/-- The `remove` of the `region` variant (sudoku.py lines 682-687). -/
def ucdRemoveR (fuel : Nat) (s : SState) (j i : Nat) (c : List (Nat × Nat))
    (values : List Int) : Option SState :=
  (regionCells s j i).foldlM
    (fun t p =>
      if p ∈ c then pure t
      else values.foldlM (fun t v => subV fuel t p.1 p.2 v) t) s

/-- `horizontal` (sudoku.py lines 612-635): subset sizes from
`len(unsolved) - 1` down to `2`; a combination eliminates when it passes
the `possible` pre-filter and its distinct candidates number exactly the
subset size. -/
def ucdH (fuel : Nat) (s : SState) (j : Nat) : Option SState :=
  let unsolved := unsolvedH s j
  (downTo2 (unsolved.length - 1)).foldlM
    (fun s x =>
      (combs x unsolved).foldlM
        (fun s c =>
          if possibleC s c then
            let values := uniqL (additionC s c)
            if values.length = x then ucdRemoveH fuel s j c values else pure s
          else pure s) s) s

/-- `vertical` (sudoku.py lines 638-660): identical to `horizontal`
except that the `possible` pre-filter is *not* applied. -/
def ucdV (fuel : Nat) (s : SState) (i : Nat) : Option SState :=
  let unsolved := unsolvedV s i
  (downTo2 (unsolved.length - 1)).foldlM
    (fun s x =>
      (combs x unsolved).foldlM
        (fun s c =>
          let values := uniqL (additionC s c)
          if values.length = x then ucdRemoveV fuel s i c values else pure s) s) s

/-- `region` (sudoku.py lines 663-697): as `horizontal`, over a region. -/
def ucdR (fuel : Nat) (s : SState) (j i : Nat) : Option SState :=
  let unsolved := unsolvedR s j i
  (downTo2 (unsolved.length - 1)).foldlM
    (fun s x =>
      (combs x unsolved).foldlM
        (fun s c =>
          if possibleC s c then
            let values := uniqL (additionC s c)
            if values.length = x then ucdRemoveR fuel s j i c values else pure s
          else pure s) s) s

/-- Sudoku._unmatched_candidate_deletion (sudoku.py lines 700-707):
every row, then every column, then every region (regions from band 0,
stepping by the cell size). -/
def unmatchedCandidateDeletion (fuel : Nat) (s : SState) : Option SState := do
  let s ← (rangeL 0 s.N).foldlM (fun s j => ucdH fuel s j) s
  let s ← (rangeL 0 s.N).foldlM (fun s i => ucdV fuel s i) s
  (rangeStep 0 s.N s.h).foldlM
    (fun s j => (rangeStep 0 s.N s.w).foldlM (fun s i => ucdR fuel s j i) s) s

/-! ## Solve and classify (sudoku.py lines 710-727, 859-873) -/

/-- The difficulty names, keys of the `_algorithms` table. -/
inductive Difficulty where
  | easy | normal | hard
deriving DecidableEq

/-- `Sudoku.__algorithms` (sudoku.py lines 49-55 and 710-712): run the
difficulty's pass tuple in order. -/
def algorithmsF (fuel : Nat) (d : Difficulty) (s : SState) : Option SState :=
  match d with
  | .easy => some s
  | .normal => do
      let s ← calculateUniqValues fuel s
      removeDeductableValues fuel s
  | .hard => do
      let s ← calculateUniqValues fuel s
      let s ← removeDeductableValues fuel s
      unmatchedCandidateDeletion fuel s

/-- The `while changes != self._changes()` loop of `solve` (sudoku.py
lines 719-722), with `lf` bounding the number of iterations. -/
def solveLoop (fuel : Nat) (d : Difficulty) : Nat → Int → SState → Option SState
  | 0, prev, s => if prev = s.changes then some s else none
  | lf + 1, prev, s =>
      if prev = s.changes then some s
      else do
        let s1 ← algorithmsF fuel d s
        solveLoop fuel d lf s.changes s1

/-- Sudoku.solve (sudoku.py lines 714-727): report failure without
touching the state if `solvable()` is false, else iterate the passes to
a `changes` fixpoint and report `finished()`. -/
def solveF (fuel lf : Nat) (d : Difficulty) (s : SState) : Option (Bool × SState) :=
  if solvableF s then do
    let s1 ← solveLoop fuel d lf (-1) s
    some (finishedF s1, s1)
  else some (false, s)

/-- The `difficulty` function (sudoku.py lines 859-873): seed a fresh
engine from the board for each tier in increasing strength and return
the first tier whose `solve` succeeds, `none` when no tier solves the
puzzle.  The outer `Option` is the fuel bound of the embedding. -/
def difficultyF (fuel lf : Nat) (b : Board) : Option (Option Difficulty) := do
  let se ← fromBoard fuel b
  let (re, _) ← solveF fuel lf .easy se
  if re then some (some .easy) else do
    let sn ← fromBoard fuel b
    let (rn, _) ← solveF fuel lf .normal sn
    if rn then some (some .normal) else do
      let sh ← fromBoard fuel b
      let (rh, _) ← solveF fuel lf .hard sh
      if rh then some (some .hard) else some none

/-! ## The generator (`Sudoku.create`, sudoku.py lines 741-856)

Randomness is modelled by an oracle `or : Nat → Nat` together with a
cursor `k`: the `n`-th random draw uses `or n`.  `random.choice(lst)`
becomes `lst[or k % len(lst)]` and `random.randint(0, N - 1)` becomes
`or k % N`; quantifying over all oracles covers every possible sequence
of draws.
-/

structure CState where
  s : SState
  k : Nat

/-- `create_sudoku_position` (sudoku.py lines 768-786): skip cells with
at most one candidate; draw a random candidate and assign it; if that
tears a hole somewhere, clear this cell again, otherwise run the
difficulty's passes. -/
def createPosition (fuel : Nat) (d : Difficulty) (orc : Nat → Nat)
    (cs : CState) (j i : Nat) : Option CState :=
  if (cs.s.vals j i).length ≤ 1 then some cs
  else
    let l := cs.s.vals j i
    let v := l.getD (orc cs.k % l.length) 0
    match setV fuel cs.s j i v with
    | none => none
    | some s1 =>
        if areHoles s1 then
          match setV fuel s1 j i 0 with
          | none => none
          | some s2 => some ⟨s2, cs.k + 1⟩
        else
          match algorithmsF fuel d s1 with
          | none => none
          | some s2 => some ⟨s2, cs.k + 1⟩

/-- One row-major sweep of `create_numbers`' inner loop (sudoku.py lines
802-805): positions whose solved value reads `0` are (re)tried. -/
def createSweep (fuel : Nat) (d : Difficulty) (orc : Nat → Nat)
    (cs : CState) : Option CState :=
  (cellsOf cs.s.N).foldlM
    (fun cs c =>
      if getItem cs.s c.1 c.2 = 0 then createPosition fuel d orc cs c.1 c.2
      else pure cs) cs

/-- The `while changes != self._changes()` loop inside `create_numbers`
(sudoku.py lines 798-805). -/
def createInner (fuel : Nat) (d : Difficulty) (orc : Nat → Nat) :
    Nat → Int → CState → Option CState
  | 0, prev, cs => if prev = cs.s.changes then some cs else none
  | lf + 1, prev, cs =>
      if prev = cs.s.changes then some cs
      else do
        let cs1 ← createSweep fuel d orc cs
        createInner fuel d orc lf cs.s.changes cs1

/-- The `while True` retry loop of `create_numbers` (sudoku.py lines
788-811): reach the inner fixpoint; stop when finished, otherwise reset
the candidate grid and the change counter and start over. -/
def createOuter (fuel lf : Nat) (d : Difficulty) (orc : Nat → Nat) :
    Nat → CState → Option CState
  | 0, _ => none
  | onum + 1, cs => do
      let cs1 ← createInner fuel d orc lf (-1) cs
      if finishedF cs1.s then some cs1
      else
        createOuter fuel lf d orc onum
          ⟨{ cs1.s with vals := fun _ _ => fullRange cs1.s.N, changes := 0 }, cs1.k⟩

/-- `create_numbers` (sudoku.py lines 788-811): clear the changes and the
candidate grid, then the retry loop. -/
def createNumbers (fuel lf onum : Nat) (d : Difficulty) (orc : Nat → Nat)
    (cs : CState) : Option CState :=
  createOuter fuel lf d orc onum
    ⟨{ cs.s with vals := fun _ _ => fullRange cs.s.N, changes := 0 }, cs.k⟩

/-- `create_hole` (sudoku.py lines 813-827): skip unsolved cells; copy
the current grid to a board with that cell cleared, and clear the cell
for real only if a fresh engine solves the board under the same
difficulty. -/
def createHole (fuel lf : Nat) (d : Difficulty) (cs : CState) (j i : Nat) :
    Option CState :=
  if getItem cs.s j i = 0 then some cs
  else do
    let b ← toBoard cs.s
    let b1 ← (b.set j i 0).toOption
    let s2 ← fromBoard fuel b1
    let (r, _) ← solveF fuel lf d s2
    if r then do
      let s1 ← setV fuel cs.s j i 0
      some (⟨s1, cs.k⟩ : CState)
    else some cs

/-- The randomized phase of `create_holes` (sudoku.py lines 835-837):
`boardsize ** 2` attempts at oracle-drawn positions (the row draw comes
first). -/
def createHolesRandom (fuel lf : Nat) (d : Difficulty) (orc : Nat → Nat) :
    Nat → CState → Option CState
  | 0, cs => some cs
  | n + 1, cs => do
      let j := orc cs.k % cs.s.N
      let i := orc (cs.k + 1) % cs.s.N
      let cs1 ← createHole fuel lf d ⟨cs.s, cs.k + 2⟩ j i
      createHolesRandom fuel lf d orc n cs1

/-- One deterministic full sweep of `create_hole` over all cells
(sudoku.py lines 843-845). -/
def createHolesSweep (fuel lf : Nat) (d : Difficulty) (cs : CState) :
    Option CState :=
  (cellsOf cs.s.N).foldlM (fun cs c => createHole fuel lf d cs c.1 c.2) cs

/-- The `while changes != self._changes()` loop around the deterministic
sweep (sudoku.py lines 839-845). -/
def createHolesLoop (fuel lf : Nat) (d : Difficulty) :
    Nat → Int → CState → Option CState
  | 0, prev, cs => if prev = cs.s.changes then some cs else none
  | n + 1, prev, cs =>
      if prev = cs.s.changes then some cs
      else do
        let cs1 ← createHolesSweep fuel lf d cs
        createHolesLoop fuel lf d n cs.s.changes cs1

/-- `create_holes` (sudoku.py lines 829-845). -/
def createHoles (fuel lf hf : Nat) (d : Difficulty) (orc : Nat → Nat)
    (cs : CState) : Option CState := do
  let cs1 ← createHolesRandom fuel lf d orc (cs.s.N ^ 2) cs
  createHolesLoop fuel lf d hf (-1) cs1

/-- Sudoku.create with `handicap = 0` (sudoku.py lines 848-856, `else`
branch): `create_numbers` followed by `create_holes`, starting from an
engine with cell size `(w, h)`. -/
def createF (fuel lf onum hf : Nat) (w h : Nat) (d : Difficulty)
    (orc : Nat → Nat) : Option SState := do
  let s0 : SState := { w := w, h := h, vals := fun _ _ => [], changes := 0 }
  let cs1 ← createNumbers fuel lf onum d orc ⟨s0, 0⟩
  let cs2 ← createHoles fuel lf hf d orc cs1
  some cs2.s

/-! ## Session-level predicates used by the theorems -/

/-- No candidate list contains `0` (true in every state the engine can
reach: cells hold subsets of `range(1, boardsize + 1)` or assigned
non-zero board values). -/
def noZero (s : SState) : Prop := ∀ j i, (0 : Int) ∉ s.vals j i

/-- Every candidate list is duplicate-free (true in every reachable
state: initialization uses `range`, eliminations only remove). -/
def nodupS (s : SState) : Prop := ∀ j i, (s.vals j i).Nodup

/-- How one propagation step may transform the state: the dimensions are
kept, every candidate list shrinks (as a set) and the change counter
does not decrease. -/
def StepOK (s s' : SState) : Prop :=
  s'.w = s.w ∧ s'.h = s.h ∧
  (∀ j i, s'.vals j i ⊆ s.vals j i) ∧ s.changes ≤ s'.changes

/-- The data-model invariant claimed for `Board` (spec §3): every stored
value lies in `[0, boardsize]`. -/
def boardInv (b : Board) : Prop :=
  ∀ j i, 0 ≤ b.numbers j i ∧ b.numbers j i ≤ (b.N : Int)

/-! ## Session-level predicates for the generator (C1) -/

/-- Total number of candidates over the grid: the termination measure of
the propagation recursion. -/
def msum (N : Nat) (s : SState) : Nat :=
  ((cellsOf N).map (fun c => (s.vals c.1 c.2).length)).sum

/-- Two distinct cells that constrain each other: same row, same column,
or same region (for cell size `(w, h)`). -/
def peer (w h : Nat) (c d : Nat × Nat) : Prop :=
  c ≠ d ∧ (c.1 = d.1 ∨ c.2 = d.2 ∨ (c.1 / h = d.1 / h ∧ c.2 / w = d.2 / w))

/-- A valid complete assignment for cell size `(w, h)`: every grid value
lies in `[1, boardsize]` and no two peers agree. -/
def validT (w h : Nat) (t : Nat → Nat → Int) : Prop :=
  (∀ j i, j < w * h → i < w * h → 1 ≤ t j i ∧ t j i ≤ (w * h : Int)) ∧
  (∀ c d : Nat × Nat, c.1 < w * h → c.2 < w * h → d.1 < w * h → d.2 < w * h →
    peer w h c d → t c.1 c.2 ≠ t d.1 d.2)

/-- The assignment `t` is everywhere still a candidate. -/
def trueIn (N : Nat) (t : Nat → Nat → Int) (s : SState) : Prop :=
  ∀ j i, j < N → i < N → t j i ∈ s.vals j i

/-- Every grid cell's candidates lie within the full range. -/
def subF (s : SState) : Prop :=
  ∀ j i, j < s.N → i < s.N → s.vals j i ⊆ fullRange s.N

/-- No two distinct peers are solved to the same value. -/
def vi2 (w h : Nat) (s : SState) : Prop :=
  ∀ c d : Nat × Nat, c.1 < w * h → c.2 < w * h → d.1 < w * h → d.2 < w * h →
    peer w h c d → ∀ v : Int, s.vals c.1 c.2 = [v] → s.vals d.1 d.2 = [v] → False

/-- The engine invariant maintained throughout generation. -/
def einv (w h : Nat) (s : SState) : Prop :=
  s.w = w ∧ s.h = h ∧ nodupS s ∧ noZero s ∧ subF s ∧ vi2 w h s

/-- Every cell that became solved during a step is free of its value
among its peers afterwards (cells solved before the step are exempt). -/
def newSinglesAbsent (w h : Nat) (s s' : SState) : Prop :=
  ∀ p : Nat × Nat, p.1 < w * h → p.2 < w * h → ∀ x : Int,
    s'.vals p.1 p.2 = [x] →
    s.vals p.1 p.2 = [x] ∨
      ∀ q : Nat × Nat, q.1 < w * h → q.2 < w * h → peer w h p q →
        x ∉ s'.vals q.1 q.2

/-- The board re-solves: a fresh engine seeded from it reports success
with the given resource bounds. -/
def solvesWith (fuel lf : Nat) (d : Difficulty) (b : Board) : Prop :=
  ∃ se s', fromBoard fuel b = some se ∧ solveF fuel lf d se = some (true, s')

/-! ## Spec-side twins for C5

The spec describes the naked-subset rule with the per-cell size
pre-filter.  To compare the three variants, each variant gets a twin
with the `possible` guard toggled: the horizontal/region twins drop the
guard, the vertical twin adds it.  (These definitions follow the spec's
wording, not the source; the source functions are `ucdH`, `ucdV`,
`ucdR` above.)
-/

/-- The `horizontal` variant without the `possible` pre-filter. -/
def ucdHNoGuard (fuel : Nat) (s : SState) (j : Nat) : Option SState :=
  let unsolved := unsolvedH s j
  (downTo2 (unsolved.length - 1)).foldlM
    (fun s x =>
      (combs x unsolved).foldlM
        (fun s c =>
          let values := uniqL (additionC s c)
          if values.length = x then ucdRemoveH fuel s j c values else pure s) s) s

/-- The `vertical` variant with the `possible` pre-filter added. -/
def ucdVGuarded (fuel : Nat) (s : SState) (i : Nat) : Option SState :=
  let unsolved := unsolvedV s i
  (downTo2 (unsolved.length - 1)).foldlM
    (fun s x =>
      (combs x unsolved).foldlM
        (fun s c =>
          if possibleC s c then
            let values := uniqL (additionC s c)
            if values.length = x then ucdRemoveV fuel s i c values else pure s
          else pure s) s) s

/-- The `region` variant without the `possible` pre-filter. -/
def ucdRNoGuard (fuel : Nat) (s : SState) (j i : Nat) : Option SState :=
  let unsolved := unsolvedR s j i
  (downTo2 (unsolved.length - 1)).foldlM
    (fun s x =>
      (combs x unsolved).foldlM
        (fun s c =>
          let values := uniqL (additionC s c)
          if values.length = x then ucdRemoveR fuel s j i c values else pure s) s) s

/-! ## Concrete states and files for the counterexamples and witnesses -/

/-- A completed 4x4 latin square compatible with `cellsize = (2, 2)`. -/
def latin4 : Nat → Nat → Int
  | 0, 0 => 1 | 0, 1 => 2 | 0, 2 => 3 | 0, 3 => 4
  | 1, 0 => 3 | 1, 1 => 4 | 1, 2 => 1 | 1, 3 => 2
  | 2, 0 => 2 | 2, 1 => 1 | 2, 2 => 4 | 2, 3 => 3
  | 3, 0 => 4 | 3, 1 => 3 | 3, 2 => 2 | 3, 3 => 1
  | _, _ => 0

/-- C2 input: a 4x4 candidate state whose cells `(0,0)` and `(1,1)` are
both solved to `1`.  They share the top-left region but neither a row
nor a column; every other cell is unsolved. -/
def c2State : SState :=
  { w := 2, h := 2,
    vals := fun j i =>
      if (j = 0 ∧ i = 0) ∨ (j = 1 ∧ i = 1) then [1] else [1, 2, 3, 4],
    changes := 0 }

/-- A 4x4 candidate state with the value `1` solved twice in row `0`
(used for the row half of C2's scenario). -/
def c2RowState : SState :=
  { w := 2, h := 2,
    vals := fun j i =>
      if j = 0 ∧ (i = 0 ∨ i = 3) then [1] else [1, 2, 3, 4],
    changes := 0 }

/-- C6 input: the latin square `latin4` fully solved except cell
`(0,0)`, which still has the two candidates `[1, 2]`. -/
def c6State : SState :=
  { w := 2, h := 2,
    vals := fun j i =>
      if j = 0 ∧ i = 0 then [1, 2]
      else if j < 4 ∧ i < 4 then [latin4 j i] else [5],
    changes := 0 }

/-- A fresh `cellsize = (2, 2)` board. -/
def board22 : Board := { w := 2, h := 2, numbers := fun _ _ => 0, filename := none }

/-- C3 input: a directive-free file of sixteen `0` tokens (one line) —
sixteen is a perfect fourth power. -/
def file16 : List Nat := (List.replicate 16 [48, 32]).flatten ++ [10]

/-- C4 input: a file declaring `# boardsize 2 x 2` whose sixteen tokens
include a `9` (legal for `Value`, out of range for a board of size 4). -/
def c4File : List Nat :=
  [35, 32] ++ boardsizeChars ++ [32, 50, 32, 120, 32, 50, 10] ++
  [57, 32] ++ (List.replicate 15 [48, 32]).flatten ++ [10]

/-- C9 input: a file declaring `# boardsize 3 x 3` with only five tokens. -/
def c9File : List Nat :=
  [35, 32] ++ boardsizeChars ++ [32, 51, 32, 120, 32, 51, 10] ++
  [49, 32, 50, 32, 51, 32, 52, 32, 53, 10]

/-- C9 prior board: `cellsize = (2, 2)` with a non-zero entry. -/
def c9Prior : Board :=
  { w := 2, h := 2, numbers := fun j i => if j = 0 ∧ i = 0 then 3 else 0,
    filename := none }

/-- C7 counterexample board: `cellsize = (6, 7)` (`boardsize = 42`) with
the legal value `42` stored at `(0,0)`. -/
def c7Board : Board :=
  { w := 6, h := 7, numbers := fun j i => if j = 0 ∧ i = 0 then 42 else 0,
    filename := none }

/-- C7 witness board: the latin square on a `cellsize = (2, 2)` board. -/
def c7Small : Board :=
  { w := 2, h := 2, numbers := fun j i => latin4 j i, filename := none }

instance {ε α : Type} [DecidableEq ε] [DecidableEq α] : DecidableEq (Except ε α)
  | .error x, .error y =>
      decidable_of_iff (x = y) ⟨fun hxy => by rw [hxy], fun hc => by injection hc⟩
  | .error _, .ok _ => isFalse (fun hc => by injection hc)
  | .ok _, .error _ => isFalse (fun hc => by injection hc)
  | .ok x, .ok y =>
      decidable_of_iff (x = y) ⟨fun hxy => by rw [hxy], fun hc => by injection hc⟩

/-- C10 witness board: as `board22` but with a filename set (the
classifier must not depend on it). -/
def c10Named : Board :=
  { w := 2, h := 2, numbers := fun _ _ => 0, filename := some [97] }

/-- The single character `str(Value(v))` produces for `0 ≤ v ≤ 200`
(used to state the save/load round trip). -/
def symChar (v : Int) : Nat := if v < 10 then (48 + v).toNat else (55 + v).toNat

/-- The invariant carried through the hole-punching phase: the engine
invariant holds, and the state is either still complete or its board was
re-solved by the verification run inside the last accepted
`create_hole`. -/
def holeInv (fuel lf : Nat) (d : Difficulty) (w h : Nat) (cs : CState) : Prop :=
  einv w h cs.s ∧
    (finishedF cs.s = true ∨
      ∃ b se s', toBoard cs.s = some b ∧ fromBoard fuel b = some se ∧
        solveF fuel lf d se = some (true, s'))

/-- A concrete successful generation run: cell size `(1, 2)`, the
all-zero oracle. -/
def c1WitS : SState :=
  (createF 30 10 5 10 1 2 .easy (fun _ => 0)).getD
    { w := 0, h := 0, vals := fun _ _ => [], changes := 0 }

/-! # Theorems -/

/-- C8: for every integer `v` in `[0, 35]`, `Symbol(v).string()` is a
single character (the decimal digit for `v < 10`, else the uppercase
letter `'A' + v - 10`), parsing that character back yields `v` again,
and parsing the corresponding lowercase letter also yields `v`
(case-insensitivity); in particular `Symbol(11).string() = "B"` and
`Symbol("b").integer() = 11`. -/
theorem c8_symbol_round_trip (v : Int) (h0 : 0 ≤ v) (h35 : v ≤ 35) :
    (v < 10 → valueStr v = some [(48 + v).toNat]) ∧
    (10 ≤ v → valueStr v = some [(55 + v).toNat]) ∧
    valueRoundTrips v ∧
    (10 ≤ v → valueParse [(87 + v).toNat] = some v) ∧
    valueStr 11 = some [66] ∧ valueParse [98] = some 11 := by
  have hv : ∃ n : Nat, v = (n : Int) ∧ n ≤ 35 := by
    refine ⟨v.toNat, ?_, ?_⟩
    · exact (Int.toNat_of_nonneg h0).symm
    · omega
  obtain ⟨n, rfl, hn⟩ := hv
  interval_cases n <;> decide

/-- Witness for C8 at `v = 11`. -/
theorem c8_symbol_round_trip_witness :
    (0:Int) ≤ 11 ∧ (11:Int) ≤ 35 ∧ valueRoundTrips 11 :=
  ⟨by decide, by decide, (c8_symbol_round_trip 11 (by decide) (by decide)).2.2.1⟩

/-- C2: demonstration of the region gap in `solvable()`.  In `c2State`
the cells `(0,0)` and `(1,1)` are both solved to `1` and lie in the same
region (the region cell list of either cell contains both), yet
`solvable()` returns `true`, because its region sweep starts at
`xrange(cellsize[1], boardsize, cellsize[1])` and so never visits the
regions of the first row/column band — any region-only duplicate in
those bands is missed.  (On a row duplicate, `c2RowState`, it does
return `false`, so the row half of the claim holds.)  The claim's
"solvable() is false on a state with the same solved value twice in one
region" is therefore refuted by this state, while the intended reading
of the function (its docstring checks for duplicated numbers, and the
region sweep in `_unmatched_candidate_deletion` lines 705-707 does start
at band 0) marks the loop bounds as the slip. -/
theorem c2_solvable_region_band_bug :
    solvableF c2State = true ∧
    c2State.vals 0 0 = [1] ∧ c2State.vals 1 1 = [1] ∧
    ((0, 0) : Nat × Nat) ∈ regionCells c2State 0 0 ∧
    ((1, 1) : Nat × Nat) ∈ regionCells c2State 0 0 ∧
    solvableF c2RowState = false ∧
    c2RowState.vals 0 0 = [1] ∧ c2RowState.vals 0 3 = [1] := by
  decide

/-- C6, counterexample: one sweep of `_calculate_uniq_values` over
`c6State` performs exactly one deduction — cell `(0,0)` is solved to
`1` by the row check, every other cell is left untouched — yet the
`changes` counter ends at `3`: after the row check assigns, the column
and the region check each re-assign the same value and increment
`changes` again.  This refutes the claim that once the first qualifying
candidate is assigned no further assignment and no further `changes`
increment happens for that cell in the sweep (which would give a final
counter of `1`). -/
theorem c6_counterexample :
    (calculateUniqValues 20 c6State).map (fun t => (t.changes, t.vals 0 0)) =
      some (3, [1]) ∧
    (calculateUniqValues 20 c6State).map (fun t =>
      (cellsOf 4).all fun c =>
        decide (c = ((0 : Nat), (0 : Nat))) ||
        decide (t.vals c.1 c.2 = c6State.vals c.1 c.2)) = some true := by
  constructor
  · decide
  · decide

/-- C3, counterexample: `file16` is a directive-free file of sixteen
parsable tokens — sixteen is the perfect fourth power `2 ^ 4`, so the
claim says `load` must succeed — yet `load` fails with the
"not a square grid of squares" `FormatError`, because the region side is
inferred from the largest *token value* (`int(max(array) ** 0.5)`, here
`0`), not from the token count. -/
theorem c3_counterexample :
    (loadLines (splitOnC 10 file16) 0 [] none).toOption =
      some (List.replicate 16 (0 : Int), none) ∧
    (List.replicate 16 (0 : Int)).length = 2 ^ 4 ∧
    (board22.loadRun none file16).2 = some .notSquareGrid := by
  refine ⟨by decide, by decide, by decide⟩

/-- C9, counterexample: loading `c9File` (declared `3 x 3`, five tokens)
into the `2 x 2` board `c9Prior` raises the token-count `FormatError`,
but the board does *not* keep its previous state: `load_numbers`
overwrites `cellsize`/`boardsize` and clears `numbers` before checking
the count, so the prior entry `3` at `(0,0)` is gone and the cell size
has become `3 x 3`. -/
theorem c9_counterexample :
    (c9Prior.loadRun none c9File).2 = some .sizeMismatch ∧
    (c9Prior.loadRun none c9File).1.w = 3 ∧
    (c9Prior.loadRun none c9File).1.h = 3 ∧
    (c9Prior.loadRun none c9File).1.numbers 0 0 = 0 ∧
    c9Prior.w = 2 ∧ c9Prior.h = 2 ∧ c9Prior.numbers 0 0 = 3 := by
  refine ⟨by decide, by decide, by decide, by decide, by decide, by decide, by decide⟩

/-- C4, counterexample: loading `c4File` (declared `2 x 2`, sixteen
tokens, one of them `9`) succeeds and stores `9` in a board of
`boardsize = 4` — `load_numbers` applies no range check, so the claimed
invariant "every stored value lies in `[0, boardsize]` after every
operation" fails after this load. -/
theorem c4_counterexample :
    (board22.loadRun none c4File).2 = none ∧
    (board22.loadRun none c4File).1.N = 4 ∧
    (board22.loadRun none c4File).1.numbers 0 0 = 9 := by
  refine ⟨by decide, by decide, by decide⟩

/-- C10: the classifier is a pure function of the board's `numbers`,
`cellsize` and `boardsize` (it ignores `filename`, the only other field,
and — the embedding being functional — two runs on equal boards return
the same result by construction), and its outcome is always one of
"easy", "normal", "hard" or the none-of-the-tiers answer.  Each tier
attempt seeds a fresh engine via `from_board`, which only reads the
board; no engine function writes to a `Board`, so the argument board is
never modified (in the embedding, `difficultyF` takes the board by
value and returns only the classification). -/
theorem c10_difficulty_pure (fuel lf : Nat) (b1 b2 : Board)
    (hw : b1.w = b2.w) (hh : b1.h = b2.h)
    (hn : ∀ j i, b1.numbers j i = b2.numbers j i) :
    difficultyF fuel lf b1 = difficultyF fuel lf b2 ∧
    ∀ r, difficultyF fuel lf b1 = some r →
      r = none ∨ r = some .easy ∨ r = some .normal ∨ r = some .hard := by
  obtain ⟨w1, h1, n1, f1⟩ := b1
  obtain ⟨w2, h2, n2, f2⟩ := b2
  simp only at hw hh
  subst hw; subst hh
  have hnn : n1 = n2 := funext fun j => funext fun i => hn j i
  subst hnn
  refine ⟨rfl, fun r _ => ?_⟩
  rcases r with _ | d
  · exact Or.inl rfl
  · rcases d
    · exact Or.inr (Or.inl rfl)
    · exact Or.inr (Or.inr (Or.inl rfl))
    · exact Or.inr (Or.inr (Or.inr rfl))

/-- Witness for C10: two concrete boards that differ only in `filename`
classify identically. -/
theorem c10_difficulty_pure_witness :
    difficultyF 9 9 board22 = difficultyF 9 9 c10Named :=
  (c10_difficulty_pure 9 9 board22 c10Named rfl rfl (fun _ _ => rfl)).1

/-- Helper: when `load_numbers` succeeds and when it fails. -/
theorem load_numbers_snd_none_iff (b : Board) (ns : List Int) (wh : Nat × Nat) :
    (b.load_numbers ns wh).2 = none ↔
      (wh.1 * wh.2) ^ 2 = ns.length ∧ 2 ≤ wh.1 * wh.2 := by
  unfold Board.load_numbers
  simp only [Board.N]
  split_ifs with hc
  · simp only [reduceCtorEq, false_iff]
    omega
  · simp only [true_iff]
    omega

/-- Helper: `2 ≤ n * n` exactly when `2 ≤ n`. -/
theorem two_le_mul_self (n : Nat) : 2 ≤ n * n ↔ 2 ≤ n := by
  constructor
  · intro h2
    by_contra hlt
    push_neg at hlt
    interval_cases n <;> simp_all
  · intro h2
    calc 2 ≤ n := h2
    _ ≤ n * n := Nat.le_mul_of_pos_left n (by omega)

/-- C3, amended: on a directive-free file all of whose tokens parse,
`load` infers the region side as `n = int(max(array) ** 0.5)` — the
floor square root of the largest parsed value, not of the token count —
and succeeds exactly when the array is non-empty, its maximum is
non-negative, `n ^ 4` equals the token count, and `n ≥ 2`; the loaded
board then has `cellsize = (n, n)`. -/
theorem c3_infer_from_max (b : Board) (fname : Option (List Nat))
    (file : List Nat) (array : List Int)
    (h : loadLines (splitOnC 10 file) 0 [] none = .ok (array, none)) :
    ((b.loadRun fname file).2 = none ↔
      ∃ m, array.max? = some m ∧ 0 ≤ m ∧
        Nat.sqrt m.toNat ^ 4 = array.length ∧ 2 ≤ Nat.sqrt m.toNat) ∧
    (∀ b', b.loadRun fname file = (b', none) →
      b'.w = Nat.sqrt (array.max?.getD 0).toNat ∧ b'.h = b'.w) := by
  unfold Board.loadRun
  rw [h]
  dsimp only
  rcases hm : array.max? with _ | m
  · simp [Prod.ext_iff]
  · simp only [Option.getD_some]
    rcases lt_or_le m 0 with hneg | hpos
    · rw [if_pos hneg]
      simp only [reduceCtorEq, false_iff, not_exists]
      refine ⟨fun x => ?_, fun b' hb' => by simp at hb'⟩
      rintro ⟨hx, h0, _⟩
      injection hx with hx
      omega
    · rw [if_neg (by omega)]
      split_ifs with h4
      · simp only [reduceCtorEq, false_iff, not_exists]
        refine ⟨fun x => ?_, fun b' hb' => by simp at hb'⟩
        rintro ⟨hx, _, hlen, _⟩
        injection hx with hx
        subst hx
        rw [pow_succ, pow_succ] at h4 hlen
        omega
      · constructor
        · rw [load_numbers_snd_none_iff]
          constructor
          · rintro ⟨hlen, h2⟩
            refine ⟨m, rfl, hpos, ?_, ?_⟩
            · rw [← hlen]; ring
            · rw [two_le_mul_self] at h2; exact h2
          · rintro ⟨m', hm', _, hlen, h2⟩
            injection hm' with hm'
            subst hm'
            refine ⟨by rw [← hlen]; ring, ?_⟩
            rw [two_le_mul_self]; exact h2
        · intro b' hb'
          unfold Board.load_numbers at hb'
          simp only [Board.N] at hb'
          split_ifs at hb' with hc
          · simp at hb'
          · rw [Prod.ext_iff] at hb'
            obtain ⟨hb1, -⟩ := hb'
            subst hb1
            exact ⟨rfl, rfl⟩

/-- Witness for C3's amended statement at the concrete `file16`: the
hypothesis holds, the success condition fails (the maximum token value
is `0`, so the inferred side is `0` and `0 ^ 4 ≠ 16`), and indeed the
load fails. -/
theorem c3_infer_from_max_witness :
    (loadLines (splitOnC 10 file16) 0 [] none).toOption =
      some (List.replicate 16 (0 : Int), none) ∧
    (board22.loadRun none file16).2 ≠ none := by
  refine ⟨by decide, fun hc => ?_⟩
  have h := (c3_infer_from_max board22 none file16 (List.replicate 16 0)
    (by decide)).1.mp hc
  obtain ⟨m, hm, -, h4, h2⟩ := h
  have hm0 : (List.replicate 16 (0 : Int)).max? = some 0 := by decide
  rw [hm0] at hm
  injection hm with hm
  subst hm
  simp at h4 h2

/-- Helper: the line loop can only raise the directive error or the
token-parse error. -/
theorem loadLines_error_shape :
    ∀ (lines : List (List Nat)) (ln : Nat) (arr : List Int)
      (dims : Option (List Int)) (e : BErr),
      loadLines lines ln arr dims = .error e →
      e = .badDirective ∨ ∃ n, e = .notNumberSequence n
  | [], _, _, _, _, h => by simp [loadLines] at h
  | line :: rest, ln, arr, dims, e, h => by
      unfold loadLines at h
      dsimp only at h
      split at h
      · split at h
        · injection h with h
          exact Or.inl h.symm
        · exact loadLines_error_shape rest (ln + 1) arr _ e h
        · exact loadLines_error_shape rest (ln + 1) arr dims e h
      · split at h
        · exact loadLines_error_shape rest (ln + 1) _ dims e h
        · injection h with h
          exact Or.inr ⟨ln + 1, h.symm⟩

/-- C9, amended: when `load` fails *before* reaching `load_numbers` —
an unparsable token, a malformed directive, the directive-free size
inference, an ill-shaped dimension list — the board's `numbers`,
`cellsize` and `boardsize` are untouched (only `filename` has been
reassigned).  When it fails *inside* `load_numbers` (token count
mismatch, or a declared grid of size below 2), the failure is not
atomic: `cellsize`/`boardsize` have been overwritten and `numbers` has
been cleared to zeros before the error is raised. -/
theorem c9_no_partial_load_except_mismatch (b : Board) (fname : Option (List Nat))
    (file : List Nat) (b' : Board) (e : BErr)
    (h : b.loadRun fname file = (b', some e)) :
    (e ≠ .sizeMismatch →
      b'.w = b.w ∧ b'.h = b.h ∧ ∀ j i, b'.numbers j i = b.numbers j i) ∧
    (e = .sizeMismatch → ∀ j i, b'.numbers j i = 0) := by
  unfold Board.loadRun at h
  rcases hll : loadLines (splitOnC 10 file) 0 [] none with eL | ⟨array, dims⟩ <;>
    rw [hll] at h <;> dsimp only at h
  · rw [Prod.ext_iff] at h
    obtain ⟨hb, he⟩ := h
    subst hb
    injection he with he
    subst he
    refine ⟨fun _ => ⟨rfl, rfl, fun _ _ => rfl⟩, fun hc => ?_⟩
    rcases loadLines_error_shape _ _ _ _ _ hll with h1 | ⟨n, h1⟩ <;> subst h1 <;>
      injection hc
  · rcases dims with _ | ds <;> dsimp only at h
    · rcases hm : array.max? with _ | m <;> rw [hm] at h <;> dsimp only at h
      · rw [Prod.ext_iff] at h
        obtain ⟨hb, he⟩ := h
        subst hb
        injection he with he
        subst he
        exact ⟨fun _ => ⟨rfl, rfl, fun _ _ => rfl⟩, fun hc => by injection hc⟩
      · split_ifs at h with hneg h4
        · rw [Prod.ext_iff] at h
          obtain ⟨hb, he⟩ := h
          subst hb
          injection he with he
          subst he
          exact ⟨fun _ => ⟨rfl, rfl, fun _ _ => rfl⟩, fun hc => by injection hc⟩
        · rw [Prod.ext_iff] at h
          obtain ⟨hb, he⟩ := h
          subst hb
          injection he with he
          subst he
          exact ⟨fun _ => ⟨rfl, rfl, fun _ _ => rfl⟩, fun hc => by injection hc⟩
        · unfold Board.load_numbers at h
          simp only [Board.N] at h
          split_ifs at h with hc
          · rw [Prod.ext_iff] at h
            obtain ⟨hb, he⟩ := h
            subst hb
            injection he with he
            subst he
            exact ⟨fun hne => absurd rfl hne, fun _ => fun _ _ => rfl⟩
          · rw [Prod.ext_iff] at h
            obtain ⟨-, he⟩ := h
            injection he
    · split_ifs at h with hl
      · unfold Board.load_numbers at h
        simp only [Board.N] at h
        split_ifs at h with hc
        · rw [Prod.ext_iff] at h
          obtain ⟨hb, he⟩ := h
          subst hb
          injection he with he
          subst he
          exact ⟨fun hne => absurd rfl hne, fun _ => fun _ _ => rfl⟩
        · rw [Prod.ext_iff] at h
          obtain ⟨-, he⟩ := h
          injection he
      · rw [Prod.ext_iff] at h
        obtain ⟨hb, he⟩ := h
        subst hb
        injection he with he
        subst he
        exact ⟨fun _ => ⟨rfl, rfl, fun _ _ => rfl⟩, fun hc => by injection hc⟩

/-- Witness for C9's amended statement: on the concrete mismatching
load of `c9File`, the returned error is the count mismatch and the
amended theorem yields the cleared entry at `(0, 0)`. -/
theorem c9_no_partial_load_witness :
    (c9Prior.loadRun none c9File).1.numbers 0 0 = 0 :=
  (c9_no_partial_load_except_mismatch c9Prior none c9File
      (c9Prior.loadRun none c9File).1 .sizeMismatch
      (Prod.ext rfl (by decide))).2 rfl 0 0

/-- C4, amended: the invariant "every entry lies in `[0, boardsize]`"
holds after empty construction; the indexed set rejects any value above
`boardsize` with the range error and, for values in `[0, boardsize]`,
preserves the invariant; but `load_numbers` stores the parsed tokens
without any range check, so a load preserves the invariant only when
every parsed value lies in `[0, boardsize]` (and the indexed set also
accepts negative values, which likewise escape the claimed range). -/
theorem c4_board_invariant :
    (∀ w h b, boardEmpty w h = .ok b → boardInv b) ∧
    (∀ (b : Board) (j i : Nat) (v : Int), (b.N : Int) < v →
      b.set j i v = .error .valueTooBig) ∧
    (∀ (b : Board) (j i : Nat) (v : Int) (b' : Board),
      b.set j i v = .ok b' → boardInv b → 0 ≤ v → boardInv b') ∧
    (∀ (b : Board) (ns : List Int) (wh : Nat × Nat) (b' : Board),
      b.load_numbers ns wh = (b', none) →
      (∀ x ∈ ns, 0 ≤ x ∧ x ≤ ((wh.1 * wh.2 : Nat) : Int)) → boardInv b') ∧
    (∃ (b' : Board) (j i : Nat), board22.set j i (-1) = .ok b' ∧
      b'.numbers j i = -1) := by
  refine ⟨?_, ?_, ?_, ?_, ?_⟩
  · intro w h b hb
    unfold boardEmpty at hb
    dsimp only at hb
    split_ifs at hb
    injection hb with hb
    subst hb
    intro j i
    exact ⟨le_refl 0, Int.natCast_nonneg _⟩
  · intro b j i v hv
    unfold Board.set
    rw [if_pos hv]
  · intro b j i v b' hb hinv hv
    unfold Board.set at hb
    split_ifs at hb with h1 h2
    injection hb with hb
    subst hb
    intro p q
    simp only [boardInv, Board.N] at hinv ⊢
    simp only [Board.N, not_lt] at h1
    split_ifs with hpq
    · exact ⟨hv, h1⟩
    · exact hinv p q
  · intro b ns wh b' hb hns
    unfold Board.load_numbers at hb
    simp only [Board.N] at hb
    split_ifs at hb with hc
    · rw [Prod.ext_iff] at hb
      obtain ⟨-, he⟩ := hb
      injection he
    · rw [Prod.ext_iff] at hb
      obtain ⟨hb1, -⟩ := hb
      subst hb1
      intro p q
      simp only [Board.N]
      split_ifs with hpq
      · rcases Nat.lt_or_ge (p * (wh.1 * wh.2) + q) ns.length with hlt | hge
        · rw [List.getD_eq_getElem ns 0 hlt]
          exact hns _ (List.getElem_mem hlt)
        · rw [List.getD_eq_default _ _ hge]
          exact ⟨le_refl 0, Int.natCast_nonneg _⟩
      · exact ⟨le_refl 0, Int.natCast_nonneg _⟩
  · exact ⟨{ board22 with
        numbers := fun j' i' => if j' = 0 ∧ i' = 0 then -1 else board22.numbers j' i' },
      0, 0, rfl, by decide⟩

/-- Witness for C4's amended statement: the freshly constructed `2 x 2`
board satisfies the invariant. -/
theorem c4_board_invariant_witness : boardInv board22 :=
  c4_board_invariant.1 2 2 board22 rfl

/-! ## Generic fold helpers -/

/-- A property preserved by each step of an `Option`-valued `foldlM` is
preserved by the whole fold. -/
theorem foldlM_preserve {σ α : Type} (P : σ → Prop) (f : σ → α → Option σ)
    (hf : ∀ s a s', P s → f s a = some s' → P s') :
    ∀ (l : List α) (s s' : σ), P s → l.foldlM f s = some s' → P s'
  | [], s, s', hs, h => by
      simp only [List.foldlM_nil, Option.pure_def, Option.some.injEq] at h
      exact h ▸ hs
  | a :: l, s, s', hs, h => by
      simp only [List.foldlM_cons, Option.pure_def, Option.bind_eq_bind] at h
      rcases Option.bind_eq_some.mp h with ⟨s1, h1, h2⟩
      exact foldlM_preserve P f hf l s1 s' (hf s a s1 hs h1) h2

/-- Two `Option`-valued folds agree when their steps agree on all states
satisfying an invariant that the steps preserve. -/
theorem foldlM_congr_preserve {σ α : Type} (P : σ → Prop) (f g : σ → α → Option σ)
    (l : List α)
    (hfg : ∀ s a, a ∈ l → P s → f s a = g s a)
    (hp : ∀ s a s', a ∈ l → P s → f s a = some s' → P s') :
    ∀ (s : σ), P s → l.foldlM f s = l.foldlM g s := by
  induction l with
  | nil => intro s _; rfl
  | cons a l ih =>
      intro s hs
      simp only [List.foldlM_cons]
      rw [← hfg s a (List.mem_cons_self a l) hs]
      rcases h1 : f s a with _ | s1
      · rfl
      · exact ih (fun s a ha hs => hfg s a (List.mem_cons_of_mem _ ha) hs)
          (fun s a s' ha hs h => hp s a s' (List.mem_cons_of_mem _ ha) hs h)
          s1 (hp s a s1 (List.mem_cons_self a l) hs h1)

/-! ## Candidate lists stay duplicate-free -/

/-- The full range is duplicate-free. -/
theorem fullRange_nodup (n : Nat) : (fullRange n).Nodup := by
  have hinj : Function.Injective (fun k : Nat => (k : Int) + 1) := by
    intro a b hab
    simp only at hab
    omega
  unfold fullRange
  exact @List.Nodup.map Nat Int (List.range n) (fun k : Nat => (k : Int) + 1)
    hinj (List.nodup_range n)

/-- Reading the cell just written. -/
theorem setCell_self (s : SState) (j i : Nat) (l : List Int) :
    (setCell s j i l).vals j i = l := by
  simp [setCell]

/-- Reading any cell of an updated state. -/
theorem setCell_vals (s : SState) (j i : Nat) (l : List Int) (p q : Nat) :
    (setCell s j i l).vals p q = if p = j ∧ q = i then l else s.vals p q := rfl

/-- The propagation recursion keeps every candidate list duplicate-free:
`remove` only deletes, assignment writes a singleton, the reset writes
the (duplicate-free) full range. -/
theorem engineStep_nodup :
    ∀ (fuel : Nat) (op : PropOp) (s : SState) (j i : Nat) (v : Int) (s' : SState),
      engineStep fuel op s j i v = some s' → nodupS s → nodupS s' := by
  intro fuel
  induction fuel with
  | zero => intro op s j i v s' h; simp [engineStep] at h
  | succ fuel ih =>
      intro op s j i v s' h hs
      cases op with
      | sub =>
          rw [engineStep] at h
          split at h
          · dsimp only at h
            split at h
            · refine ih .set _ j i _ s' h ?_
              intro p q
              rw [setCell_vals]
              split
              · exact (hs j i).erase v
              · exact hs p q
            · injection h with h
              subst h
              intro p q
              rw [setCell_vals]
              split
              · exact (hs j i).erase v
              · exact hs p q
          · injection h with h
            exact h ▸ hs
      | set =>
          rw [engineStep] at h
          split at h
          · refine ih .prop _ j i v s' h ?_
            intro p q
            show (setCell s j i [v]).vals p q |>.Nodup
            rw [setCell_vals]
            split
            · exact List.nodup_singleton v
            · exact hs p q
          · split at h
            · injection h with h
              subst h
              intro p q
              show (setCell s j i (fullRange s.N)).vals p q |>.Nodup
              rw [setCell_vals]
              split
              · exact fullRange_nodup _
              · exact hs p q
            · injection h with h
              exact h ▸ hs
      | prop =>
          rw [engineStep] at h
          simp only [Option.bind_eq_bind, bind, Option.bind_eq_some] at h
          rcases h with ⟨s1, h1, s2, h2, h3⟩
          have hs1 : nodupS s1 := by
            refine foldlM_preserve nodupS _ ?_ _ s s1 hs h1
            intro t a t' ht hstep
            split at hstep
            · exact ih .sub _ _ _ _ _ hstep ht
            · injection hstep with hstep
              exact hstep ▸ ht
          have hs2 : nodupS s2 := by
            refine foldlM_preserve nodupS _ ?_ _ s1 s2 hs1 h2
            intro t a t' ht hstep
            split at hstep
            · exact ih .sub _ _ _ _ _ hstep ht
            · injection hstep with hstep
              exact hstep ▸ ht
          refine foldlM_preserve nodupS _ ?_ _ s2 s' hs2 h3
          intro t a t' ht hstep
          split at hstep
          · exact ih .sub _ _ _ _ _ hstep ht
          · injection hstep with hstep
            exact hstep ▸ ht

/-- `_value_substraction` keeps candidate lists duplicate-free. -/
theorem subV_nodup (fuel : Nat) (s : SState) (j i : Nat) (v : Int) (s' : SState)
    (h : subV fuel s j i v = some s') (hs : nodupS s) : nodupS s' :=
  engineStep_nodup fuel .sub s j i v s' h hs

/-! ## C5: the `possible` pre-filter is implied by the union condition -/

/-- `uniqGo` keeps the accumulator duplicate-free and collects exactly
the union of the values seen. -/
theorem uniqGo_spec :
    ∀ (l acc : List Int), acc.Nodup →
      (uniqGo l acc).Nodup ∧ (uniqGo l acc).toFinset = acc.toFinset ∪ l.toFinset
  | [], acc, ha => by simp [uniqGo, ha]
  | a :: t, acc, ha => by
      rw [uniqGo]
      split_ifs with hmem
      · obtain ⟨h1, h2⟩ := uniqGo_spec t acc ha
        refine ⟨h1, ?_⟩
        rw [h2, List.toFinset_cons, Finset.union_insert, Finset.insert_eq_self.mpr]
        exact Finset.mem_union_left _ (List.mem_toFinset.mpr hmem)
      · have hnd : (acc ++ [a]).Nodup := by
          rw [List.nodup_append]
          exact ⟨ha, List.nodup_singleton a, by simpa using hmem⟩
        obtain ⟨h1, h2⟩ := uniqGo_spec t (acc ++ [a]) hnd
        refine ⟨h1, ?_⟩
        rw [h2, List.toFinset_append, List.toFinset_cons, Finset.union_insert]
        ext x
        simp only [Finset.mem_union, Finset.mem_insert, List.mem_toFinset,
          List.toFinset_cons, List.mem_singleton, List.toFinset_nil,
          Finset.mem_singleton, Finset.mem_insert, Finset.not_mem_empty, or_false]
        tauto

/-- `uniq` counts the distinct values of a list. -/
theorem uniqL_length (l : List Int) : (uniqL l).length = l.toFinset.card := by
  obtain ⟨h1, h2⟩ := uniqGo_spec l [] (List.nodup_nil)
  rw [uniqL] at *
  rw [← List.toFinset_card_of_nodup h1, h2]
  simp

/-- Every combination the generator yields has exactly the requested
number of cells, drawn from the input list. -/
theorem combs_mem_spec :
    ∀ (r : Nat) (l c : List (Nat × Nat)), c ∈ combs r l →
      c.length = r ∧ ∀ p ∈ c, p ∈ l
  | 0, l, c, h => by simp [combs] at h
  | 1, l, c, h => by
      simp only [combs, List.mem_map] at h
      obtain ⟨a, ha, rfl⟩ := h
      exact ⟨rfl, by simpa using ha⟩
  | r + 2, [], c, h => by simp [combs] at h
  | r + 2, a :: t, c, h => by
      simp only [combs, List.mem_append, List.mem_map] at h
      rcases h with ⟨c1, hc1, rfl⟩ | h
      · obtain ⟨hl, hm⟩ := combs_mem_spec (r + 1) t c1 hc1
        refine ⟨by simp [hl], ?_⟩
        intro p hp
        rcases List.mem_cons.mp hp with rfl | hp
        · exact List.mem_cons_self _ _
        · exact List.mem_cons_of_mem _ (hm p hp)
      · obtain ⟨hl, hm⟩ := combs_mem_spec (r + 2) t c h
        exact ⟨hl, fun p hp => List.mem_cons_of_mem _ (hm p hp)⟩

/-- The candidates of a member cell are contained in the combination's
`addition`. -/
theorem mem_additionC (s : SState) (c : List (Nat × Nat)) (p : Nat × Nat)
    (hp : p ∈ c) : s.vals p.1 p.2 ⊆ additionC s c := by
  intro x hx
  unfold additionC
  rw [List.mem_flatten]
  exact ⟨s.vals p.1 p.2, List.mem_map.mpr ⟨p, hp, rfl⟩, hx⟩

/-- Core of C5: when the members' candidate lists are duplicate-free and
their union has exactly as many distinct values as the combination has
cells, every member's list automatically has at most that many entries —
the `possible` pre-filter cannot fail. -/
theorem possibleC_of_union (s : SState) (c : List (Nat × Nat))
    (hnd : ∀ p ∈ c, (s.vals p.1 p.2).Nodup)
    (hu : (uniqL (additionC s c)).length = c.length) :
    possibleC s c = true := by
  unfold possibleC
  rw [List.all_eq_true]
  intro p hp
  rw [decide_eq_true_iff]
  have h1 : (s.vals p.1 p.2).length = (s.vals p.1 p.2).toFinset.card :=
    (List.toFinset_card_of_nodup (hnd p hp)).symm
  have h2 : (s.vals p.1 p.2).toFinset ⊆ (additionC s c).toFinset := by
    intro x hx
    exact List.mem_toFinset.mpr (mem_additionC s c p hp (List.mem_toFinset.mp hx))
  calc (s.vals p.1 p.2).length = (s.vals p.1 p.2).toFinset.card := h1
  _ ≤ (additionC s c).toFinset.card := Finset.card_le_card h2
  _ = (uniqL (additionC s c)).length := (uniqL_length _).symm
  _ = c.length := hu

/-- `subV` folds (the `remove` helpers) keep the state duplicate-free. -/
theorem ucdRemove_nodup {α : Type} (fuel : Nat) (cells : List α)
    (mk : α → Nat × Nat)
    (c : List (Nat × Nat)) (values : List Int) (s s' : SState)
    (h : cells.foldlM
      (fun t i =>
        if mk i ∈ c then pure t
        else values.foldlM (fun t v => subV fuel t (mk i).1 (mk i).2 v) t) s = some s')
    (hs : nodupS s) : nodupS s' := by
  refine foldlM_preserve nodupS _ ?_ cells s s' hs h
  intro t a t' ht hstep
  split at hstep
  · injection hstep with hstep
    exact hstep ▸ ht
  · exact foldlM_preserve nodupS _
      (fun u v u' hu hv => subV_nodup fuel u (mk a).1 (mk a).2 v u' hv hu)
      values t t' ht hstep

/-- The shared shape of the three naked-subset line passes, with and
without the `possible` pre-filter: under duplicate-free candidate lists
the two folds are equal, because a combination whose distinct candidate
union has exactly as many values as cells always passes the filter. -/
theorem guarded_fold_eq (unsolved : List (Nat × Nat))
    (rem : SState → List (Nat × Nat) → List Int → Option SState)
    (hrm : ∀ t c values t', nodupS t → rem t c values = some t' → nodupS t')
    (s : SState) (hs : nodupS s) :
    (downTo2 (unsolved.length - 1)).foldlM
      (fun s x =>
        (combs x unsolved).foldlM
          (fun s c =>
            if possibleC s c then
              let values := uniqL (additionC s c)
              if values.length = x then rem s c values else pure s
            else pure s) s) s =
    (downTo2 (unsolved.length - 1)).foldlM
      (fun s x =>
        (combs x unsolved).foldlM
          (fun s c =>
            let values := uniqL (additionC s c)
            if values.length = x then rem s c values else pure s) s) s := by
  refine foldlM_congr_preserve nodupS _ _ _ ?_ ?_ s hs
  · intro t x _ ht
    refine foldlM_congr_preserve nodupS _ _ _ ?_ ?_ t ht
    · intro u c hc hu
      dsimp only
      by_cases hlen : (uniqL (additionC u c)).length = x
      · have hposs : possibleC u c = true := by
          refine possibleC_of_union u c (fun p _ => hu p.1 p.2) ?_
          rw [hlen, (combs_mem_spec x unsolved c hc).1]
        rw [hposs]
        simp only [if_true]
      · simp only [hlen, if_false]
        split_ifs <;> rfl
    · intro u c u' _ hu hstep
      dsimp only at hstep
      split_ifs at hstep with h1 h2
      · exact hrm u c _ u' hu hstep
      · injection hstep with hstep
        exact hstep ▸ hu
      · injection hstep with hstep
        exact hstep ▸ hu
  · intro t x t' _ ht hstep
    refine foldlM_preserve nodupS _ ?_ _ t t' ht hstep
    intro u c u' hu hcs
    dsimp only at hcs
    split_ifs at hcs with h1 h2
    · exact hrm u c _ u' hu hcs
    · injection hcs with hcs
      exact hcs ▸ hu
    · injection hcs with hcs
      exact hcs ▸ hu

/-- C5: the guarded and the unguarded formulations of the naked-subset
elimination coincide.  (1) For every state with duplicate-free candidate
lists and every combination, the guarded condition (`possible`
pre-filter and the union having exactly as many distinct values as the
combination has cells) is equivalent to the unguarded union condition
alone, because each member's candidates embed into the union.  Hence
(2)-(4): the horizontal and region passes (which apply the pre-filter)
compute exactly the same result as their filter-free twins, and the
vertical pass (which omits the pre-filter) computes exactly the same
result as its filtered twin — all three implement the same elimination
rule. -/
theorem c5_unmatched_guard_equiv :
    (∀ (s : SState) (c : List (Nat × Nat)),
      (∀ p ∈ c, (s.vals p.1 p.2).Nodup) →
      ((possibleC s c = true ∧ (uniqL (additionC s c)).length = c.length) ↔
        (uniqL (additionC s c)).length = c.length)) ∧
    (∀ (fuel : Nat) (s : SState) (j : Nat), nodupS s →
      ucdH fuel s j = ucdHNoGuard fuel s j) ∧
    (∀ (fuel : Nat) (s : SState) (i : Nat), nodupS s →
      ucdV fuel s i = ucdVGuarded fuel s i) ∧
    (∀ (fuel : Nat) (s : SState) (j i : Nat), nodupS s →
      ucdR fuel s j i = ucdRNoGuard fuel s j i) := by
  refine ⟨?_, ?_, ?_, ?_⟩
  · intro s c hnd
    constructor
    · exact fun h => h.2
    · exact fun h => ⟨possibleC_of_union s c hnd h, h⟩
  · intro fuel s j hs
    unfold ucdH ucdHNoGuard
    exact guarded_fold_eq (unsolvedH s j) (fun t c values => ucdRemoveH fuel t j c values)
      (fun t c values t' ht h =>
        ucdRemove_nodup fuel (rangeL 0 t.N) (fun i => (j, i)) c values t t' h ht)
      s hs
  · intro fuel s i hs
    unfold ucdV ucdVGuarded
    exact (guarded_fold_eq (unsolvedV s i) (fun t c values => ucdRemoveV fuel t i c values)
      (fun t c values t' ht h =>
        ucdRemove_nodup fuel (rangeL 0 t.N) (fun j => (j, i)) c values t t' h ht)
      s hs).symm
  · intro fuel s j i hs
    unfold ucdR ucdRNoGuard
    exact guarded_fold_eq (unsolvedR s j i) (fun t c values => ucdRemoveR fuel t j i c values)
      (fun t c values t' ht h =>
        ucdRemove_nodup fuel (regionCells t j i) (fun p => p) c values t t' h ht)
      s hs

/-- Witness for C5: on the concrete state `c2State` (whose candidate
lists are duplicate-free) the vertical pass equals its guarded twin. -/
theorem c5_unmatched_guard_equiv_witness :
    ucdV 5 c2State 0 = ucdVGuarded 5 c2State 0 :=
  c5_unmatched_guard_equiv.2.2.1 5 c2State 0
    (by intro j i; dsimp only [c2State]; split_ifs <;> decide)

/-! ## Shrinking and change-monotonicity of the propagation -/

/-- `StepOK` is reflexive. -/
theorem stepok_refl (s : SState) : StepOK s s :=
  ⟨rfl, rfl, fun _ _ _ hx => hx, le_refl _⟩

/-- `StepOK` is transitive. -/
theorem stepok_trans {s t u : SState} (h1 : StepOK s t) (h2 : StepOK t u) :
    StepOK s u :=
  ⟨h2.1.trans h1.1, h2.2.1.trans h1.2.1,
   fun j i => (h2.2.2.1 j i).trans (h1.2.2.1 j i),
   h1.2.2.2.trans h2.2.2.2⟩

/-- Shrinking preserves zero-freeness. -/
theorem noZero_of_stepok {s s' : SState} (h : StepOK s s') (hz : noZero s) :
    noZero s' := fun j i hmem => hz j i (h.2.2.1 j i hmem)

/-- A singleton's default head is its member. -/
theorem headD_mem_of_length_one {l : List Int} (h : l.length = 1) :
    l.headD 0 ∈ l := by
  rcases l with _ | ⟨a, _ | _⟩ <;> simp_all

/-- On zero-free states the propagation recursion only shrinks candidate
lists and never decreases `changes`; an assignment (`.set` with a value
taken from the cell's current candidates) moreover leaves the cell's
candidates inside the assigned singleton and increments `changes` at
least once.  The reset branch of `__setitem__` is unreachable here
because the assigned value, being a candidate of a zero-free state, is
not `0`. -/
theorem engineStep_stepok :
    ∀ (fuel : Nat) (op : PropOp) (s : SState) (j i : Nat) (v : Int) (s' : SState),
      engineStep fuel op s j i v = some s' → noZero s →
      (op = .set → v ∈ s.vals j i) →
      StepOK s s' ∧ (op = .set → s'.vals j i ⊆ [v] ∧ s.changes + 1 ≤ s'.changes) := by
  intro fuel
  induction fuel with
  | zero => intro op s j i v s' h; simp [engineStep] at h
  | succ fuel ih =>
      intro op s j i v s' h hz hmem
      cases op with
      | sub =>
          rw [engineStep] at h
          split at h
          · dsimp only at h
            split at h
            · -- the cell became a singleton: recursive assignment
              rename_i hin hlen
              have hz1 : noZero (setCell s j i ((s.vals j i).erase v)) := by
                intro p q
                rw [setCell_vals]
                split
                · exact fun hc => hz j i (List.erase_subset _ _ hc)
                · exact hz p q
              have hm1 := headD_mem_of_length_one (l := (setCell s j i ((s.vals j i).erase v)).vals j i) (by simpa using hlen)
              obtain ⟨hok, -⟩ := ih .set _ j i _ s' h hz1 (fun _ => hm1)
              refine ⟨stepok_trans ?_ hok, fun heq => by simp at heq⟩
              refine ⟨rfl, rfl, ?_, le_refl _⟩
              intro p q
              rw [setCell_vals]
              split
              · rename_i hpq
                obtain ⟨rfl, rfl⟩ := hpq
                exact List.erase_subset _ _
              · exact fun _ hx => hx
            · injection h with h
              subst h
              refine ⟨⟨rfl, rfl, ?_, le_refl _⟩, fun heq => by simp at heq⟩
              intro p q
              rw [setCell_vals]
              split
              · rename_i hpq
                obtain ⟨rfl, rfl⟩ := hpq
                exact List.erase_subset _ _
              · exact fun _ hx => hx
          · injection h with h
            subst h
            exact ⟨stepok_refl s, fun heq => by simp at heq⟩
      | set =>
          have hv : v ∈ s.vals j i := hmem rfl
          rw [engineStep] at h
          split at h
          · -- assignment branch
            obtain ⟨hok, -⟩ := ih .prop _ j i v s' h
              (by
                intro p q
                show (0 : Int) ∉ (setCell s j i [v]).vals p q
                rw [setCell_vals]
                split
                · intro hc
                  rcases List.mem_singleton.mp hc with hc0
                  exact hz j i (hc0 ▸ hv)
                · exact hz p q)
              (fun heq => by simp at heq)
            have hcell : s'.vals j i ⊆ [v] := by
              have := hok.2.2.1 j i
              rwa [setCell_self] at this
            have hch : s.changes + 1 ≤ s'.changes := hok.2.2.2
            refine ⟨⟨hok.1, hok.2.1, ?_, le_trans (by omega) hch⟩,
              fun _ => ⟨hcell, hch⟩⟩
            intro p q
            intro x hx
            have := hok.2.2.1 p q hx
            rw [setCell_vals] at this
            revert this
            split
            · rename_i hpq
              obtain ⟨rfl, rfl⟩ := hpq
              intro hx1
              rcases List.mem_singleton.mp hx1 with rfl
              exact hv
            · exact fun hx1 => hx1
          · -- v = 0 contradicts zero-freeness of the candidate
            rename_i hv0
            simp only [ne_eq, not_not] at hv0
            exact absurd (hv0 ▸ hv) (hz j i)
      | prop =>
          rw [engineStep] at h
          simp only [Option.bind_eq_bind, bind, Option.bind_eq_some] at h
          rcases h with ⟨s1, h1, s2, h2, h3⟩
          have key : ∀ (l : List Nat) (f : SState → Nat → Option SState)
              (hf : ∀ t a t', noZero t → f t a = some t' → StepOK t t')
              (t t' : SState), noZero t → l.foldlM f t = some t' →
              StepOK t t' ∧ noZero t' := by
            intro l f hf t t' hzt hfold
            have := foldlM_preserve (fun u => StepOK t u ∧ noZero u) f
              (fun u a u' hu hstep =>
                ⟨stepok_trans hu.1 (hf u a u' hu.2 hstep),
                 noZero_of_stepok (hf u a u' hu.2 hstep) hu.2⟩)
              l t t' ⟨stepok_refl t, hzt⟩ hfold
            exact ⟨this.1, this.2⟩
          have step1 : ∀ (t : SState) (a : Nat) (t' : SState), noZero t →
              (if a ≠ i then engineStep fuel .sub t j a v else pure t) = some t' →
              StepOK t t' := by
            intro t a t' hzt hstep
            split at hstep
            · exact (ih .sub t j a v t' hstep hzt (fun heq => by simp at heq)).1
            · injection hstep with hstep
              exact hstep ▸ stepok_refl t
          have step2 : ∀ (t : SState) (a : Nat) (t' : SState), noZero t →
              (if a ≠ j then engineStep fuel .sub t a i v else pure t) = some t' →
              StepOK t t' := by
            intro t a t' hzt hstep
            split at hstep
            · exact (ih .sub t a i v t' hstep hzt (fun heq => by simp at heq)).1
            · injection hstep with hstep
              exact hstep ▸ stepok_refl t
          obtain ⟨ha, hza⟩ := key _ _ step1 s s1 hz h1
          obtain ⟨hb, hzb⟩ := key _ _ step2 s1 s2 hza h2
          have hc : StepOK s2 s' ∧ noZero s' := by
            have := foldlM_preserve (fun u => StepOK s2 u ∧ noZero u)
              (fun (t : SState) (c : Nat × Nat) =>
                if c.2 ≠ i ∨ c.1 ≠ j then engineStep fuel .sub t c.1 c.2 v
                else pure t)
              (fun u a u' hu hstep => by
                dsimp only at hstep
                split at hstep
                · refine ⟨stepok_trans hu.1
                    (ih .sub u a.1 a.2 v u' hstep hu.2 (fun heq => by simp at heq)).1, ?_⟩
                  exact noZero_of_stepok
                    (ih .sub u a.1 a.2 v u' hstep hu.2 (fun heq => by simp at heq)).1 hu.2
                · injection hstep with hstep
                  exact hstep ▸ hu)
              _ s2 s' ⟨stepok_refl s2, hzb⟩ h3
            exact this
          exact ⟨stepok_trans (stepok_trans ha hb) hc.1,
            fun heq => by simp at heq⟩

/-- `__setitem__` with a current candidate, packaged. -/
theorem setV_stepok (fuel : Nat) (s : SState) (j i : Nat) (v : Int) (s' : SState)
    (h : setV fuel s j i v = some s') (hz : noZero s) (hv : v ∈ s.vals j i) :
    StepOK s s' ∧ s'.vals j i ⊆ [v] ∧ s.changes + 1 ≤ s'.changes := by
  obtain ⟨h1, h2⟩ := engineStep_stepok fuel .set s j i v s' h hz (fun _ => hv)
  exact ⟨h1, h2 rfl⟩

/-- Any of the three per-cell unique-candidate variants only shrinks the
state (on zero-free states): either no candidate qualifies and the state
is unchanged, or the found candidate — a member of the cell's list — is
assigned. -/
theorem uniqValue_stepok (fuel : Nat) (s : SState) (j i : Nat)
    (app : Int → Bool) (s' : SState)
    (h : (match (s.vals j i).find? app with
          | some v => setV fuel s j i v
          | none => some s) = some s')
    (hz : noZero s) : StepOK s s' := by
  rcases hf : (s.vals j i).find? app with _ | v <;> rw [hf] at h
  · injection h with h
    exact h ▸ stepok_refl s
  · exact (setV_stepok fuel s j i v s' h hz (List.mem_of_find?_eq_some hf)).1

/-- C6, amended: the row check determines the value.  If, for an
unsolved cell of a zero-free state, the row check finds a qualifying
candidate `v`, then after the whole per-cell body (row, then column,
then region check, run unconditionally in that order) the cell's
candidate list is contained in `[v]` — the later checks can only
re-assign the same value, never a different one — and `changes` has
been incremented at least once.  (The later checks do run: the
counterexample `c6_counterexample` shows them re-assigning `v` and
incrementing `changes` twice more, which is what refutes the original
single-increment claim.) -/
theorem c6_value_priority (fuel : Nat) (s : SState) (j i : Nat) (v : Int)
    (s' : SState) (hz : noZero s)
    (hfind : (s.vals j i).find? (fun x => uniqHApp s j i x) = some v)
    (hrun : uniqCell fuel s j i = some s') :
    s'.vals j i ⊆ [v] ∧ s.changes + 1 ≤ s'.changes := by
  unfold uniqCell at hrun
  simp only [Option.bind_eq_bind, bind, Option.bind_eq_some] at hrun
  rcases hrun with ⟨s1, h1, s2, h2, h3⟩
  rw [uniqHValue, hfind] at h1
  obtain ⟨hok1, hsub1, hch1⟩ :=
    setV_stepok fuel s j i v s1 h1 hz (List.mem_of_find?_eq_some hfind)
  have hz1 : noZero s1 := noZero_of_stepok hok1 hz
  have hok2 : StepOK s1 s2 := by
    rw [uniqVValue] at h2
    exact uniqValue_stepok fuel s1 j i _ s2 h2 hz1
  have hz2 : noZero s2 := noZero_of_stepok hok2 hz1
  have hok3 : StepOK s2 s' := by
    rw [uniqRValue] at h3
    exact uniqValue_stepok fuel s2 j i _ s' h3 hz2
  refine ⟨?_, ?_⟩
  · intro x hx
    exact hsub1 (hok2.2.2.1 j i (hok3.2.2.1 j i hx))
  · calc s.changes + 1 ≤ s1.changes := hch1
    _ ≤ s2.changes := hok2.2.2.2
    _ ≤ s'.changes := hok3.2.2.2

/-- Witness for C6's amended statement on the concrete `c6State`: the
row check finds `1` for cell `(0, 0)` and the full per-cell body leaves
the cell solved to `1` with `changes` incremented. -/
theorem c6_value_priority_witness :
    ∃ s', uniqCell 20 c6State 0 0 = some s' ∧
      s'.vals 0 0 ⊆ [1] ∧ c6State.changes + 1 ≤ s'.changes := by
  refine ⟨_, rfl, c6_value_priority 20 c6State 0 0 1 _ ?_ ?_ rfl⟩
  · intro j i
    dsimp only [c6State]
    split_ifs with h1 h2
    · decide
    · obtain ⟨hj, hi⟩ := h2
      interval_cases j <;> interval_cases i <;> decide
    · decide
  · decide

/-! ## Lexing lemmas for the round trip (C7) -/

/-- Consuming a space-free prefix just extends the accumulator. -/
theorem wordsAux_append_token (t : List Nat) (ht : ∀ c ∈ t, isSpaceC c = false) :
    ∀ (cs acc : List Nat), wordsAux (t ++ cs) acc = wordsAux cs (t.reverse ++ acc) := by
  induction t with
  | nil => intro cs acc; simp
  | cons c t ih =>
      intro cs acc
      have hc : isSpaceC c = false := ht c (List.mem_cons_self c t)
      simp only [List.cons_append, wordsAux, hc, Bool.false_eq_true, if_false,
        List.append_eq]
      rw [ih (fun x hx => ht x (List.mem_cons_of_mem c hx)) cs (c :: acc)]
      simp

/-- A space flushes a non-empty accumulator. -/
theorem wordsAux_space (cs acc : List Nat) (ha : acc ≠ []) :
    wordsAux (32 :: cs) acc = acc.reverse :: wordsAux cs [] := by
  simp [wordsAux, isSpaceC, ha]

/-- A space before an empty accumulator is skipped. -/
theorem wordsAux_space_nil (cs : List Nat) : wordsAux (32 :: cs) [] = wordsAux cs [] := by
  simp [wordsAux, isSpaceC]

/-- Leading spaces do not change the token list. -/
theorem words_space_cons (rest : List Nat) : words (32 :: rest) = words rest :=
  wordsAux_space_nil rest

/-- A space-free token followed by a space. -/
theorem words_token_space (t rest : List Nat) (ht : t ≠ [])
    (hns : ∀ c ∈ t, isSpaceC c = false) :
    words (t ++ 32 :: rest) = t :: words rest := by
  rw [words, wordsAux_append_token t hns (32 :: rest) []]
  rw [wordsAux_space rest _ (by simpa using ht)]
  simp [words]

/-- A space-free token at the end of the line. -/
theorem words_token_end (t : List Nat) (ht : t ≠ [])
    (hns : ∀ c ∈ t, isSpaceC c = false) : words t = [t] := by
  have := wordsAux_append_token t hns [] []
  rw [List.append_nil] at this
  rw [words, this]
  simp [wordsAux, ht]

/-- A non-space character that is its own token: followed by nothing or
by a space. -/
theorem words_cons_nonspace (c : Nat) (rest : List Nat) (hc : isSpaceC c = false)
    (hr : rest = [] ∨ rest.headD 0 = 32) :
    words (c :: rest) = [c] :: words rest := by
  rcases hr with rfl | hh
  · rw [words_token_end [c] (by simp) (by simpa using hc)]
    rfl
  · rcases rest with _ | ⟨r0, rest⟩
    · rw [words_token_end [c] (by simp) (by simpa using hc)]
      rfl
    · simp only [List.headD_cons] at hh
      subst hh
      rw [show (c :: 32 :: rest) = [c] ++ 32 :: rest from rfl,
        words_token_space [c] rest (by simp) (by simpa using hc),
        words_space_cons]

/-- `splitCAux` over a separator-free prefix. -/
theorem splitCAux_no_sep (d : Nat) (t : List Nat) (ht : ∀ c ∈ t, c ≠ d) :
    ∀ (cs acc : List Nat), splitCAux d (t ++ cs) acc = splitCAux d cs (t.reverse ++ acc) := by
  induction t with
  | nil => intro cs acc; simp
  | cons c t ih =>
      intro cs acc
      have hc : c ≠ d := ht c (List.mem_cons_self c t)
      simp only [List.cons_append, splitCAux, hc, if_false, List.append_eq]
      rw [ih (fun x hx => ht x (List.mem_cons_of_mem c hx)) cs (c :: acc)]
      simp

/-- Splitting at the separator. -/
theorem splitOnC_sep (d : Nat) (t rest : List Nat) (ht : ∀ c ∈ t, c ≠ d) :
    splitOnC d (t ++ d :: rest) = t :: splitOnC d rest := by
  rw [splitOnC, splitCAux_no_sep d t ht (d :: rest) []]
  simp [splitCAux, splitOnC]

/-- Splitting a separator-free tail. -/
theorem splitOnC_no_sep (d : Nat) (t : List Nat) (ht : ∀ c ∈ t, c ≠ d) :
    splitOnC d t = [t] := by
  have := splitCAux_no_sep d t ht [] []
  rw [List.append_nil] at this
  rw [splitOnC, this]
  simp [splitCAux]

/-! ## Decimal formatting and parsing agree (C7) -/

/-- All characters emitted by `natDecimalAux` are decimal digits. -/
theorem natDecimalAux_digits :
    ∀ (fuel n : Nat), ∀ c ∈ natDecimalAux fuel n, 48 ≤ c ∧ c ≤ 57
  | 0, _, c, h => by simp [natDecimalAux] at h
  | fuel + 1, n, c, h => by
      rw [natDecimalAux] at h
      split_ifs at h with h0
      · simp at h
      · rcases List.mem_append.mp h with h1 | h1
        · exact natDecimalAux_digits fuel (n / 10) c h1
        · rcases List.mem_singleton.mp h1 with rfl
          have := Nat.mod_lt n (show 0 < 10 by omega)
          omega

/-- `natDecimalAux` is non-empty on positive input. -/
theorem natDecimalAux_ne_nil (fuel n : Nat) (hn : 0 < n) (hf : 0 < fuel) :
    natDecimalAux fuel n ≠ [] := by
  rcases fuel with _ | fuel
  · omega
  · rw [natDecimalAux, if_neg (by omega)]
    simp

/-- Folding the digit characters recovers the value. -/
theorem natDecimalAux_foldl :
    ∀ (fuel n a : Nat), n ≤ fuel →
      (natDecimalAux fuel n).foldl (fun a c => a * 10 + (c - 48)) a =
        a * 10 ^ (natDecimalAux fuel n).length + n
  | 0, n, a, h => by
      have : n = 0 := by omega
      subst this
      simp [natDecimalAux]
  | fuel + 1, 0, a, _ => by simp [natDecimalAux]
  | fuel + 1, n + 1, a, h => by
      rw [natDecimalAux, if_neg (by omega), List.foldl_append, List.length_append]
      rw [natDecimalAux_foldl fuel ((n + 1) / 10) a
        (by
          have := Nat.div_lt_self (show 0 < n + 1 by omega) (show 1 < 10 by omega)
          omega)]
      simp only [List.foldl_cons, List.foldl_nil, List.length_cons, List.length_nil]
      have hdm := Nat.div_add_mod (n + 1) 10
      set q := (n + 1) / 10 with hq
      set r := (n + 1) % 10 with hr
      set K := 10 ^ (natDecimalAux fuel q).length with hK
      have hmod : 48 + r - 48 = r := by omega
      rw [hmod, pow_succ, ← mul_assoc]
      set M := a * K with hM
      omega

/-- Parsing the decimal print of a natural number. -/
theorem intParse_natDecimal (n : Nat) : intParse (natDecimal n) = some (n : Int) := by
  rcases Nat.eq_zero_or_pos n with rfl | hn
  · decide
  · unfold natDecimal
    rw [if_neg (by omega)]
    have hne := natDecimalAux_ne_nil n n hn hn
    have hd := natDecimalAux_digits n n
    have hh : (natDecimalAux n n).headD 0 ∈ natDecimalAux n n := by
      rcases hx : natDecimalAux n n with _ | ⟨c, t⟩
      · exact absurd hx hne
      · simp
    have hhd := hd _ hh
    unfold intParse
    rw [if_neg (by omega), if_neg (by omega)]
    unfold digitsVal
    rw [if_pos ⟨hne, by
      rw [List.all_eq_true]
      intro c hc
      have := hd c hc
      simp only [isDigitC, Bool.and_eq_true, decide_eq_true_eq]
      omega⟩]
    rw [natDecimalAux_foldl n n 0 (le_refl n)]
    simp

/-- `natDecimal` never emits a space, a newline, an `x` or a hash. -/
theorem natDecimal_digits (n : Nat) : ∀ c ∈ natDecimal n, 48 ≤ c ∧ c ≤ 57 := by
  unfold natDecimal
  split_ifs with h
  · intro c hc
    rcases List.mem_singleton.mp hc with rfl
    omega
  · exact natDecimalAux_digits n n

/-! ## Symbols of values up to 41 survive the round trip (C7) -/

/-- For `0 ≤ v ≤ 41` the symbol is a single character in `[48, 96]`
(digit, uppercase letter, or one of the six punctuation characters after
`Z` — all fixed by `upper`), and parsing it back restores `v`. -/
theorem symChar_spec (v : Int) (h0 : 0 ≤ v) (h41 : v ≤ 41) :
    valueStr v = some [symChar v] ∧ 48 ≤ symChar v ∧ symChar v ≤ 96 ∧
    valueParse [symChar v] = some v := by
  have hv : ∃ n : Nat, v = (n : Int) ∧ n ≤ 41 := by
    refine ⟨v.toNat, (Int.toNat_of_nonneg h0).symm, by omega⟩
  obtain ⟨n, rfl, hn⟩ := hv
  interval_cases n <;> refine ⟨by decide, by decide, by decide, by decide⟩

/-- `mapM` over `Option` succeeds pointwise. -/
theorem mapM_option_of_forall {α β : Type} (f : α → Option β) (g : α → β) :
    ∀ (l : List α), (∀ a ∈ l, f a = some (g a)) → l.mapM f = some (l.map g)
  | [], _ => rfl
  | a :: l, h => by
      rw [List.mapM_cons, h a (List.mem_cons_self a l),
        mapM_option_of_forall f g l (fun x hx => h x (List.mem_cons_of_mem a hx))]
      rfl

/-- A run of spaces in front of a line does not change its tokens. -/
theorem words_spaces_prefix :
    ∀ (pad rest : List Nat), (∀ c ∈ pad, c = 32) → words (pad ++ rest) = words rest
  | [], rest, _ => rfl
  | c0 :: pad, rest, hpad => by
      have hc0 : c0 = 32 := hpad c0 (List.mem_cons_self _ _)
      subst hc0
      rw [List.cons_append, words_space_cons]
      exact words_spaces_prefix pad rest (fun c hc => hpad c (List.mem_cons_of_mem _ hc))

/-- Tokenizing one saved cell row: every cell contributes the two pad
spaces, its symbol character and an optional run of spaces; the token
list is the list of one-character symbols. -/
theorem words_cells :
    ∀ (cells : List (Nat × List Nat)),
      (∀ p ∈ cells, (48 ≤ p.1 ∧ p.1 ≤ 96) ∧ ∀ c ∈ p.2, c = 32) →
      words ((cells.map (fun p => 32 :: 32 :: p.1 :: p.2)).flatten) =
        cells.map (fun p => [p.1])
  | [], _ => rfl
  | (c, pad) :: rest, h => by
      obtain ⟨⟨hc1, hc2⟩, hpad⟩ := h (c, pad) (List.mem_cons_self _ _)
      have hrest := fun p hp => h p (List.mem_cons_of_mem _ hp)
      simp only [List.map_cons, List.flatten_cons, List.cons_append]
      rw [words_space_cons, words_space_cons]
      have hcns : isSpaceC c = false := by
        simp only [isSpaceC, Bool.or_eq_false_iff, decide_eq_false_iff_not]
        omega
      have hcond : (pad ++ (rest.map (fun p => 32 :: 32 :: p.1 :: p.2)).flatten) = [] ∨
          (pad ++ (rest.map (fun p => 32 :: 32 :: p.1 :: p.2)).flatten).headD 0 = 32 := by
        rcases pad with _ | ⟨c0, pad⟩
        · rcases rest with _ | ⟨p, rest⟩
          · exact Or.inl rfl
          · right
            simp
        · right
          have hc0 : c0 = 32 := hpad c0 (List.mem_cons_self _ _)
          simp [hc0]
      rw [words_cons_nonspace c _ hcns hcond,
        words_spaces_prefix pad _ (fun x hx => hpad x hx),
        words_cells rest hrest]

/-- The decimal print is never empty. -/
theorem natDecimal_ne_nil (n : Nat) : natDecimal n ≠ [] := by
  unfold natDecimal
  split_ifs with h
  · simp
  · exact natDecimalAux_ne_nil n n (by omega) (by omega)

/-- Digits are not whitespace. -/
theorem natDecimal_nonspace (n : Nat) : ∀ c ∈ natDecimal n, isSpaceC c = false := by
  intro c hc
  have := natDecimal_digits n c hc
  simp only [isSpaceC, Bool.or_eq_false_iff, decide_eq_false_iff_not]
  omega

/-- Tokenizing the header `save` writes. -/
theorem words_headerLine (w h : Nat) :
    words (headerLine w h) =
      [[35], boardsizeChars, natDecimal w, [120], natDecimal h] := by
  have hsplit : headerLine w h =
      [35] ++ 32 :: (boardsizeChars ++ 32 ::
        (natDecimal w ++ 32 :: ([120] ++ 32 :: natDecimal h))) := by
    unfold headerLine
    simp
  rw [hsplit]
  rw [words_token_space [35] _ (by simp) (by decide)]
  rw [words_token_space boardsizeChars _ (by decide) (by decide)]
  rw [words_token_space (natDecimal w) _ (natDecimal_ne_nil w) (natDecimal_nonspace w)]
  rw [words_token_space [120] _ (by simp) (by decide)]
  rw [words_token_end (natDecimal h) (natDecimal_ne_nil h) (natDecimal_nonspace h)]

/-- The header tokens parse to the declared dimensions. -/
theorem parseDirective_header (w h : Nat) :
    parseDirective [[35], boardsizeChars, natDecimal w, [120], natDecimal h] =
      some (some [(w : Int), (h : Int)]) := by
  unfold parseDirective
  have hcond : 4 ≤ ([[35], boardsizeChars, natDecimal w, [120],
        natDecimal h] : List (List Nat)).length ∧
      (([[35], boardsizeChars, natDecimal w, [120],
        natDecimal h] : List (List Nat)).getD 1 []).map lowerC = boardsizeChars := by
    refine ⟨by simp, ?_⟩
    show boardsizeChars.map lowerC = boardsizeChars
    decide
  rw [if_pos hcond]
  have hflat : (([[35], boardsizeChars, natDecimal w, [120],
      natDecimal h] : List (List Nat)).drop 2).flatten =
      natDecimal w ++ 120 :: (natDecimal h ++ []) := by
    simp
  rw [hflat, List.append_nil]
  rw [splitOnC_sep 120 (natDecimal w) _ (fun c hc => by
    have := natDecimal_digits w c hc
    omega)]
  rw [splitOnC_no_sep 120 (natDecimal h) (fun c hc => by
    have := natDecimal_digits h c hc
    omega)]
  have hmm : ([natDecimal w, natDecimal h] : List (List Nat)).mapM intParse =
      some [(w : Int), (h : Int)] := by
    simp [List.mapM, List.mapM.loop, intParse_natDecimal]
  rw [hmm]

/-- A token-free line is skipped by the loop. -/
theorem loadLines_step_blank (line : List Nat) (rest : List (List Nat))
    (ln : Nat) (arr : List Int) (dims : Option (List Int))
    (h : words line = []) :
    loadLines (line :: rest) ln arr dims = loadLines rest (ln + 1) arr dims := by
  conv_lhs => rw [loadLines]
  rw [h]
  have hp : parseDirective [] = none := by
    unfold parseDirective
    rw [if_neg (by simp)]
  rw [if_pos (Or.inl rfl), hp]

/-- The saved header line sets the directive. -/
theorem loadLines_step_header (line : List Nat) (rest : List (List Nat))
    (ln : Nat) (arr : List Int) (dims : Option (List Int)) (w h : Nat)
    (hw : words line = [[35], boardsizeChars, natDecimal w, [120], natDecimal h]) :
    loadLines (line :: rest) ln arr dims =
      loadLines rest (ln + 1) arr (some [(w : Int), (h : Int)]) := by
  conv_lhs => rw [loadLines]
  rw [hw]
  have hc : ([[35], boardsizeChars, natDecimal w, [120],
        natDecimal h] : List (List Nat)) = [] ∨
      (([[35], boardsizeChars, natDecimal w, [120],
        natDecimal h] : List (List Nat)).getD 0 []).getD 0 0 = 35 := Or.inr rfl
  rw [if_pos hc, parseDirective_header]

/-- A data line whose tokens parse appends its values. -/
theorem loadLines_step_data (line : List Nat) (rest : List (List Nat))
    (ln : Nat) (arr : List Int) (dims : Option (List Int))
    (syms : List Nat) (vals : List Int)
    (hw : words line = syms.map (fun c => [c]))
    (hne : syms ≠ [])
    (hh : 48 ≤ syms.headD 0)
    (hparse : (syms.map (fun c => [c])).mapM valueParse = some vals) :
    loadLines (line :: rest) ln arr dims =
      loadLines rest (ln + 1) (arr ++ vals) dims := by
  conv_lhs => rw [loadLines]
  rw [hw]
  rw [if_neg ?_, hparse]
  rcases syms with _ | ⟨c, t⟩
  · exact absurd rfl hne
  · simp only [List.headD_cons] at hh
    rintro (hc | hc)
    · simp at hc
    · simp only [List.map_cons, List.getD_cons_zero] at hc
      omega

/-- Processing the saved data rows: each contributes its values; blank
separator lines are skipped; the trailing empty line (from the final
newline) is skipped as well. -/
theorem loadLines_body :
    ∀ (rows : List ((List Nat × Bool) × List Int)) (ln : Nat) (arr : List Int)
      (dims : Option (List Int)),
      (∀ r ∈ rows, (∀ c ∈ r.1.1, c ≠ 10) ∧
        (∃ syms, words r.1.1 = syms.map (fun c => [c]) ∧ syms ≠ [] ∧
          48 ≤ syms.headD 0 ∧
          (syms.map (fun c => [c])).mapM valueParse = some r.2)) →
      loadLines (splitOnC 10
        ((rows.map (fun r => r.1.1 ++ [10] ++ (if r.1.2 then [10] else []))).flatten))
        ln arr dims =
      .ok (arr ++ (rows.map (fun r => r.2)).flatten, dims)
  | [], ln, arr, dims, _ => by
      simp only [List.map_nil, List.flatten_nil, List.append_nil]
      rw [show splitOnC 10 [] = [[]] from rfl,
        loadLines_step_blank [] [] ln arr dims rfl]
      rfl
  | ((rc, bl), vals) :: rows, ln, arr, dims, h => by
      obtain ⟨h10, syms, hsy, hne, hhd, hparse⟩ := h _ (List.mem_cons_self _ _)
      have hrest := fun r hr => h r (List.mem_cons_of_mem _ hr)
      have hshape :
          ((((rc, bl), vals) :: rows).map
            (fun r => r.1.1 ++ [10] ++ (if r.1.2 then [10] else []))).flatten =
          rc ++ 10 :: ((if bl then [10] else []) ++
            ((rows.map (fun r => r.1.1 ++ [10] ++ (if r.1.2 then [10] else []))).flatten)) := by
        simp [List.append_assoc]
      rw [hshape, splitOnC_sep 10 rc _ h10,
        loadLines_step_data rc _ ln arr dims syms vals hsy hne hhd hparse]
      rcases bl with _ | _
      · simp only [Bool.false_eq_true, if_false, List.nil_append]
        rw [loadLines_body rows (ln + 1) (arr ++ vals) dims hrest]
        simp
      · simp only [if_true, List.singleton_append]
        rw [show (10 :: (rows.map
            (fun r => r.1.1 ++ [10] ++ (if r.1.2 then [10] else []))).flatten) =
          [] ++ 10 :: (rows.map
            (fun r => r.1.1 ++ [10] ++ (if r.1.2 then [10] else []))).flatten from rfl]
        rw [splitOnC_sep 10 [] _ (by simp)]
        rw [loadLines_step_blank [] _ (ln + 1) (arr ++ vals) dims rfl]
        rw [loadLines_body rows (ln + 2) (arr ++ vals) dims hrest]
        simp

/-- Indexing the row-major flattening of equal-length rows. -/
theorem flatten_getD (N : Nat) :
    ∀ (rows : List (List Int)) (j i : Nat),
      (∀ r ∈ rows, r.length = N) → j < rows.length → i < N →
      rows.flatten.getD (j * N + i) 0 = (rows.getD j []).getD i 0
  | [], j, _, _, hj, _ => by simp at hj
  | r :: rows, 0, i, hlen, _, hi => by
      have hr : r.length = N := hlen r (List.mem_cons_self _ _)
      rw [List.flatten_cons, Nat.zero_mul, Nat.zero_add,
        List.getD_append _ _ _ _ (by omega)]
      simp
  | r :: rows, j + 1, i, hlen, hj, hi => by
      have hr : r.length = N := hlen r (List.mem_cons_self _ _)
      have hidx : (j + 1) * N + i = r.length + (j * N + i) := by rw [hr]; ring
      rw [List.flatten_cons, hidx, List.getD_append_right _ _ _ _ (by omega),
        Nat.add_sub_cancel_left]
      simp only [List.getD_cons_succ]
      exact flatten_getD N rows j i
        (fun x hx => hlen x (List.mem_cons_of_mem _ hx))
        (by simpa using hj) hi

/-- One saved row, written out: two pad spaces, the symbol, and the
region spacer after region-completing columns. -/
theorem saveRow_eq (b : Board) (j : Nat)
    (hv : ∀ i, i < b.N → 0 ≤ b.numbers j i ∧ b.numbers j i ≤ 41) :
    saveRow b j = some
      (((List.range b.N).map (fun i =>
        (symChar (b.numbers j i),
         if i ≠ b.N - 1 ∧ (i + 1) % b.w = 0 then [32, 32] else ([] : List Nat)))).map
        (fun p => 32 :: 32 :: p.1 :: p.2)).flatten := by
  unfold saveRow
  rw [mapM_option_of_forall _
    (fun i => ([32, 32, symChar (b.numbers j i)] : List Nat) ++
      (if i ≠ b.N - 1 ∧ (i + 1) % b.w = 0 then [32, 32] else []))
    (List.range b.N)
    (fun i hi => by
      obtain ⟨h0, h41⟩ := hv i (List.mem_range.mp hi)
      obtain ⟨hstr, -, -, -⟩ := symChar_spec (b.numbers j i) h0 h41
      simp only [saveTok, hstr, Option.map_some]
      rfl)]
  simp only [Option.map_some, Option.some.injEq, List.map_map]
  rfl

/-- The full saved file, written out. -/
theorem save_eq (b : Board) (hv : ∀ j i, j < b.N → i < b.N →
      0 ≤ b.numbers j i ∧ b.numbers j i ≤ 41) :
    b.save = some (headerLine b.w b.h ++ 10 ::
      (((List.range b.N).map (fun j =>
        ((((List.range b.N).map (fun i =>
            (symChar (b.numbers j i),
             if i ≠ b.N - 1 ∧ (i + 1) % b.w = 0 then [32, 32] else ([] : List Nat)))).map
            (fun p => 32 :: 32 :: p.1 :: p.2)).flatten) ++ [10] ++
          (if (j + 1) % b.h = 0 ∧ j ≠ b.N - 1 then [10] else []))).flatten)) := by
  unfold Board.save
  rw [mapM_option_of_forall _
    (fun j =>
      ((((List.range b.N).map (fun i =>
          (symChar (b.numbers j i),
           if i ≠ b.N - 1 ∧ (i + 1) % b.w = 0 then [32, 32] else ([] : List Nat)))).map
          (fun p => 32 :: 32 :: p.1 :: p.2)).flatten) ++ [10] ++
        (if (j + 1) % b.h = 0 ∧ j ≠ b.N - 1 then [10] else []))
    (List.range b.N)
    (fun j hj => by
      rw [saveRow_eq b j (fun i hi => hv j i (List.mem_range.mp hj) hi)]
      simp [List.append_assoc])]
  simp [List.append_assoc]

/-- The header contains no newline. -/
theorem headerLine_no_nl (w h : Nat) : ∀ c ∈ headerLine w h, c ≠ 10 := by
  intro c hc
  unfold headerLine at hc
  rcases List.mem_append.mp hc with hc | h1
  · rcases List.mem_append.mp hc with hc | h1
    · rcases List.mem_append.mp hc with hc | h1
      · rcases List.mem_append.mp hc with hc | h1
        · rcases List.mem_append.mp hc with hc | h1
          · exact (by decide : ∀ x ∈ ([35, 32] : List Nat), x ≠ 10) c hc
          · exact (by decide : ∀ x ∈ boardsizeChars, x ≠ 10) c h1
        · exact (by decide : ∀ x ∈ ([32] : List Nat), x ≠ 10) c h1
      · have := natDecimal_digits w c h1
        omega
    · exact (by decide : ∀ x ∈ ([32, 120, 32] : List Nat), x ≠ 10) c h1
  · have := natDecimal_digits h c h1
    omega

/-- A non-empty list's default head is a member. -/
theorem headD_mem_of_ne_nil {l : List Nat} (h : l ≠ []) : l.headD 0 ∈ l := by
  rcases l with _ | ⟨a, t⟩
  · exact absurd rfl h
  · simp

/-- The data rows of a saved board satisfy `loadLines_body`'s hypothesis:
no embedded newline, tokens are the one-character symbols, and the
tokens parse back to the row's values. -/
theorem c7_rows_spec (b : Board) (h2 : 2 ≤ b.N)
    (hv : ∀ j i, j < b.N → i < b.N → 0 ≤ b.numbers j i ∧ b.numbers j i ≤ 41) :
    ∀ r ∈ (List.range b.N).map (fun j =>
      (((((List.range b.N).map (fun i =>
          (symChar (b.numbers j i),
           if i ≠ b.N - 1 ∧ (i + 1) % b.w = 0 then [32, 32] else ([] : List Nat)))).map
          (fun p => 32 :: 32 :: p.1 :: p.2)).flatten,
        decide ((j + 1) % b.h = 0 ∧ j ≠ b.N - 1)),
       (List.range b.N).map (fun i => b.numbers j i))),
      (∀ c ∈ r.1.1, c ≠ 10) ∧
      (∃ syms, words r.1.1 = syms.map (fun c => [c]) ∧ syms ≠ [] ∧
        48 ≤ syms.headD 0 ∧
        (syms.map (fun c => [c])).mapM valueParse = some r.2) := by
  intro r hr
  obtain ⟨j, hj, rfl⟩ := List.mem_map.mp hr
  have hjN : j < b.N := List.mem_range.mp hj
  have hsym : ∀ i, i < b.N →
      valueStr (b.numbers j i) = some [symChar (b.numbers j i)] ∧
      48 ≤ symChar (b.numbers j i) ∧ symChar (b.numbers j i) ≤ 96 ∧
      valueParse [symChar (b.numbers j i)] = some (b.numbers j i) := by
    intro i hi
    obtain ⟨ha, hb⟩ := hv j i hjN hi
    exact symChar_spec _ ha hb
  have hcellsH : ∀ p ∈ (List.range b.N).map (fun i =>
      (symChar (b.numbers j i),
       if i ≠ b.N - 1 ∧ (i + 1) % b.w = 0 then [32, 32] else ([] : List Nat))),
      ((48 ≤ p.1 ∧ p.1 ≤ 96) ∧ ∀ c ∈ p.2, c = 32) := by
    intro p hp
    obtain ⟨i, hi, rfl⟩ := List.mem_map.mp hp
    obtain ⟨-, hb1, hb2, -⟩ := hsym i (List.mem_range.mp hi)
    refine ⟨⟨hb1, hb2⟩, ?_⟩
    intro c hc
    dsimp only at hc
    by_cases hcnd : i ≠ b.N - 1 ∧ (i + 1) % b.w = 0
    · rw [if_pos hcnd] at hc
      simp only [List.mem_cons, List.not_mem_nil, or_false] at hc
      rcases hc with rfl | rfl <;> rfl
    · rw [if_neg hcnd] at hc
      simp at hc
  constructor
  · intro c hc
    rw [List.mem_flatten] at hc
    obtain ⟨l, hl, hcl⟩ := hc
    obtain ⟨p, hp, rfl⟩ := List.mem_map.mp hl
    obtain ⟨⟨hb1, hb2⟩, hpad⟩ := hcellsH p hp
    rcases hcl with _ | ⟨_, hcl⟩
    · omega
    · rcases hcl with _ | ⟨_, hcl⟩
      · omega
      · rcases hcl with _ | ⟨_, hcl⟩
        · omega
        · have := hpad c hcl
          omega
  · refine ⟨(List.range b.N).map (fun i => symChar (b.numbers j i)), ?_, ?_, ?_, ?_⟩
    · rw [words_cells _ hcellsH]
      simp [List.map_map]
    · simp only [ne_eq, List.map_eq_nil_iff, List.range_eq_nil]
      omega
    · have hne : (List.range b.N).map (fun i => symChar (b.numbers j i)) ≠ [] := by
        simp only [ne_eq, List.map_eq_nil_iff, List.range_eq_nil]
        omega
      have hm := headD_mem_of_ne_nil hne
      obtain ⟨i, hi, heq⟩ := List.mem_map.mp hm
      obtain ⟨-, hb1, -, -⟩ := hsym i (List.mem_range.mp hi)
      omega
    · rw [mapM_option_of_forall valueParse (fun t => (valueParse t).getD 0) _
        (fun a ha => by
          obtain ⟨c, hc, rfl⟩ := List.mem_map.mp ha
          obtain ⟨i, hi, rfl⟩ := List.mem_map.mp hc
          obtain ⟨-, -, -, hp⟩ := hsym i (List.mem_range.mp hi)
          simp [hp])]
      congr 1
      rw [List.map_map, List.map_map]
      refine List.map_congr_left ?_
      intro i hi
      obtain ⟨-, -, -, hp⟩ := hsym i (List.mem_range.mp hi)
      simp only [Function.comp_apply]
      rw [hp]
      rfl

/-- Length of a flattening of equal-length rows. -/
theorem flatten_length_const {α : Type} (N : Nat) :
    ∀ (rows : List (List α)), (∀ r ∈ rows, r.length = N) →
      rows.flatten.length = rows.length * N
  | [], _ => by simp
  | r :: rows, h => by
      have hr : r.length = N := h r (List.mem_cons_self _ _)
      rw [List.flatten_cons, List.length_append, hr,
        flatten_length_const N rows (fun x hx => h x (List.mem_cons_of_mem _ hx)),
        List.length_cons]
      ring

/-- Default-indexing into a map over an initial segment. -/
theorem getD_map_range {α : Type} (N j : Nat) (f : Nat → α) (d : α) (hj : j < N) :
    ((List.range N).map f).getD j d = f j := by
  rw [List.getD_eq_getElem _ _ (by simpa using hj)]
  simp

/-- C7, amended: `save` followed by `load` restores the dimensions and
every cell value, provided the board size is at most 41 (beyond that
`Value` emits lowercase letters, which `upper` folds onto other values)
and every cell holds a value in `[0, boardsize]`. -/
theorem c7_roundtrip (b : Board) (h2 : 2 ≤ b.N) (h41 : b.N ≤ 41)
    (hv : ∀ j i, j < b.N → i < b.N →
      0 ≤ b.numbers j i ∧ b.numbers j i ≤ (b.N : Int)) :
    ∃ f, b.save = some f ∧ ∀ (b0 : Board) (fname : Option (List Nat)),
      (b0.loadRun fname f).2 = none ∧
      (b0.loadRun fname f).1.w = b.w ∧ (b0.loadRun fname f).1.h = b.h ∧
      ∀ j i, j < b.N → i < b.N →
        (b0.loadRun fname f).1.numbers j i = b.numbers j i := by
  have hv41 : ∀ j i, j < b.N → i < b.N →
      0 ≤ b.numbers j i ∧ b.numbers j i ≤ 41 := by
    intro j i hj hi
    have := hv j i hj hi
    omega
  refine ⟨_, save_eq b hv41, ?_⟩
  intro b0 fname
  set rows : List ((List Nat × Bool) × List Int) :=
    (List.range b.N).map (fun j =>
      (((((List.range b.N).map (fun i =>
          (symChar (b.numbers j i),
           if i ≠ b.N - 1 ∧ (i + 1) % b.w = 0 then [32, 32] else ([] : List Nat)))).map
          (fun p => 32 :: 32 :: p.1 :: p.2)).flatten,
        decide ((j + 1) % b.h = 0 ∧ j ≠ b.N - 1)),
       (List.range b.N).map (fun i => b.numbers j i))) with hrows
  have hbody :
      (rows.map (fun r => r.1.1 ++ [10] ++ (if r.1.2 then [10] else []))).flatten =
      ((List.range b.N).map (fun j =>
        ((((List.range b.N).map (fun i =>
            (symChar (b.numbers j i),
             if i ≠ b.N - 1 ∧ (i + 1) % b.w = 0 then [32, 32] else ([] : List Nat)))).map
            (fun p => 32 :: 32 :: p.1 :: p.2)).flatten) ++ [10] ++
          (if (j + 1) % b.h = 0 ∧ j ≠ b.N - 1 then [10] else []))).flatten := by
    rw [hrows, List.map_map]
    refine congrArg List.flatten (List.map_congr_left ?_)
    intro j _
    simp only [Function.comp_apply, decide_eq_true_eq]
  have hvals : rows.map (fun r => r.2) =
      (List.range b.N).map (fun j => (List.range b.N).map (fun i => b.numbers j i)) := by
    rw [hrows, List.map_map]
    refine List.map_congr_left ?_
    intro j _
    rfl
  have hll : loadLines (splitOnC 10 (headerLine b.w b.h ++ 10 ::
      (rows.map (fun r => r.1.1 ++ [10] ++ (if r.1.2 then [10] else []))).flatten))
      0 [] none =
      .ok (((List.range b.N).map (fun j =>
        (List.range b.N).map (fun i => b.numbers j i))).flatten,
        some [(b.w : Int), (b.h : Int)]) := by
    rw [splitOnC_sep 10 _ _ (headerLine_no_nl b.w b.h)]
    rw [loadLines_step_header _ _ 0 [] none b.w b.h (words_headerLine b.w b.h)]
    rw [loadLines_body rows 1 [] (some [(b.w : Int), (b.h : Int)])
      (by rw [hrows]; exact c7_rows_spec b h2 hv41)]
    rw [hvals, List.nil_append]
  have hrowlen : ∀ r ∈ (List.range b.N).map (fun j =>
      (List.range b.N).map (fun i => b.numbers j i)), r.length = b.N := by
    intro r hr
    obtain ⟨j, -, rfl⟩ := List.mem_map.mp hr
    simp
  have harrlen : (((List.range b.N).map (fun j =>
      (List.range b.N).map (fun i => b.numbers j i))).flatten).length = b.N * b.N := by
    rw [flatten_length_const b.N _ hrowlen]
    simp
  rw [← hbody]
  unfold Board.loadRun
  rw [hll]
  dsimp only
  rw [if_pos (show ([(b.w : Int), (b.h : Int)] : List Int).length = 2 from rfl)]
  unfold Board.load_numbers
  dsimp only
  rw [if_neg ?hsz]
  case hsz =>
    simp only [List.getD_cons_zero, List.getD_cons_succ, Int.toNat_natCast]
    push_neg
    constructor
    · rw [harrlen, pow_two]
      rfl
    · exact h2
  refine ⟨rfl, rfl, rfl, ?_⟩
  intro j i hj hi
  simp only [List.getD_cons_zero, List.getD_cons_succ, Int.toNat_natCast]
  rw [if_pos ⟨hj, hi⟩]
  have hx : (((List.range b.N).map (fun j =>
      (List.range b.N).map (fun i => b.numbers j i))).flatten).getD (j * b.N + i) 0 =
      b.numbers j i := by
    rw [flatten_getD b.N _ j i hrowlen (by simpa using hj) hi]
    rw [getD_map_range b.N j _ [] hj, getD_map_range b.N i _ 0 hi]
  exact hx

set_option maxRecDepth 10000 in
/-- C7 counterexample: the `cellsize = (6, 7)` board `c7Board` stores the
legal value `42` (`boardsize = 42`) at `(0, 0)`; `save` succeeds and a
subsequent `load` succeeds, but the cell reads back as `10`, because
`str(Value(42))` is the lowercase letter `a` and the parser first folds
tokens with `upper`, mapping it onto the symbol for value `10`. -/
theorem c7_counterexample :
    (c7Board.save).isSome = true ∧
    (board22.loadRun none ((c7Board.save).getD [])).2 = none ∧
    (board22.loadRun none ((c7Board.save).getD [])).1.numbers 0 0 = 10 ∧
    c7Board.numbers 0 0 = 42 := by
  refine ⟨by decide, by decide, by decide, by decide⟩

/-- Witness for C7's amended statement at the concrete `cellsize = (2, 2)`
latin-square board `c7Small`: the saved file loads back into any board
with the dimensions and all sixteen values restored. -/
theorem c7_roundtrip_witness :
    ∃ f, c7Small.save = some f ∧ ∀ (b0 : Board) (fname : Option (List Nat)),
      (b0.loadRun fname f).2 = none ∧
      (b0.loadRun fname f).1.w = c7Small.w ∧ (b0.loadRun fname f).1.h = c7Small.h ∧
      ∀ j i, j < c7Small.N → i < c7Small.N →
        (b0.loadRun fname f).1.numbers j i = c7Small.numbers j i :=
  c7_roundtrip c7Small (by decide) (by decide) (by
    intro j i hj hi
    have hj4 : j < 4 := hj
    have hi4 : i < 4 := hi
    interval_cases j <;> interval_cases i <;> exact ⟨by decide, by decide⟩)

/-! ## C1 groundwork: ranges, cells, regions, basic list facts -/

/-- Membership in `xrange(a, b)`. -/
theorem mem_rangeL (a b x : Nat) : x ∈ rangeL a b ↔ a ≤ x ∧ x < b := by
  unfold rangeL
  constructor
  · intro hx
    obtain ⟨k, hk, rfl⟩ := List.mem_map.mp hx
    have := List.mem_range.mp hk
    omega
  · intro ⟨h1, h2⟩
    refine List.mem_map.mpr ⟨x - a, List.mem_range.mpr (by omega), by omega⟩

/-- Membership in the cell list. -/
theorem mem_cellsOf (n : Nat) (c : Nat × Nat) :
    c ∈ cellsOf n ↔ c.1 < n ∧ c.2 < n := by
  unfold cellsOf
  rw [List.mem_flatMap]
  constructor
  · rintro ⟨j, hj, hc⟩
    obtain ⟨i, hi, rfl⟩ := List.mem_map.mp hc
    exact ⟨((mem_rangeL 0 n j).mp hj).2, ((mem_rangeL 0 n i).mp hi).2⟩
  · rintro ⟨h1, h2⟩
    exact ⟨c.1, (mem_rangeL 0 n c.1).mpr ⟨Nat.zero_le _, h1⟩,
      List.mem_map.mpr ⟨c.2, (mem_rangeL 0 n c.2).mpr ⟨Nat.zero_le _, h2⟩, rfl⟩⟩

/-- The number of grid cells. -/
theorem cellsOf_length (n : Nat) : (cellsOf n).length = n * n := by
  unfold cellsOf
  rw [List.length_flatMap]
  have h2 : ((rangeL 0 n).map (List.length ∘ fun j => (rangeL 0 n).map (fun i => (j, i)))) =
      (rangeL 0 n).map (fun _ => n) := by
    refine List.map_congr_left ?_
    intro j _
    simp [Function.comp_apply, rangeL]
  rw [h2, List.map_const']
  have h3 : (rangeL 0 n).length = n := by simp [rangeL]
  rw [h3, List.sum_replicate, smul_eq_mul]

/-- Membership in the full candidate range. -/
theorem fullRange_mem_iff (n : Nat) (x : Int) :
    x ∈ fullRange n ↔ 1 ≤ x ∧ x ≤ (n : Int) := by
  unfold fullRange
  constructor
  · intro hx
    obtain ⟨k, hk, rfl⟩ := List.mem_map.mp hx
    have := List.mem_range.mp hk
    omega
  · intro ⟨h1, h2⟩
    refine List.mem_map.mpr ⟨(x - 1).toNat, List.mem_range.mpr (by omega), by omega⟩

/-- The full range has `boardsize` entries. -/
theorem fullRange_length (n : Nat) : (fullRange n).length = n := by
  simp [fullRange]

/-- A duplicate-free list included in another is no longer. -/
theorem nodup_length_le {α : Type} [DecidableEq α] {l' l : List α}
    (hnd : l'.Nodup) (hsub : l' ⊆ l) : l'.length ≤ l.length := by
  calc l'.length = l'.toFinset.card := (List.toFinset_card_of_nodup hnd).symm
    _ ≤ l.toFinset.card := Finset.card_le_card (fun x hx =>
        List.mem_toFinset.mpr (hsub (List.mem_toFinset.mp hx)))
    _ ≤ l.length := List.toFinset_card_le l

/-- A duplicate-free nonempty sub-list of a singleton is that singleton. -/
theorem eq_singleton_of_subset {l : List Int} {v : Int} (hnd : l.Nodup)
    (hsub : l ⊆ [v]) (hv : v ∈ l) : l = [v] := by
  rcases l with _ | ⟨a, t⟩
  · cases hv
  · have ha : a = v := List.mem_singleton.mp (hsub (List.mem_cons_self _ _))
    subst ha
    rcases t with _ | ⟨b, t⟩
    · rfl
    · have hb : b = a := List.mem_singleton.mp
        (hsub (List.mem_cons_of_mem _ (List.mem_cons_self _ _)))
      subst hb
      rw [List.nodup_cons] at hnd
      exact absurd (List.mem_cons_self _ _) hnd.1

/-- A length-one list is the singleton of its default head. -/
theorem eq_singleton_of_length_one {l : List Int} (h : l.length = 1) :
    l = [l.headD 0] := by
  rcases l with _ | ⟨a, _ | _⟩ <;> simp_all

/-- A solved cell reads its value. -/
theorem getItem_of_singleton {s : SState} {j i : Nat} {v : Int}
    (h : s.vals j i = [v]) : getItem s j i = v := by
  unfold getItem
  rw [h]

/-- An unsolved (or empty, or multi-candidate) cell reads `0`. -/
theorem getItem_of_length_ne_one {s : SState} {j i : Nat}
    (h : (s.vals j i).length ≠ 1) : getItem s j i = 0 := by
  unfold getItem
  rcases hv : s.vals j i with _ | ⟨a, _ | ⟨b, t⟩⟩
  · rfl
  · rw [hv] at h
    simp at h
  · rfl

/-- The peer relation is symmetric. -/
theorem peer_symm {w h : Nat} {c d : Nat × Nat} (hp : peer w h c d) :
    peer w h d c := by
  obtain ⟨hne, hcd⟩ := hp
  refine ⟨fun hc => hne hc.symm, ?_⟩
  rcases hcd with h1 | h1 | ⟨h1, h2⟩
  · exact Or.inl h1.symm
  · exact Or.inr (Or.inl h1.symm)
  · exact Or.inr (Or.inr ⟨h1.symm, h2.symm⟩)

/-- Membership in a region, as congruence of the band indices. -/
theorem mem_regionCells {s : SState} (hw : 0 < s.w) (hh : 0 < s.h)
    (j i : Nat) (c : Nat × Nat) :
    c ∈ regionCells s j i ↔ c.1 / s.h = j / s.h ∧ c.2 / s.w = i / s.w := by
  unfold regionCells vLimits hLimits
  rw [List.mem_flatMap]
  constructor
  · rintro ⟨v, hv, hc⟩
    obtain ⟨x, hx, rfl⟩ := List.mem_map.mp hc
    obtain ⟨hv1, hv2⟩ := (mem_rangeL _ _ v).mp hv
    obtain ⟨hx1, hx2⟩ := (mem_rangeL _ _ x).mp hx
    dsimp only at hv1 hv2 hx1 hx2 ⊢
    constructor
    · exact Nat.div_eq_of_lt_le (by omega) (by rw [Nat.succ_mul]; omega)
    · exact Nat.div_eq_of_lt_le (by omega) (by rw [Nat.succ_mul]; omega)
  · rintro ⟨h1, h2⟩
    have hc1a : j / s.h * s.h ≤ c.1 := by
      rw [← h1]; exact Nat.div_mul_le_self _ _
    have hc1b : c.1 < j / s.h * s.h + s.h := by
      rw [← h1]
      have hdm := Nat.div_add_mod c.1 s.h
      have hml := Nat.mod_lt c.1 hh
      have hcm : s.h * (c.1 / s.h) = c.1 / s.h * s.h := Nat.mul_comm _ _
      omega
    have hc2a : i / s.w * s.w ≤ c.2 := by
      rw [← h2]; exact Nat.div_mul_le_self _ _
    have hc2b : c.2 < i / s.w * s.w + s.w := by
      rw [← h2]
      have hdm := Nat.div_add_mod c.2 s.w
      have hml := Nat.mod_lt c.2 hw
      have hcm : s.w * (c.2 / s.w) = c.2 / s.w * s.w := Nat.mul_comm _ _
      omega
    exact ⟨c.1, (mem_rangeL _ _ c.1).mpr ⟨hc1a, hc1b⟩,
      List.mem_map.mpr ⟨c.2, (mem_rangeL _ _ c.2).mpr ⟨hc2a, hc2b⟩, rfl⟩⟩

/-- Region cells of a grid cell stay on the grid. -/
theorem regionCells_subset_grid {s : SState} (hw : 0 < s.w) (hh : 0 < s.h)
    {j i : Nat} (hj : j < s.N) (hi : i < s.N) :
    ∀ c ∈ regionCells s j i, c.1 < s.N ∧ c.2 < s.N := by
  intro c hc
  obtain ⟨h1, h2⟩ := (mem_regionCells hw hh j i c).mp hc
  have hNj : j < s.w * s.h := hj
  have hNi : i < s.w * s.h := hi
  have hj2 : j / s.h < s.w := Nat.div_lt_iff_lt_mul hh |>.mpr hNj
  have hi2 : i / s.w < s.h := Nat.div_lt_iff_lt_mul hw |>.mpr
    (by rw [Nat.mul_comm]; exact hNi)
  have hb1 : c.1 < (j / s.h + 1) * s.h := by
    rw [← h1, Nat.succ_mul]
    have hdm := Nat.div_add_mod c.1 s.h
    have hml := Nat.mod_lt c.1 hh
    have hcm : s.h * (c.1 / s.h) = c.1 / s.h * s.h := Nat.mul_comm _ _
    omega
  have hb2 : c.2 < (i / s.w + 1) * s.w := by
    rw [← h2, Nat.succ_mul]
    have hdm := Nat.div_add_mod c.2 s.w
    have hml := Nat.mod_lt c.2 hw
    have hcm : s.w * (c.2 / s.w) = c.2 / s.w * s.w := Nat.mul_comm _ _
    omega
  constructor
  · show c.1 < s.w * s.h
    calc c.1 < (j / s.h + 1) * s.h := hb1
      _ ≤ s.w * s.h := Nat.mul_le_mul_right _ (by omega)
  · show c.2 < s.w * s.h
    calc c.2 < (i / s.w + 1) * s.w := hb2
      _ ≤ s.h * s.w := Nat.mul_le_mul_right _ (by omega)
      _ = s.w * s.h := Nat.mul_comm _ _

/-- A grid cell is a member of its own region. -/
theorem self_mem_regionCells {s : SState} (hw : 0 < s.w) (hh : 0 < s.h)
    (j i : Nat) : (j, i) ∈ regionCells s j i :=
  (mem_regionCells hw hh j i (j, i)).mpr ⟨rfl, rfl⟩

/-- Stepped-range elements are bounded by the stop value. -/
theorem mem_rangeStep_lt {start n step x : Nat} (hst : 0 < step)
    (hx : x ∈ rangeStep start n step) : start ≤ x ∧ x < n := by
  unfold rangeStep at hx
  rw [if_neg (by omega)] at hx
  obtain ⟨k, hk, rfl⟩ := List.mem_map.mp hx
  have hk := List.mem_range.mp hk
  have ha : step * (k + 1) ≤ step * ((n - start + step - 1) / step) :=
    Nat.mul_le_mul_left step (by omega)
  have hb : (n - start + step - 1) / step * step ≤ n - start + step - 1 :=
    Nat.div_mul_le_self _ _
  rw [Nat.mul_comm] at hb
  rw [Nat.mul_succ] at ha
  omega

/-! ## Fold helpers and fuel monotonicity -/

/-- Transporting a successful `Option` fold along a pointwise
success-preserving translation of its step function. -/
theorem foldlM_exact {σ α : Type} (f g : σ → α → Option σ) :
    ∀ (l : List α), (∀ t a t', a ∈ l → f t a = some t' → g t a = some t') →
      ∀ (s s' : σ), l.foldlM f s = some s' → l.foldlM g s = some s'
  | [], _, s, s', h => h
  | a :: l, hfg, s, s', h => by
      simp only [List.foldlM_cons, Option.pure_def, Option.bind_eq_bind,
        Option.bind_eq_some] at h ⊢
      rcases h with ⟨s1, h1, h2⟩
      exact ⟨s1, hfg s a s1 (List.mem_cons_self _ _) h1,
        foldlM_exact f g l
          (fun t b t' hb => hfg t b t' (List.mem_cons_of_mem _ hb)) s1 s' h2⟩

/-- An `Option` fold succeeds when every step succeeds, under a
preserved invariant. -/
theorem foldlM_total {σ α : Type} (P : σ → Prop) (f : σ → α → Option σ) :
    ∀ (l : List α) (s : σ),
      (∀ t a, a ∈ l → P t → (f t a).isSome) →
      (∀ t a t', a ∈ l → P t → f t a = some t' → P t') →
      P s → (l.foldlM f s).isSome
  | [], s, _, _, _ => by simp
  | a :: l, s, htot, hpres, hs => by
      simp only [List.foldlM_cons, Option.pure_def, Option.bind_eq_bind]
      rcases hfa : f s a with _ | s1
      · have := htot s a (List.mem_cons_self _ _) hs
        rw [hfa] at this
        simp at this
      · rw [Option.some_bind]
        exact foldlM_total P f l s1
          (fun t b hb ht => htot t b (List.mem_cons_of_mem _ hb) ht)
          (fun t b t' hb ht hstep => hpres t b t' (List.mem_cons_of_mem _ hb) ht hstep)
          (hpres s a s1 (List.mem_cons_self _ _) hs hfa)

/-- A fold whose steps fix the state returns it unchanged. -/
theorem foldlM_id {σ α : Type} (f : σ → α → Option σ) :
    ∀ (l : List α) (s : σ), (∀ a ∈ l, f s a = some s) → l.foldlM f s = some s
  | [], _, _ => rfl
  | a :: l, s, h => by
      simp only [List.foldlM_cons, Option.pure_def, Option.bind_eq_bind]
      rw [h a (List.mem_cons_self _ _), Option.some_bind]
      exact foldlM_id f l s (fun b hb => h b (List.mem_cons_of_mem _ hb))

/-- More fuel never changes a successful propagation run. -/
theorem engineStep_mono :
    ∀ (fuel : Nat) (op : PropOp) (s : SState) (j i : Nat) (v : Int) (s' : SState),
      engineStep fuel op s j i v = some s' →
      ∀ fuel', fuel ≤ fuel' → engineStep fuel' op s j i v = some s' := by
  intro fuel
  induction fuel with
  | zero => intro op s j i v s' h; simp [engineStep] at h
  | succ fuel ih =>
      intro op s j i v s' h fuel' hle
      obtain ⟨f2, rfl⟩ : ∃ f2, fuel' = f2 + 1 := ⟨fuel' - 1, by omega⟩
      have hle2 : fuel ≤ f2 := by omega
      cases op with
      | sub =>
          rw [engineStep] at h
          rw [engineStep]
          split at h
          · rename_i hin
            rw [if_pos hin]
            dsimp only at h ⊢
            split at h
            · rename_i hlen
              rw [if_pos hlen]
              exact ih .set _ j i _ s' h f2 hle2
            · rename_i hlen
              rw [if_neg hlen]
              exact h
          · rename_i hin
            rw [if_neg hin]
            exact h
      | set =>
          rw [engineStep] at h
          rw [engineStep]
          split at h
          · rename_i hv
            rw [if_pos hv]
            exact ih .prop _ j i v s' h f2 hle2
          · rename_i hv
            rw [if_neg hv]
            split at h
            · rename_i hg
              rw [if_pos hg]
              exact h
            · rename_i hg
              rw [if_neg hg]
              exact h
      | prop =>
          rw [engineStep] at h
          rw [engineStep]
          simp only [Option.bind_eq_bind, bind, Option.bind_eq_some] at h ⊢
          rcases h with ⟨s1, h1, s2, h2, h3⟩
          refine ⟨s1, ?_, s2, ?_, ?_⟩
          · refine foldlM_exact _ _ _ ?_ s s1 h1
            intro t a t' _ hstep
            split at hstep
            · rename_i hcond
              rw [if_pos hcond]
              exact ih .sub t j a v t' hstep f2 hle2
            · rename_i hcond
              rw [if_neg hcond]
              exact hstep
          · refine foldlM_exact _ _ _ ?_ s1 s2 h2
            intro t a t' _ hstep
            split at hstep
            · rename_i hcond
              rw [if_pos hcond]
              exact ih .sub t a i v t' hstep f2 hle2
            · rename_i hcond
              rw [if_neg hcond]
              exact hstep
          · refine foldlM_exact _ _ _ ?_ s2 s' h3
            intro t a t' _ hstep
            split at hstep
            · rename_i hcond
              rw [if_pos hcond]
              exact ih .sub t a.1 a.2 v t' hstep f2 hle2
            · rename_i hcond
              rw [if_neg hcond]
              exact hstep

/-! ## The propagation measure and fuel adequacy -/

/-- Pointwise bound on a mapped sum, with slack at one member. -/
theorem sum_map_add_le {α : Type} (f g : α → Nat) (k : Nat) :
    ∀ (l : List α) (a0 : α), a0 ∈ l → (∀ a ∈ l, g a ≤ f a) → g a0 + k ≤ f a0 →
      (l.map g).sum + k ≤ (l.map f).sum
  | [], a0, h, _, _ => absurd h (List.not_mem_nil a0)
  | a :: l, a0, h, hle, hk => by
      rcases List.mem_cons.mp h with rfl | h0
      · have h1 : (l.map g).sum ≤ (l.map f).sum :=
          List.sum_le_sum (fun b hb => hle b (List.mem_cons_of_mem _ hb))
        simp only [List.map_cons, List.sum_cons]
        omega
      · have h1 := sum_map_add_le f g k l a0 h0
          (fun b hb => hle b (List.mem_cons_of_mem _ hb)) hk
        have h2 : g a ≤ f a := hle a (List.mem_cons_self _ _)
        simp only [List.map_cons, List.sum_cons]
        omega

/-- Shrinking steps do not increase the measure. -/
theorem msum_le_of_stepok {N : Nat} {s s' : SState} (hok : StepOK s s')
    (hnd : nodupS s') : msum N s' ≤ msum N s := by
  unfold msum
  refine List.sum_le_sum ?_
  intro c _
  exact nodup_length_le (hnd c.1 c.2) (hok.2.2.1 c.1 c.2)

/-- A grid cell's candidate count is part of the measure. -/
theorem cell_length_le_msum {N : Nat} {s : SState} {j i : Nat}
    (hj : j < N) (hi : i < N) : (s.vals j i).length ≤ msum N s := by
  unfold msum
  have hm : (j, i) ∈ cellsOf N := (mem_cellsOf N (j, i)).mpr ⟨hj, hi⟩
  exact List.single_le_sum (fun x _ => Nat.zero_le x) _
    (List.mem_map_of_mem (fun c : Nat × Nat => (s.vals c.1 c.2).length) hm)

/-- Rewriting one grid cell with a shorter list lowers the measure by at
least the difference. -/
theorem msum_setCell_le {N : Nat} (s : SState) {j i : Nat} (hj : j < N) (hi : i < N)
    (l : List Int) (k : Nat) (hk : l.length + k ≤ (s.vals j i).length) :
    msum N (setCell s j i l) + k ≤ msum N s := by
  unfold msum
  refine sum_map_add_le _ _ k (cellsOf N) (j, i)
    ((mem_cellsOf N (j, i)).mpr ⟨hj, hi⟩) ?_ ?_
  · intro c _
    dsimp only
    rw [setCell_vals]
    split
    · rename_i hc
      rw [hc.1, hc.2]
      omega
    · exact le_refl _
  · dsimp only
    rw [setCell_vals, if_pos ⟨rfl, rfl⟩]
    exact hk

/-- Folding grid-cell subtractions preserves the invariant and succeeds
when each subtraction does. -/
theorem sub_fold_ok {α : Type} {N m fuel : Nat} {v : Int}
    (f : SState → α → Option SState)
    (hih : ∀ (t : SState) (jj ii : Nat), t.N = N → nodupS t → noZero t →
      jj < N → ii < N → msum N t ≤ m → (engineStep fuel .sub t jj ii v).isSome) :
    ∀ (l : List α),
      (∀ (t : SState) (a : α), a ∈ l → f t a = pure t ∨
        ∃ jj ii, jj < N ∧ ii < N ∧ f t a = engineStep fuel .sub t jj ii v) →
      ∀ (t : SState), t.N = N → nodupS t → noZero t → msum N t ≤ m →
      ∃ t', l.foldlM f t = some t' ∧ t'.N = N ∧ nodupS t' ∧ noZero t' ∧ msum N t' ≤ m
  | [], _, t, h1, h2, h3, h4 => ⟨t, rfl, h1, h2, h3, h4⟩
  | a :: l, hf, t, h1, h2, h3, h4 => by
      simp only [List.foldlM_cons, Option.pure_def, Option.bind_eq_bind]
      rcases hf t a (List.mem_cons_self _ _) with hp | ⟨jj, ii, hjj, hii, heq⟩
      · rw [hp]
        simp only [Option.pure_def, Option.some_bind]
        exact sub_fold_ok f hih l
          (fun t b hb => hf t b (List.mem_cons_of_mem _ hb)) t h1 h2 h3 h4
      · rw [heq]
        have htot := hih t jj ii h1 h2 h3 hjj hii h4
        obtain ⟨t1, ht1⟩ := Option.isSome_iff_exists.mp htot
        rw [ht1, Option.some_bind]
        have hok := (engineStep_stepok fuel .sub t jj ii v t1 ht1 h3
          (fun hx => by simp at hx)).1
        have hnd1 := engineStep_nodup fuel .sub t jj ii v t1 ht1 h2
        have hN1 : t1.N = N := by
          show t1.w * t1.h = N
          rw [hok.1, hok.2.1]
          exact h1
        exact sub_fold_ok f hih l
          (fun t b hb => hf t b (List.mem_cons_of_mem _ hb)) t1 hN1 hnd1
          (noZero_of_stepok hok h3) (le_trans (msum_le_of_stepok hok hnd1) h4)

/-- Fuel adequacy: `3 * msum + 3` propagation levels always suffice, so
every engine operation the source performs terminates. -/
theorem engineStep_total :
    ∀ (fuel : Nat) (op : PropOp) (s : SState) (j i : Nat) (v : Int) (N m : Nat),
      s.N = N → nodupS s → noZero s → j < N → i < N →
      (op = .set → v ≠ 0 → v ∈ s.vals j i) →
      msum N s ≤ m →
      (match op with | .sub => 3*m+1 | .prop => 3*m+2 | .set => 3*m+3) ≤ fuel →
      (engineStep fuel op s j i v).isSome := by
  intro fuel
  induction fuel with
  | zero =>
      intro op s j i v N m _ _ _ _ _ _ _ hfuel
      cases op with
      | sub => exact absurd (show 3*m+1 ≤ 0 from hfuel) (by omega)
      | set => exact absurd (show 3*m+3 ≤ 0 from hfuel) (by omega)
      | prop => exact absurd (show 3*m+2 ≤ 0 from hfuel) (by omega)
  | succ fuel ih =>
      intro op s j i v N m hN hnd hz hj hi hset hm hfuel
      cases op with
      | sub =>
          have hf2 : 3 * m + 1 ≤ fuel + 1 := hfuel
          rw [engineStep]
          split
          · rename_i hin
            dsimp only
            have hlpos : 0 < (s.vals j i).length := List.length_pos_of_mem hin
            have hm1 : msum N (setCell s j i ((s.vals j i).erase v)) + 1 ≤ m := by
              have hle := msum_setCell_le (N := N) s hj hi ((s.vals j i).erase v) 1
                (by rw [List.length_erase_of_mem hin]; omega)
              omega
            split
            · rename_i hlen
              refine ih .set _ j i _ N (m - 1) hN ?_ ?_ hj hi ?_ (by omega)
                (show 3 * (m - 1) + 3 ≤ fuel by omega)
              · intro p q
                rw [setCell_vals]
                split
                · exact (hnd j i).erase v
                · exact hnd p q
              · intro p q hc
                rw [setCell_vals] at hc
                revert hc
                split
                · exact fun hc => hz j i (List.erase_subset _ _ hc)
                · exact fun hc => hz p q hc
              · exact fun _ _ => headD_mem_of_length_one hlen
            · simp
          · simp
      | set =>
          have hf2 : 3 * m + 3 ≤ fuel + 1 := hfuel
          rw [engineStep]
          split
          · rename_i hv0
            have hvin := hset rfl hv0
            have hlpos : 0 < (s.vals j i).length := List.length_pos_of_mem hvin
            refine ih .prop _ j i v N m hN ?_ ?_ hj hi
              (fun hx => by simp at hx) ?_ (show 3 * m + 2 ≤ fuel by omega)
            · intro p q
              show ((setCell s j i [v]).vals p q).Nodup
              rw [setCell_vals]
              split
              · exact List.nodup_singleton v
              · exact hnd p q
            · intro p q
              show (0 : Int) ∉ (setCell s j i [v]).vals p q
              rw [setCell_vals]
              split
              · intro hc
                exact hv0 (List.mem_singleton.mp hc).symm
              · exact hz p q
            · show msum N (setCell s j i [v]) ≤ m
              have hle := msum_setCell_le (N := N) s hj hi [v] 0
                (by simp only [List.length_singleton]; omega)
              omega
          · split <;> simp
      | prop =>
          have hf2 : 3 * m + 2 ≤ fuel + 1 := hfuel
          rw [engineStep]
          simp only [Option.bind_eq_bind, bind]
          have hih : ∀ (t : SState) (jj ii : Nat), t.N = N → nodupS t → noZero t →
              jj < N → ii < N → msum N t ≤ m → (engineStep fuel .sub t jj ii v).isSome := by
            intro t jj ii h1 h2 h3 h4 h5 h6
            exact ih .sub t jj ii v N m h1 h2 h3 h4 h5
              (fun hx => by simp at hx) h6 (show 3 * m + 1 ≤ fuel by omega)
          obtain ⟨s1, hs1, hN1, hnd1, hz1, hm1⟩ :=
            sub_fold_ok
              (fun t hh => if hh ≠ i then engineStep fuel .sub t j hh v else pure t)
              hih (rangeL 0 s.N)
              (fun t a ha => by
                by_cases hg : a ≠ i
                · right
                  refine ⟨j, a, hj, ?_, if_pos hg⟩
                  have := (mem_rangeL 0 s.N a).mp ha
                  omega
                · exact Or.inl (if_neg hg))
              s hN hnd hz hm
          rw [hs1, Option.some_bind]
          obtain ⟨s2, hs2, hN2, hnd2, hz2, hm2⟩ :=
            sub_fold_ok
              (fun t vv => if vv ≠ j then engineStep fuel .sub t vv i v else pure t)
              hih (rangeL 0 s1.N)
              (fun t a ha => by
                by_cases hg : a ≠ j
                · right
                  refine ⟨a, i, ?_, hi, if_pos hg⟩
                  have := (mem_rangeL 0 s1.N a).mp ha
                  omega
                · exact Or.inl (if_neg hg))
              s1 hN1 hnd1 hz1 hm1
          rw [hs2, Option.some_bind]
          have hw2 : 0 < s2.w := by
            by_contra hc
            have h0 : s2.w = 0 := by omega
            have hzn : s2.N = 0 := by
              show s2.w * s2.h = 0
              rw [h0, Nat.zero_mul]
            omega
          have hh2 : 0 < s2.h := by
            by_contra hc
            have h0 : s2.h = 0 := by omega
            have hzn : s2.N = 0 := by
              show s2.w * s2.h = 0
              rw [h0, Nat.mul_zero]
            omega
          obtain ⟨s3, hs3, -⟩ :=
            sub_fold_ok
              (fun t (c : Nat × Nat) =>
                if c.2 ≠ i ∨ c.1 ≠ j then engineStep fuel .sub t c.1 c.2 v else pure t)
              hih (regionCells s2 j i)
              (fun t a ha => by
                by_cases hg : a.2 ≠ i ∨ a.1 ≠ j
                · right
                  have hgr := regionCells_subset_grid hw2 hh2
                    (show j < s2.N by omega) (show i < s2.N by omega) a ha
                  exact ⟨a.1, a.2, by omega, by omega, if_pos hg⟩
                · exact Or.inl (if_neg hg))
              s2 hN2 hnd2 hz2 hm2
          rw [hs3]
          rfl

/-! ## Truth preservation: a valid assignment survives propagation -/

/-- An invariant-preserving fold, with list membership available. -/
theorem foldlM_preserve_mem {σ α : Type} (P : σ → Prop) (f : σ → α → Option σ) :
    ∀ (l : List α), (∀ s a s', a ∈ l → P s → f s a = some s' → P s') →
      ∀ (s s' : σ), P s → l.foldlM f s = some s' → P s'
  | [], _, s, s', hs, h => by
      simp only [List.foldlM_nil, Option.pure_def, Option.some.injEq] at h
      exact h ▸ hs
  | a :: l, hf, s, s', hs, h => by
      simp only [List.foldlM_cons, Option.pure_def, Option.bind_eq_bind,
        Option.bind_eq_some] at h
      rcases h with ⟨s1, h1, h2⟩
      exact foldlM_preserve_mem P f l
        (fun u b u' hb hu hstep => hf u b u' (List.mem_cons_of_mem _ hb) hu hstep)
        s1 s' (hf s a s1 (List.mem_cons_self _ _) hs h1) h2

/-- The propagation recursion never touches the cell dimensions. -/
theorem engineStep_dims :
    ∀ (fuel : Nat) (op : PropOp) (s : SState) (j i : Nat) (v : Int) (s' : SState),
      engineStep fuel op s j i v = some s' → s'.w = s.w ∧ s'.h = s.h := by
  intro fuel
  induction fuel with
  | zero => intro op s j i v s' h; simp [engineStep] at h
  | succ fuel ih =>
      intro op s j i v s' h
      cases op with
      | sub =>
          rw [engineStep] at h
          split at h
          · dsimp only at h
            split at h
            · have hd := ih .set _ j i _ s' h
              exact hd
            · injection h with h
              exact h ▸ ⟨rfl, rfl⟩
          · injection h with h
            exact h ▸ ⟨rfl, rfl⟩
      | set =>
          rw [engineStep] at h
          split at h
          · have hd := ih .prop _ j i v s' h
            exact hd
          · split at h <;> (injection h with h; exact h ▸ ⟨rfl, rfl⟩)
      | prop =>
          rw [engineStep] at h
          simp only [Option.bind_eq_bind, bind, Option.bind_eq_some] at h
          rcases h with ⟨s1, h1, s2, h2, h3⟩
          have key : ∀ (l : List Nat) (f : SState → Nat → Option SState),
              (∀ t a t', f t a = some t' → t'.w = t.w ∧ t'.h = t.h) →
              ∀ (u u' : SState), l.foldlM f u = some u' → u'.w = u.w ∧ u'.h = u.h := by
            intro l f hf u u' hfold
            exact foldlM_preserve (fun x => x.w = u.w ∧ x.h = u.h) f
              (fun x a x' hx hstep =>
                ⟨(hf x a x' hstep).1.trans hx.1, (hf x a x' hstep).2.trans hx.2⟩)
              l u u' ⟨rfl, rfl⟩ hfold
          have k1 := key _ _ (fun t a t' hstep => by
            split at hstep
            · exact ih .sub t j a v t' hstep
            · injection hstep with hstep; exact hstep ▸ ⟨rfl, rfl⟩) s s1 h1
          have k2 := key _ _ (fun t a t' hstep => by
            split at hstep
            · exact ih .sub t a i v t' hstep
            · injection hstep with hstep; exact hstep ▸ ⟨rfl, rfl⟩) s1 s2 h2
          have k3 : s'.w = s2.w ∧ s'.h = s2.h := by
            refine foldlM_preserve (fun x => x.w = s2.w ∧ x.h = s2.h) _
              (fun x a x' hx hstep => ?_) _ s2 s' ⟨rfl, rfl⟩ h3
            split at hstep
            · exact ⟨(ih .sub x a.1 a.2 v x' hstep).1.trans hx.1,
                (ih .sub x a.1 a.2 v x' hstep).2.trans hx.2⟩
            · injection hstep with hstep; exact hstep ▸ hx
          exact ⟨k3.1.trans (k2.1.trans k1.1), k3.2.trans (k2.2.trans k1.2)⟩

/-- Propagation never removes the true value of a cell, provided every
explicit operation respects the valid assignment `t`: subtractions
target values other than the cell's truth, assignments assign the
truth.  Cascaded assignments are automatically truthful, because the
remaining candidate of a freshly-singleton cell must be its truth. -/
theorem engineStep_truth :
    ∀ (fuel : Nat) (op : PropOp) (s : SState) (j i : Nat) (v : Int) (s' : SState)
      (w h : Nat) (t : Nat → Nat → Int),
      engineStep fuel op s j i v = some s' →
      s.w = w → s.h = h → validT w h t → trueIn (w * h) t s →
      j < w * h → i < w * h →
      (op = .sub → v ≠ t j i) →
      (op = .prop → v = t j i) →
      (op = .set → v ≠ 0 → v = t j i) →
      trueIn (w * h) t s' := by
  intro fuel
  induction fuel with
  | zero => intro op s j i v s' w h t hstep; simp [engineStep] at hstep
  | succ fuel ih =>
      intro op s j i v s' w h t hstep hw hh hval htr hj hi hsub hprop hsetc
      cases op with
      | sub =>
          have hvne : v ≠ t j i := hsub rfl
          rw [engineStep] at hstep
          split at hstep
          · rename_i hin
            dsimp only at hstep
            have htr1 : trueIn (w * h) t (setCell s j i ((s.vals j i).erase v)) := by
              intro p q hp hq
              rw [setCell_vals]
              split
              · rename_i hc
                rw [hc.1, hc.2]
                exact (List.mem_erase_of_ne (fun hx => hvne hx.symm)).mpr (htr j i hj hi)
              · exact htr p q hp hq
            split at hstep
            · rename_i hlen
              refine ih .set _ j i _ s' w h t hstep hw hh hval htr1 hj hi
                (fun hx => by simp at hx) (fun hx => by simp at hx) ?_
              intro _ _
              have hone := eq_singleton_of_length_one hlen
              have hmem := htr1 j i hj hi
              rw [hone] at hmem
              exact (List.mem_singleton.mp hmem).symm
            · injection hstep with hstep
              exact hstep ▸ htr1
          · injection hstep with hstep
            exact hstep ▸ htr
      | set =>
          rw [engineStep] at hstep
          split at hstep
          · rename_i hv0
            have hveq : v = t j i := hsetc rfl hv0
            have htr1 : trueIn (w * h) t
                { setCell s j i [v] with changes := s.changes + 1 } := by
              intro p q hp hq
              show t p q ∈ (setCell s j i [v]).vals p q
              rw [setCell_vals]
              split
              · rename_i hc
                rw [hc.1, hc.2, hveq]
                exact List.mem_singleton_self _
              · exact htr p q hp hq
            exact ih .prop _ j i v s' w h t hstep hw hh hval htr1 hj hi
              (fun hx => by simp at hx) (fun _ => hveq) (fun hx => by simp at hx)
          · split at hstep
            · injection hstep with hstep
              subst hstep
              intro p q hp hq
              show t p q ∈ (setCell s j i (fullRange s.N)).vals p q
              rw [setCell_vals]
              split
              · have hNval : s.N = w * h := by
                  show s.w * s.h = w * h
                  rw [hw, hh]
                rw [hNval, fullRange_mem_iff]
                have := hval.1 p q hp hq
                omega
              · exact htr p q hp hq
            · injection hstep with hstep
              exact hstep ▸ htr
      | prop =>
          have hveq : v = t j i := hprop rfl
          have hwpos : 0 < w := by
            rcases Nat.eq_zero_or_pos w with h0 | h0
            · rw [h0, Nat.zero_mul] at hj; omega
            · exact h0
          have hhpos : 0 < h := by
            rcases Nat.eq_zero_or_pos h with h0 | h0
            · rw [h0, Nat.mul_zero] at hj; omega
            · exact h0
          rw [engineStep] at hstep
          simp only [Option.bind_eq_bind, bind, Option.bind_eq_some] at hstep
          rcases hstep with ⟨s1, h1, s2, h2, h3⟩
          have hsN : s.N = w * h := by
            show s.w * s.h = w * h
            rw [hw, hh]
          have hP1 : trueIn (w * h) t s1 ∧ s1.w = w ∧ s1.h = h := by
            refine foldlM_preserve_mem (fun u => trueIn (w * h) t u ∧ u.w = w ∧ u.h = h)
              _ _ ?_ s s1 ⟨htr, hw, hh⟩ h1
            intro u a u' ha hu hustep
            split at hustep
            · rename_i hne
              have hdim := engineStep_dims fuel .sub u j a v u' hustep
              have haN : a < w * h := by
                have := (mem_rangeL 0 s.N a).mp ha
                omega
              have hpe : peer w h (j, i) (j, a) := by
                refine ⟨?_, Or.inl rfl⟩
                intro hc
                rw [Prod.mk.injEq] at hc
                exact hne hc.2.symm
              refine ⟨ih .sub u j a v u' w h t hustep hu.2.1 hu.2.2 hval hu.1 hj haN
                (fun _ => ?_) (fun hx => by simp at hx) (fun hx => by simp at hx),
                hdim.1.trans hu.2.1, hdim.2.trans hu.2.2⟩
              rw [hveq]
              exact hval.2 (j, i) (j, a) hj hi hj haN hpe
            · injection hustep with hustep
              exact hustep ▸ hu
          have hs1N : s1.N = w * h := by
            show s1.w * s1.h = w * h
            rw [hP1.2.1, hP1.2.2]
          have hP2 : trueIn (w * h) t s2 ∧ s2.w = w ∧ s2.h = h := by
            refine foldlM_preserve_mem (fun u => trueIn (w * h) t u ∧ u.w = w ∧ u.h = h)
              _ _ ?_ s1 s2 hP1 h2
            intro u a u' ha hu hustep
            split at hustep
            · rename_i hne
              have hdim := engineStep_dims fuel .sub u a i v u' hustep
              have haN : a < w * h := by
                have := (mem_rangeL 0 s1.N a).mp ha
                omega
              have hpe : peer w h (j, i) (a, i) := by
                refine ⟨?_, Or.inr (Or.inl rfl)⟩
                intro hc
                rw [Prod.mk.injEq] at hc
                exact hne hc.1.symm
              refine ⟨ih .sub u a i v u' w h t hustep hu.2.1 hu.2.2 hval hu.1 haN hi
                (fun _ => ?_) (fun hx => by simp at hx) (fun hx => by simp at hx),
                hdim.1.trans hu.2.1, hdim.2.trans hu.2.2⟩
              rw [hveq]
              exact hval.2 (j, i) (a, i) hj hi haN hi hpe
            · injection hustep with hustep
              exact hustep ▸ hu
          have hs2w : 0 < s2.w := by rw [hP2.2.1]; exact hwpos
          have hs2h : 0 < s2.h := by rw [hP2.2.2]; exact hhpos
          have hs2N : s2.N = w * h := by
            show s2.w * s2.h = w * h
            rw [hP2.2.1, hP2.2.2]
          have hP3 : trueIn (w * h) t s' ∧ s'.w = w ∧ s'.h = h := by
            refine foldlM_preserve_mem (fun u => trueIn (w * h) t u ∧ u.w = w ∧ u.h = h)
              _ _ ?_ s2 s' hP2 h3
            intro u a u' ha hu hustep
            split at hustep
            · rename_i hne
              have hdim := engineStep_dims fuel .sub u a.1 a.2 v u' hustep
              have hgr := regionCells_subset_grid hs2w hs2h
                (show j < s2.N by omega) (show i < s2.N by omega) a ha
              have hreg := (mem_regionCells hs2w hs2h j i a).mp ha
              have hpe : peer w h (j, i) (a.1, a.2) := by
                refine ⟨?_, Or.inr (Or.inr ?_)⟩
                · intro hc
                  rw [Prod.mk.injEq] at hc
                  rcases hne with hne | hne
                  · exact hne hc.2.symm
                  · exact hne hc.1.symm
                · rw [hP2.2.1, hP2.2.2] at hreg
                  exact ⟨hreg.1.symm, hreg.2.symm⟩
              refine ⟨ih .sub u a.1 a.2 v u' w h t hustep hu.2.1 hu.2.2 hval hu.1
                (by omega) (by omega)
                (fun _ => ?_) (fun hx => by simp at hx) (fun hx => by simp at hx),
                hdim.1.trans hu.2.1, hdim.2.trans hu.2.2⟩
              rw [hveq]
              exact hval.2 (j, i) (a.1, a.2) hj hi (by omega) (by omega) hpe
            · injection hustep with hustep
              exact hustep ▸ hu
          exact hP3.1

/-! ## After propagation the assigned value is gone from the peers -/

/-- A completed subtraction leaves the target cell without the value. -/
theorem engineStep_sub_removes (fuel : Nat) (s : SState) (j i : Nat) (v : Int)
    (s' : SState) (h : engineStep fuel .sub s j i v = some s')
    (hnd : nodupS s) (hz : noZero s) : v ∉ s'.vals j i := by
  rcases fuel with _ | fuel
  · simp [engineStep] at h
  rw [engineStep] at h
  split at h
  · rename_i hin
    dsimp only at h
    split at h
    · rename_i hlen
      have hu : ((setCell s j i ((s.vals j i).erase v)).vals j i).headD 0 ∈
          (setCell s j i ((s.vals j i).erase v)).vals j i :=
        headD_mem_of_length_one hlen
      have hune : ((setCell s j i ((s.vals j i).erase v)).vals j i).headD 0 ≠ v := by
        have hu2 := hu
        rw [setCell_self] at hu2
        rw [setCell_self]
        exact (((hnd j i).mem_erase_iff).mp hu2).1
      have hzb : noZero (setCell s j i ((s.vals j i).erase v)) := by
        intro p q hc
        rw [setCell_vals] at hc
        revert hc
        split
        · exact fun hc => hz j i (List.erase_subset _ _ hc)
        · exact fun hc => hz p q hc
      have hok := engineStep_stepok fuel .set _ j i _ s' h hzb (fun _ => hu)
      intro hc
      have hvm := (hok.2 rfl).1 hc
      exact hune (List.mem_singleton.mp hvm).symm
    · injection h with h
      subst h
      rw [setCell_self]
      intro hc
      exact (((hnd j i).mem_erase_iff).mp hc).1 rfl
  · rename_i hin
    injection h with h
    subst h
    exact hin

/-- Stability: a fold of subtractions (and skips) of the same value
keeps the engine well-formed and never re-introduces the value. -/
theorem fold_sub_stable {α : Type} {fuel : Nat} {v : Int} (p q : Nat)
    (f : SState → α → Option SState) (l : List α)
    (hf : ∀ (u : SState) (a : α), a ∈ l → f u a = pure u ∨
      ∃ jj ii, f u a = engineStep fuel .sub u jj ii v)
    (u u' : SState) (hnd : nodupS u) (hz : noZero u)
    (hfold : l.foldlM f u = some u') :
    nodupS u' ∧ noZero u' ∧ u'.w = u.w ∧ u'.h = u.h ∧
      (v ∉ u.vals p q → v ∉ u'.vals p q) := by
  refine foldlM_preserve_mem (fun x => nodupS x ∧ noZero x ∧ x.w = u.w ∧ x.h = u.h ∧
    (v ∉ u.vals p q → v ∉ x.vals p q)) f l ?_ u u'
    ⟨hnd, hz, rfl, rfl, fun hx => hx⟩ hfold
  intro x a x' ha hx hstep
  rcases hf x a ha with hp | ⟨jj, ii, heq⟩
  · rw [hp] at hstep
    injection hstep with hstep
    exact hstep ▸ hx
  · rw [heq] at hstep
    have hok := (engineStep_stepok fuel .sub x jj ii v x' hstep hx.2.1
      (fun hc => by simp at hc)).1
    refine ⟨engineStep_nodup fuel .sub x jj ii v x' hstep hx.1,
      noZero_of_stepok hok hx.2.1, hok.1.trans hx.2.2.1, hok.2.1.trans hx.2.2.2.1, ?_⟩
    intro habs hc
    exact (hx.2.2.2.2 habs) (hok.2.2.1 p q hc)

/-- If some step of the fold is exactly the subtraction at `(p, q)`,
the value is absent from that cell afterwards. -/
theorem fold_sub_covers {α : Type} {fuel : Nat} {v : Int} (p q : Nat)
    (f : SState → α → Option SState) :
    ∀ (l : List α),
      (∀ (u : SState) (a : α), a ∈ l → f u a = pure u ∨
        ∃ jj ii, f u a = engineStep fuel .sub u jj ii v) →
      ∀ (a0 : α), a0 ∈ l → (∀ u, f u a0 = engineStep fuel .sub u p q v) →
      ∀ (u u' : SState), nodupS u → noZero u → l.foldlM f u = some u' →
        v ∉ u'.vals p q
  | [], _, a0, ha0, _, _, _, _, _, _ => absurd ha0 (List.not_mem_nil _)
  | a :: l, hf, a0, ha0, hspec, u, u', hnd, hz, hfold => by
      simp only [List.foldlM_cons, Option.pure_def, Option.bind_eq_bind,
        Option.bind_eq_some] at hfold
      rcases hfold with ⟨u1, h1, h2⟩
      rcases List.mem_cons.mp ha0 with rfl | ha0'
      · rw [hspec u] at h1
        have habs := engineStep_sub_removes fuel u p q v u1 h1 hnd hz
        have hnd1 := engineStep_nodup fuel .sub u p q v u1 h1 hnd
        have hz1 := noZero_of_stepok (engineStep_stepok fuel .sub u p q v u1 h1 hz
          (fun hc => by simp at hc)).1 hz
        have hst := fold_sub_stable p q f l
          (fun x b hb => hf x b (List.mem_cons_of_mem _ hb)) u1 u' hnd1 hz1 h2
        exact hst.2.2.2.2 habs
      · rcases hf u a (List.mem_cons_self _ _) with hp | ⟨jj, ii, heq⟩
        · rw [hp] at h1
          injection h1 with h1
          subst h1
          exact fold_sub_covers p q f l
            (fun x b hb => hf x b (List.mem_cons_of_mem _ hb)) a0 ha0' hspec
            u u' hnd hz h2
        · rw [heq] at h1
          have hnd1 := engineStep_nodup fuel .sub u jj ii v u1 h1 hnd
          have hz1 := noZero_of_stepok (engineStep_stepok fuel .sub u jj ii v u1 h1 hz
            (fun hc => by simp at hc)).1 hz
          exact fold_sub_covers p q f l
            (fun x b hb => hf x b (List.mem_cons_of_mem _ hb)) a0 ha0' hspec
            u1 u' hnd1 hz1 h2

/-- After a completed propagation run, the propagated value is absent
from every peer of the origin cell. -/
theorem engineStep_prop_removes :
    ∀ (fuel : Nat) (s : SState) (j i : Nat) (v : Int) (s' : SState),
      engineStep fuel .prop s j i v = some s' →
      nodupS s → noZero s → j < s.N → i < s.N →
      ∀ p : Nat × Nat, p.1 < s.N → p.2 < s.N → peer s.w s.h (j, i) p →
        v ∉ s'.vals p.1 p.2 := by
  intro fuel s j i v s' h hnd hz hj hi p hp1 hp2 hpe
  rcases fuel with _ | fuel
  · simp [engineStep] at h
  rw [engineStep] at h
  simp only [Option.bind_eq_bind, bind, Option.bind_eq_some] at h
  rcases h with ⟨s1, h1, s2, h2, h3⟩
  have hshape1 : ∀ (u : SState) (a : Nat), a ∈ rangeL 0 s.N →
      (if a ≠ i then engineStep fuel .sub u j a v else pure u) = pure u ∨
      ∃ jj ii, (if a ≠ i then engineStep fuel .sub u j a v else pure u) =
        engineStep fuel .sub u jj ii v := by
    intro u a _
    by_cases hg : a ≠ i
    · exact Or.inr ⟨j, a, if_pos hg⟩
    · exact Or.inl (if_neg hg)
  have hst1 := fun (u u' : SState) hnd hz hfold =>
    fold_sub_stable p.1 p.2 _ (rangeL 0 s.N) hshape1 u u' hnd hz hfold
  have hprops1 := hst1 s s1 hnd hz h1
  have hnd1 : nodupS s1 := hprops1.1
  have hz1 : noZero s1 := hprops1.2.1
  have hN1 : s1.N = s.N := by
    show s1.w * s1.h = s.w * s.h
    rw [hprops1.2.2.1, hprops1.2.2.2.1]
  have hshape2 : ∀ (u : SState) (a : Nat), a ∈ rangeL 0 s1.N →
      (if a ≠ j then engineStep fuel .sub u a i v else pure u) = pure u ∨
      ∃ jj ii, (if a ≠ j then engineStep fuel .sub u a i v else pure u) =
        engineStep fuel .sub u jj ii v := by
    intro u a _
    by_cases hg : a ≠ j
    · exact Or.inr ⟨a, i, if_pos hg⟩
    · exact Or.inl (if_neg hg)
  have hprops2 := fold_sub_stable p.1 p.2 _ (rangeL 0 s1.N) hshape2 s1 s2 hnd1 hz1 h2
  have hnd2 : nodupS s2 := hprops2.1
  have hz2 : noZero s2 := hprops2.2.1
  have hw2 : s2.w = s.w := hprops2.2.2.1.trans hprops1.2.2.1
  have hh2 : s2.h = s.h := hprops2.2.2.2.1.trans hprops1.2.2.2.1
  have hN2 : s2.N = s.N := by
    show s2.w * s2.h = s.w * s.h
    rw [hw2, hh2]
  have hwpos : 0 < s.w := by
    rcases Nat.eq_zero_or_pos s.w with h0 | h0
    · exfalso
      have : s.N = 0 := by
        show s.w * s.h = 0
        rw [h0, Nat.zero_mul]
      omega
    · exact h0
  have hhpos : 0 < s.h := by
    rcases Nat.eq_zero_or_pos s.h with h0 | h0
    · exfalso
      have : s.N = 0 := by
        show s.w * s.h = 0
        rw [h0, Nat.mul_zero]
      omega
    · exact h0
  have hshape3 : ∀ (u : SState) (a : Nat × Nat), a ∈ regionCells s2 j i →
      (if a.2 ≠ i ∨ a.1 ≠ j then engineStep fuel .sub u a.1 a.2 v else pure u) = pure u ∨
      ∃ jj ii, (if a.2 ≠ i ∨ a.1 ≠ j then engineStep fuel .sub u a.1 a.2 v else pure u) =
        engineStep fuel .sub u jj ii v := by
    intro u a _
    by_cases hg : a.2 ≠ i ∨ a.1 ≠ j
    · exact Or.inr ⟨a.1, a.2, if_pos hg⟩
    · exact Or.inl (if_neg hg)
  have hpne : p ≠ (j, i) := fun hc => hpe.1 (by rw [hc])
  rcases hpe.2 with hrow | hcol | hreg
  · -- row peer: covered by the first sweep, stable afterwards
    have hg : p.2 ≠ i := by
      intro hc
      exact hpne (Prod.ext hrow.symm hc)
    have habs1 : v ∉ s1.vals p.1 p.2 := by
      have hcov := fold_sub_covers p.1 p.2 _ (rangeL 0 s.N) hshape1 p.2
        ((mem_rangeL 0 s.N p.2).mpr ⟨Nat.zero_le _, hp2⟩)
        (fun u => by have hrow2 : j = p.1 := hrow; rw [if_pos hg, hrow2]) s s1 hnd hz h1
      exact hcov
    have habs2 : v ∉ s2.vals p.1 p.2 := hprops2.2.2.2.2 habs1
    exact (fold_sub_stable p.1 p.2 _ (regionCells s2 j i) hshape3 s2 s' hnd2 hz2
      h3).2.2.2.2 habs2
  · -- column peer: covered by the second sweep
    have hg : p.1 ≠ j := by
      intro hc
      exact hpne (Prod.ext hc hcol.symm)
    have habs2 : v ∉ s2.vals p.1 p.2 :=
      fold_sub_covers p.1 p.2 _ (rangeL 0 s1.N) hshape2 p.1
        ((mem_rangeL 0 s1.N p.1).mpr ⟨Nat.zero_le _, by omega⟩)
        (fun u => by have hcol2 : i = p.2 := hcol; rw [if_pos hg, hcol2]) s1 s2 hnd1 hz1 h2
    exact (fold_sub_stable p.1 p.2 _ (regionCells s2 j i) hshape3 s2 s' hnd2 hz2
      h3).2.2.2.2 habs2
  · -- region peer: covered by the region sweep
    have hg : p.2 ≠ i ∨ p.1 ≠ j := by
      by_cases h1' : p.1 = j
      · left
        intro hc
        exact hpne (Prod.ext h1' hc)
      · exact Or.inr h1'
    have hmem : p ∈ regionCells s2 j i := by
      refine (mem_regionCells (by omega) (by omega) j i p).mpr ?_
      rw [hw2, hh2]
      exact ⟨hreg.1.symm, hreg.2.symm⟩
    exact fold_sub_covers p.1 p.2 _ (regionCells s2 j i) hshape3 p hmem
      (fun u => by rw [if_pos hg]) s2 s' hnd2 hz2 h3

/-- After an assignment, the assigned value is absent from every peer. -/
theorem engineStep_set_removes (fuel : Nat) (s : SState) (j i : Nat) (v : Int)
    (s' : SState) (h : engineStep fuel .set s j i v = some s')
    (hnd : nodupS s) (hz : noZero s) (hv0 : v ≠ 0)
    (hj : j < s.N) (hi : i < s.N) :
    ∀ p : Nat × Nat, p.1 < s.N → p.2 < s.N → peer s.w s.h (j, i) p →
      v ∉ s'.vals p.1 p.2 := by
  intro p hp1 hp2 hpe
  rcases fuel with _ | fuel
  · simp [engineStep] at h
  rw [engineStep] at h
  rw [if_pos hv0] at h
  have hnd1 : nodupS { setCell s j i [v] with changes := s.changes + 1 } := by
    intro a b
    show ((setCell s j i [v]).vals a b).Nodup
    rw [setCell_vals]
    split
    · exact List.nodup_singleton v
    · exact hnd a b
  have hz1 : noZero { setCell s j i [v] with changes := s.changes + 1 } := by
    intro a b
    show (0 : Int) ∉ (setCell s j i [v]).vals a b
    rw [setCell_vals]
    split
    · intro hc
      exact hv0 (List.mem_singleton.mp hc).symm
    · exact hz a b
  exact engineStep_prop_removes fuel _ j i v s' h hnd1 hz1 hj hi p hp1 hp2 hpe

/-! ## Newly-solved cells and the no-duplicate-peers invariant -/

/-- A step that does not change the grid is vacuously absent-sound. -/
theorem nsa_of_eq {w h : Nat} {s s' : SState}
    (hv : ∀ p q, s'.vals p q = s.vals p q) : newSinglesAbsent w h s s' := by
  intro p _ _ x hx
  exact Or.inl (by rw [← hv p.1 p.2]; exact hx)

/-- Absence-soundness composes along shrinking steps. -/
theorem nsa_trans {w h : Nat} {s u u' : SState}
    (h1 : newSinglesAbsent w h s u) (h2 : newSinglesAbsent w h u u')
    (hsh : ∀ p q, u'.vals p q ⊆ u.vals p q) :
    newSinglesAbsent w h s u' := by
  intro p hp1 hp2 x hx
  rcases h2 p hp1 hp2 x hx with hmid | habs
  · rcases h1 p hp1 hp2 x hmid with hold | habs
    · exact Or.inl hold
    · right
      intro q hq1 hq2 hpe hc
      exact habs q hq1 hq2 hpe (hsh q.1 q.2 hc)
  · exact Or.inr habs

/-- A fold of subtractions of one value over grid cells is
absence-sound and keeps the engine well-formed. -/
theorem fold_sub_absent {α : Type} {fuel : Nat} {v : Int} {w h : Nat}
    (f : SState → α → Option SState) :
    ∀ (l : List α),
      (∀ (u : SState) (a : α), a ∈ l → f u a = pure u ∨
        ∃ jj ii, jj < w * h ∧ ii < w * h ∧ f u a = engineStep fuel .sub u jj ii v) →
      (∀ (u u1 : SState) (jj ii : Nat), jj < w * h → ii < w * h →
        nodupS u → noZero u → u.w = w → u.h = h →
        engineStep fuel .sub u jj ii v = some u1 → newSinglesAbsent w h u u1) →
      ∀ (u u' : SState), nodupS u → noZero u → u.w = w → u.h = h →
      l.foldlM f u = some u' →
        newSinglesAbsent w h u u' ∧ nodupS u' ∧ noZero u' ∧ u'.w = w ∧ u'.h = h ∧
          (∀ p q, u'.vals p q ⊆ u.vals p q)
  | [], _, _, u, u', hnd, hz, hw, hh, hfold => by
      simp only [List.foldlM_nil, Option.pure_def, Option.some.injEq] at hfold
      subst hfold
      exact ⟨nsa_of_eq (fun _ _ => rfl), hnd, hz, hw, hh, fun _ _ _ hx => hx⟩
  | a :: l, hf, habs, u, u', hnd, hz, hw, hh, hfold => by
      simp only [List.foldlM_cons, Option.pure_def, Option.bind_eq_bind,
        Option.bind_eq_some] at hfold
      rcases hfold with ⟨u1, h1, h2⟩
      rcases hf u a (List.mem_cons_self _ _) with hp | ⟨jj, ii, hjj, hii, heq⟩
      · rw [hp] at h1
        injection h1 with h1
        subst h1
        exact fold_sub_absent f l
          (fun x b hb => hf x b (List.mem_cons_of_mem _ hb)) habs
          u u' hnd hz hw hh h2
      · rw [heq] at h1
        have hok := (engineStep_stepok fuel .sub u jj ii v u1 h1 hz
          (fun hc => by simp at hc)).1
        have hnd1 := engineStep_nodup fuel .sub u jj ii v u1 h1 hnd
        have hnsa1 := habs u u1 jj ii hjj hii hnd hz hw hh h1
        obtain ⟨hnsa2, hnd2, hz2, hw2, hh2, hsh2⟩ := fold_sub_absent f l
          (fun x b hb => hf x b (List.mem_cons_of_mem _ hb)) habs
          u1 u' hnd1 (noZero_of_stepok hok hz) (hok.1.trans hw) (hok.2.1.trans hh) h2
        refine ⟨nsa_trans hnsa1 hnsa2 hsh2, hnd2, hz2, hw2, hh2, ?_⟩
        intro p q x hx
        exact hok.2.2.1 p q (hsh2 p q hx)

/-- Every cell newly solved inside one engine operation has its value
absent from all its peers when the operation completes. -/
theorem engineStep_absent :
    ∀ (fuel : Nat) (op : PropOp) (s : SState) (j i : Nat) (v : Int) (s' : SState),
      engineStep fuel op s j i v = some s' →
      2 ≤ s.N → nodupS s → noZero s →
      j < s.N → i < s.N →
      (op = .set → v ≠ 0 → v ∈ s.vals j i) →
      newSinglesAbsent s.w s.h s s' := by
  intro fuel
  induction fuel with
  | zero => intro op s j i v s' hstep; simp [engineStep] at hstep
  | succ fuel ih =>
      intro op s j i v s' hstep h2 hnd hz hj hi hset
      cases op with
      | sub =>
          rw [engineStep] at hstep
          split at hstep
          · rename_i hin
            dsimp only at hstep
            have hnd1 : nodupS (setCell s j i ((s.vals j i).erase v)) := by
              intro p q
              rw [setCell_vals]
              split
              · exact (hnd j i).erase v
              · exact hnd p q
            have hz1 : noZero (setCell s j i ((s.vals j i).erase v)) := by
              intro p q hc
              rw [setCell_vals] at hc
              revert hc
              split
              · exact fun hc => hz j i (List.erase_subset _ _ hc)
              · exact fun hc => hz p q hc
            split at hstep
            · rename_i hlen
              have hu := headD_mem_of_length_one hlen
              have hokin := engineStep_stepok fuel .set _ j i _ s' hstep hz1
                (fun _ => hu)
              have hrem := engineStep_set_removes fuel _ j i _ s' hstep hnd1 hz1
                (fun hzero => hz1 j i (hzero ▸ hu)) hj hi
              intro p hp1 hp2 x hx
              by_cases hpji : p = (j, i)
              · subst hpji
                right
                intro q hq1 hq2 hpe hc
                have hxu : x = ((setCell s j i ((s.vals j i).erase v)).vals j i).headD 0 := by
                  have hsubx := (hokin.2 rfl).1
                  have : x ∈ s'.vals j i := by rw [hx]; exact List.mem_singleton_self x
                  exact List.mem_singleton.mp (hsubx this)
                rw [hxu] at hc
                exact hrem q hq1 hq2 hpe hc
              · have hnsain := ih .set _ j i _ s' hstep h2 hnd1 hz1 hj hi
                  (fun _ _ => hu)
                rcases hnsain p hp1 hp2 x hx with hold | habs
                · left
                  rw [setCell_vals] at hold
                  rw [if_neg ?_] at hold
                  · exact hold
                  · intro hc
                    exact hpji (Prod.ext hc.1 hc.2)
                · exact Or.inr habs
            · rename_i hlen
              injection hstep with hstep
              subst hstep
              intro p hp1 hp2 x hx
              by_cases hpji : p = (j, i)
              · subst hpji
                rw [setCell_self] at hx
                rw [setCell_self, hx] at hlen
                simp at hlen
              · left
                rw [setCell_vals] at hx
                rw [if_neg ?_] at hx
                · exact hx
                · intro hc
                  exact hpji (Prod.ext hc.1 hc.2)
          · injection hstep with hstep
            subst hstep
            exact nsa_of_eq (fun _ _ => rfl)
      | set =>
          have horig := hstep
          rw [engineStep] at hstep
          split at hstep
          · rename_i hv0
            have hvin := hset rfl hv0
            have hnd1 : nodupS { setCell s j i [v] with changes := s.changes + 1 } := by
              intro p q
              show ((setCell s j i [v]).vals p q).Nodup
              rw [setCell_vals]
              split
              · exact List.nodup_singleton v
              · exact hnd p q
            have hz1 : noZero { setCell s j i [v] with changes := s.changes + 1 } := by
              intro p q
              show (0 : Int) ∉ (setCell s j i [v]).vals p q
              rw [setCell_vals]
              split
              · intro hc
                exact hv0 (List.mem_singleton.mp hc).symm
              · exact hz p q
            have hokin := (engineStep_stepok fuel .prop _ j i v s' hstep hz1
              (fun hc => by simp at hc)).1
            have hrem := engineStep_set_removes (fuel + 1) s j i v s' horig hnd hz
              hv0 hj hi
            intro p hp1 hp2 x hx
            by_cases hpji : p = (j, i)
            · subst hpji
              right
              intro q hq1 hq2 hpe hc
              have hxv : x = v := by
                have hsx : x ∈ s'.vals j i := by rw [hx]; exact List.mem_singleton_self x
                have := hokin.2.2.1 j i hsx
                rw [show ({ setCell s j i [v] with changes := s.changes + 1 } : SState).vals j i
                  = [v] from setCell_self s j i [v]] at this
                exact List.mem_singleton.mp this
              rw [hxv] at hc
              exact hrem q hq1 hq2 hpe hc
            · have hnsain := ih .prop _ j i v s' hstep h2 hnd1 hz1 hj hi
                (fun hc => by simp at hc)
              rcases hnsain p hp1 hp2 x hx with hold | habs
              · left
                have hold2 : (setCell s j i [v]).vals p.1 p.2 = [x] := hold
                rw [setCell_vals] at hold2
                rw [if_neg ?_] at hold2
                · exact hold2
                · intro hc
                  exact hpji (Prod.ext hc.1 hc.2)
              · exact Or.inr habs
          · split at hstep
            · injection hstep with hstep
              subst hstep
              intro p hp1 hp2 x hx
              by_cases hpji : p = (j, i)
              · subst hpji
                have hx2 : (setCell s j i (fullRange s.N)).vals j i = [x] := hx
                rw [setCell_self] at hx2
                have := congrArg List.length hx2
                rw [fullRange_length] at this
                simp at this
                omega
              · left
                have hx2 : (setCell s j i (fullRange s.N)).vals p.1 p.2 = [x] := hx
                rw [setCell_vals] at hx2
                rw [if_neg ?_] at hx2
                · exact hx2
                · intro hc
                  exact hpji (Prod.ext hc.1 hc.2)
            · injection hstep with hstep
              subst hstep
              exact nsa_of_eq (fun _ _ => rfl)
      | prop =>
          rw [engineStep] at hstep
          simp only [Option.bind_eq_bind, bind, Option.bind_eq_some] at hstep
          rcases hstep with ⟨s1, h1, s2, h2', h3⟩
          have hsN : s.N = s.w * s.h := rfl
          have habsIH : ∀ (u u1 : SState) (jj ii : Nat), jj < s.w * s.h → ii < s.w * s.h →
              nodupS u → noZero u → u.w = s.w → u.h = s.h →
              engineStep fuel .sub u jj ii v = some u1 →
              newSinglesAbsent s.w s.h u u1 := by
            intro u u1 jj ii hjj hii hndu hzu hwu hhu hstepu
            have huN : u.N = s.N := by
              show u.w * u.h = s.w * s.h
              rw [hwu, hhu]
            have hres := ih .sub u jj ii v u1 hstepu (by omega)
              hndu hzu (by omega) (by omega) (fun hc => by simp at hc)
            rw [hwu, hhu] at hres
            exact hres
          have hwpos : 0 < s.w := by
            rcases Nat.eq_zero_or_pos s.w with h0 | h0
            · exfalso
              have : s.N = 0 := by
                show s.w * s.h = 0
                rw [h0, Nat.zero_mul]
              omega
            · exact h0
          have hhpos : 0 < s.h := by
            rcases Nat.eq_zero_or_pos s.h with h0 | h0
            · exfalso
              have : s.N = 0 := by
                show s.w * s.h = 0
                rw [h0, Nat.mul_zero]
              omega
            · exact h0
          obtain ⟨hnsa1, hnd1, hz1, hw1, hh1, hsh1⟩ :=
            fold_sub_absent (w := s.w) (h := s.h)
              (fun t hh => if hh ≠ i then engineStep fuel .sub t j hh v else pure t)
              (rangeL 0 s.N)
              (fun u a ha => by
                by_cases hg : a ≠ i
                · right
                  refine ⟨j, a, hj, ?_, if_pos hg⟩
                  have := (mem_rangeL 0 s.N a).mp ha
                  exact this.2
                · exact Or.inl (if_neg hg))
              habsIH s s1 hnd hz rfl rfl h1
          have hs1N : s1.N = s.N := by
            show s1.w * s1.h = s.w * s.h
            rw [hw1, hh1]
          obtain ⟨hnsa2, hnd2, hz2, hw2, hh2, hsh2⟩ :=
            fold_sub_absent (w := s.w) (h := s.h)
              (fun t vv => if vv ≠ j then engineStep fuel .sub t vv i v else pure t)
              (rangeL 0 s1.N)
              (fun u a ha => by
                by_cases hg : a ≠ j
                · right
                  refine ⟨a, i, ?_, hi, if_pos hg⟩
                  have := (mem_rangeL 0 s1.N a).mp ha
                  omega
                · exact Or.inl (if_neg hg))
              habsIH s1 s2 hnd1 hz1 hw1 hh1 h2'
          have hs2N : s2.N = s.N := by
            show s2.w * s2.h = s.w * s.h
            rw [hw2, hh2]
          have hs2w : 0 < s2.w := by omega
          have hs2h : 0 < s2.h := by omega
          obtain ⟨hnsa3, -, -, -, -, hsh3⟩ :=
            fold_sub_absent (w := s.w) (h := s.h)
              (fun t (c : Nat × Nat) =>
                if c.2 ≠ i ∨ c.1 ≠ j then engineStep fuel .sub t c.1 c.2 v else pure t)
              (regionCells s2 j i)
              (fun u a ha => by
                by_cases hg : a.2 ≠ i ∨ a.1 ≠ j
                · right
                  have hgr := regionCells_subset_grid hs2w hs2h
                    (show j < s2.N by omega) (show i < s2.N by omega) a ha
                  exact ⟨a.1, a.2, by omega, by omega, if_pos hg⟩
                · exact Or.inl (if_neg hg))
              habsIH s2 s' hnd2 hz2 hw2 hh2 h3
          exact nsa_trans (nsa_trans hnsa1 hnsa2 hsh2) hnsa3 hsh3

/-- Absence-soundness plus shrink preserves the no-duplicate-peers
invariant. -/
theorem vi2_of_absent {w h : Nat} {s s' : SState} (hww : s.w = w) (hhh : s.h = h)
    (hv : vi2 w h s) (hnsa : newSinglesAbsent s.w s.h s s') : vi2 w h s' := by
  subst hww
  subst hhh
  intro c d hc1 hc2 hd1 hd2 hpe x hcx hdx
  rcases hnsa c hc1 hc2 x hcx with hcold | hcabs
  · rcases hnsa d hd1 hd2 x hdx with hdold | hdabs
    · exact hv c d hc1 hc2 hd1 hd2 hpe x hcold hdold
    · exact hdabs c hc1 hc2 (peer_symm hpe)
        (by rw [hcx]; exact List.mem_singleton_self x)
  · exact hcabs d hd1 hd2 hpe (by rw [hdx]; exact List.mem_singleton_self x)

/-- One engine operation (subtraction, or assignment of a current
candidate) preserves the generation invariant, only shrinks candidate
lists, and never decreases `changes`. -/
theorem engineStep_einv {w h : Nat} (fuel : Nat) (op : PropOp) (s : SState)
    (j i : Nat) (v : Int) (s' : SState)
    (hstep : engineStep fuel op s j i v = some s')
    (he : einv w h s) (h2 : 2 ≤ w * h) (hj : j < w * h) (hi : i < w * h)
    (hset : op = .set → v ∈ s.vals j i) :
    einv w h s' ∧ s.changes ≤ s'.changes ∧ (∀ p q, s'.vals p q ⊆ s.vals p q) := by
  obtain ⟨hw, hh, hnd, hz, hsub, hv2⟩ := he
  have hsN : s.N = w * h := by
    show s.w * s.h = w * h
    rw [hw, hh]
  have hok := (engineStep_stepok fuel op s j i v s' hstep hz (fun ho => hset ho)).1
  have hdim := engineStep_dims fuel op s j i v s' hstep
  have hnd' := engineStep_nodup fuel op s j i v s' hstep hnd
  have hnsa := engineStep_absent fuel op s j i v s' hstep (by omega) hnd hz
    (by omega) (by omega) (fun ho _ => hset ho)
  have hN' : s'.N = w * h := by
    show s'.w * s'.h = w * h
    rw [hdim.1, hdim.2, hw, hh]
  refine ⟨⟨hdim.1.trans hw, hdim.2.trans hh, hnd', noZero_of_stepok hok hz, ?_, ?_⟩,
    hok.2.2.2, hok.2.2.1⟩
  · intro p q hp hq x hx
    have hNN : s'.N = s.N := by omega
    rw [hNN]
    exact hsub p q (by omega) (by omega) (hok.2.2.1 p q hx)
  · exact vi2_of_absent hw hh hv2 hnsa

/-- `__setitem__` with value `0` either does nothing (unsolved cell) or
re-initializes the cell and decrements the counter. -/
theorem setV_zero (fuel : Nat) (s : SState) (j i : Nat) (s' : SState)
    (h : setV fuel s j i 0 = some s') :
    s' = s ∨ s' = { setCell s j i (fullRange s.N) with changes := s.changes - 1 } := by
  unfold setV at h
  rcases fuel with _ | fuel
  · simp [engineStep] at h
  rw [engineStep] at h
  rw [if_neg (by simp)] at h
  split at h
  · injection h with h
    exact Or.inr h.symm
  · injection h with h
    exact Or.inl h.symm

/-- Re-initializing one cell preserves the generation invariant. -/
theorem einv_reset {w h : Nat} (s : SState) (j i : Nat) (he : einv w h s)
    (h2 : 2 ≤ w * h) :
    einv w h { setCell s j i (fullRange s.N) with changes := s.changes - 1 } := by
  obtain ⟨hw, hh, hnd, hz, hsub, hv2⟩ := he
  have hsN : s.N = w * h := by
    show s.w * s.h = w * h
    rw [hw, hh]
  refine ⟨hw, hh, ?_, ?_, ?_, ?_⟩
  · intro p q
    show ((setCell s j i (fullRange s.N)).vals p q).Nodup
    rw [setCell_vals]
    split
    · exact fullRange_nodup _
    · exact hnd p q
  · intro p q
    show (0 : Int) ∉ (setCell s j i (fullRange s.N)).vals p q
    rw [setCell_vals]
    split
    · rw [fullRange_mem_iff]
      omega
    · exact hz p q
  · intro p q hp hq
    show (setCell s j i (fullRange s.N)).vals p q ⊆ fullRange _
    rw [setCell_vals]
    split
    · exact fun x hx => hx
    · exact hsub p q hp hq
  · intro c d hc1 hc2 hd1 hd2 hpe x hcx hdx
    have hcx2 : (setCell s j i (fullRange s.N)).vals c.1 c.2 = [x] := hcx
    have hdx2 : (setCell s j i (fullRange s.N)).vals d.1 d.2 = [x] := hdx
    rw [setCell_vals] at hcx2 hdx2
    by_cases hcji : c.1 = j ∧ c.2 = i
    · rw [if_pos hcji] at hcx2
      have hl := congrArg List.length hcx2
      rw [fullRange_length] at hl
      simp at hl
      omega
    · rw [if_neg hcji] at hcx2
      by_cases hdji : d.1 = j ∧ d.2 = i
      · rw [if_pos hdji] at hdx2
        have hl := congrArg List.length hdx2
        rw [fullRange_length] at hl
        simp at hl
        omega
      · rw [if_neg hdji] at hdx2
        exact hv2 c d hc1 hc2 hd1 hd2 hpe x hcx2 hdx2

/-- A freshly initialized candidate grid satisfies the invariant. -/
theorem einv_fresh {w h : Nat} (s : SState) (ch : Int) (hw : s.w = w) (hh : s.h = h)
    (h2 : 2 ≤ w * h) :
    einv w h { s with vals := fun _ _ => fullRange s.N, changes := ch } := by
  have hsN : s.N = w * h := by
    show s.w * s.h = w * h
    rw [hw, hh]
  refine ⟨hw, hh, fun _ _ => fullRange_nodup _, ?_, ?_, ?_⟩
  · intro p q
    show (0 : Int) ∉ fullRange s.N
    rw [fullRange_mem_iff]
    omega
  · intro p q _ _
    exact fun x hx => hx
  · intro c d hc1 hc2 hd1 hd2 hpe x hcx hdx
    have hcx2 : fullRange s.N = [x] := hcx
    have hl := congrArg List.length hcx2
    rw [fullRange_length] at hl
    simp at hl
    omega

/-! ## The solver passes preserve the generation invariant -/

/-- `_value_substraction` preserves the invariant. -/
theorem subV_einv {w h : Nat} (fuel : Nat) (s : SState) (j i : Nat) (v : Int)
    (s' : SState) (hstep : subV fuel s j i v = some s') (he : einv w h s)
    (h2 : 2 ≤ w * h) (hj : j < w * h) (hi : i < w * h) : einv w h s' :=
  (engineStep_einv fuel .sub s j i v s' hstep he h2 hj hi
    (fun hc => by simp at hc)).1

/-- `__setitem__` with a current candidate preserves the invariant. -/
theorem setV_einv {w h : Nat} (fuel : Nat) (s : SState) (j i : Nat) (v : Int)
    (s' : SState) (hstep : setV fuel s j i v = some s') (he : einv w h s)
    (h2 : 2 ≤ w * h) (hj : j < w * h) (hi : i < w * h) (hv : v ∈ s.vals j i) :
    einv w h s' :=
  (engineStep_einv fuel .set s j i v s' hstep he h2 hj hi (fun _ => hv)).1

/-- A unique-candidate check-and-assign step preserves the invariant. -/
theorem uniqValue_einv {w h : Nat} (fuel : Nat) (s : SState) (j i : Nat)
    (app : Int → Bool) (s' : SState)
    (hstep : (match (s.vals j i).find? app with
              | some v => setV fuel s j i v
              | none => some s) = some s')
    (he : einv w h s) (h2 : 2 ≤ w * h) (hj : j < w * h) (hi : i < w * h) :
    einv w h s' := by
  rcases hf : (s.vals j i).find? app with _ | v <;> rw [hf] at hstep
  · injection hstep with hstep
    exact hstep ▸ he
  · exact setV_einv fuel s j i v s' hstep he h2 hj hi (List.mem_of_find?_eq_some hf)

/-- The per-cell unique-candidate body preserves the invariant. -/
theorem uniqCell_einv {w h : Nat} (fuel : Nat) (s : SState) (j i : Nat)
    (s' : SState) (hstep : uniqCell fuel s j i = some s')
    (he : einv w h s) (h2 : 2 ≤ w * h) (hj : j < w * h) (hi : i < w * h) :
    einv w h s' := by
  unfold uniqCell at hstep
  simp only [Option.bind_eq_bind, bind, Option.bind_eq_some] at hstep
  rcases hstep with ⟨s1, h1, s2, h2', h3⟩
  have he1 := uniqValue_einv fuel s j i _ s1 h1 he h2 hj hi
  have he2 := uniqValue_einv fuel s1 j i _ s2 h2' he1 h2 hj hi
  exact uniqValue_einv fuel s2 j i _ s' h3 he2 h2 hj hi

/-- `_calculate_uniq_values` preserves the invariant. -/
theorem calculateUniqValues_einv {w h : Nat} (fuel : Nat) (s s' : SState)
    (hstep : calculateUniqValues fuel s = some s')
    (he : einv w h s) (h2 : 2 ≤ w * h) : einv w h s' := by
  unfold calculateUniqValues at hstep
  have hsN : s.N = w * h := by
    show s.w * s.h = w * h
    rw [he.1, he.2.1]
  refine foldlM_preserve_mem (einv w h) _ _ ?_ s s' he hstep
  intro u c u' hc hu hustep
  have hcg := (mem_cellsOf s.N c).mp hc
  split at hustep
  · injection hustep with hustep
    exact hustep ▸ hu
  · exact uniqCell_einv fuel u c.1 c.2 u' hustep hu h2 (by omega) (by omega)

/-- The horizontal pointing-elimination `remove` preserves the invariant. -/
theorem rdvRemoveH_einv {w h : Nat} (fuel : Nat) (s : SState) (j i : Nat) (v : Int)
    (s' : SState) (hstep : rdvRemoveH fuel s j i v = some s')
    (he : einv w h s) (h2 : 2 ≤ w * h) (hj : j < w * h) (hi : i < w * h) :
    einv w h s' := by
  unfold rdvRemoveH at hstep
  simp only [Option.bind_eq_bind, bind, Option.bind_eq_some] at hstep
  rcases hstep with ⟨s1, h1, h2'⟩
  have hwv : s.w = w := he.1
  have he1 : einv w h s1 := by
    refine foldlM_preserve_mem (einv w h) _ _ ?_ s s1 he h1
    intro u a u' ha hu hustep
    have hab := (mem_rangeL _ _ a).mp ha
    have hdle : i / s.w * s.w ≤ i := Nat.div_mul_le_self _ _
    have hlim : (hLimits s.w i).1 = i / s.w * s.w := rfl
    exact subV_einv fuel u j a v u' hustep hu h2 hj (by omega)
  have h1N : s1.N = w * h := by
    show s1.w * s1.h = w * h
    rw [he1.1, he1.2.1]
  refine foldlM_preserve_mem (einv w h) _ _ ?_ s1 s' he1 h2'
  intro u a u' ha hu hustep
  have hab := (mem_rangeL _ _ a).mp ha
  exact subV_einv fuel u j a v u' hustep hu h2 hj (by omega)

/-- The vertical pointing-elimination `remove` preserves the invariant. -/
theorem rdvRemoveV_einv {w h : Nat} (fuel : Nat) (s : SState) (j i : Nat) (v : Int)
    (s' : SState) (hstep : rdvRemoveV fuel s j i v = some s')
    (he : einv w h s) (h2 : 2 ≤ w * h) (hj : j < w * h) (hi : i < w * h) :
    einv w h s' := by
  unfold rdvRemoveV at hstep
  simp only [Option.bind_eq_bind, bind, Option.bind_eq_some] at hstep
  rcases hstep with ⟨s1, h1, h2'⟩
  have he1 : einv w h s1 := by
    refine foldlM_preserve_mem (einv w h) _ _ ?_ s s1 he h1
    intro u a u' ha hu hustep
    have hab := (mem_rangeL _ _ a).mp ha
    have hdle : j / s.h * s.h ≤ j := Nat.div_mul_le_self _ _
    have hlim : (vLimits s.h j).1 = j / s.h * s.h := rfl
    exact subV_einv fuel u a i v u' hustep hu h2 (by omega) hi
  have h1N : s1.N = w * h := by
    show s1.w * s1.h = w * h
    rw [he1.1, he1.2.1]
  refine foldlM_preserve_mem (einv w h) _ _ ?_ s1 s' he1 h2'
  intro u a u' ha hu hustep
  have hab := (mem_rangeL _ _ a).mp ha
  exact subV_einv fuel u a i v u' hustep hu h2 (by omega) hi

/-- The horizontal pointing-elimination candidate loop preserves the
invariant. -/
theorem rdvLoopH_einv {w h : Nat} (fuel : Nat) (j i : Nat)
    (h2 : 2 ≤ w * h) (hj : j < w * h) (hi : i < w * h) :
    ∀ (lf idx : Nat) (s s' : SState), einv w h s →
      rdvLoopH fuel s j i lf idx = some s' → einv w h s'
  | 0, idx, s, s', he, hstep => by simp [rdvLoopH] at hstep
  | lf + 1, idx, s, s', he, hstep => by
      rw [rdvLoopH] at hstep
      split at hstep
      · dsimp only at hstep
        split at hstep
        · exact absurd hstep (by simp)
        · rename_i s1 heq
          have he1 : einv w h s1 := by
            revert heq
            split
            · intro heq
              exact rdvRemoveH_einv fuel s j i _ s1 heq he h2 hj hi
            · intro heq
              injection heq with heq
              exact heq ▸ he
          exact rdvLoopH_einv fuel j i h2 hj hi lf (idx + 1) s1 s' he1 hstep
      · injection hstep with hstep
        exact hstep ▸ he

/-- The vertical pointing-elimination candidate loop preserves the
invariant. -/
theorem rdvLoopV_einv {w h : Nat} (fuel : Nat) (j i : Nat)
    (h2 : 2 ≤ w * h) (hj : j < w * h) (hi : i < w * h) :
    ∀ (lf idx : Nat) (s s' : SState), einv w h s →
      rdvLoopV fuel s j i lf idx = some s' → einv w h s'
  | 0, idx, s, s', he, hstep => by simp [rdvLoopV] at hstep
  | lf + 1, idx, s, s', he, hstep => by
      rw [rdvLoopV] at hstep
      split at hstep
      · dsimp only at hstep
        split at hstep
        · exact absurd hstep (by simp)
        · rename_i s1 heq
          have he1 : einv w h s1 := by
            revert heq
            split
            · intro heq
              exact rdvRemoveV_einv fuel s j i _ s1 heq he h2 hj hi
            · intro heq
              injection heq with heq
              exact heq ▸ he
          exact rdvLoopV_einv fuel j i h2 hj hi lf (idx + 1) s1 s' he1 hstep
      · injection hstep with hstep
        exact hstep ▸ he

/-- `_remove_deductable_values` preserves the invariant. -/
theorem removeDeductableValues_einv {w h : Nat} (fuel : Nat) (s s' : SState)
    (hstep : removeDeductableValues fuel s = some s')
    (he : einv w h s) (h2 : 2 ≤ w * h) : einv w h s' := by
  unfold removeDeductableValues at hstep
  have hsN : s.N = w * h := by
    show s.w * s.h = w * h
    rw [he.1, he.2.1]
  refine foldlM_preserve_mem (einv w h) _ _ ?_ s s' he hstep
  intro u c u' hc hu hustep
  have hcg := (mem_cellsOf s.N c).mp hc
  simp only [Option.bind_eq_bind, bind, Option.bind_eq_some] at hustep
  rcases hustep with ⟨u1, h1, h2'⟩
  have hu1 : einv w h u1 := by
    unfold rdvH at h1
    split at h1
    · injection h1 with h1
      exact h1 ▸ hu
    · exact rdvLoopH_einv fuel c.1 c.2 h2 (by omega) (by omega) fuel 0 u u1 hu h1
  unfold rdvV at h2'
  split at h2'
  · injection h2' with h2'
    exact h2' ▸ hu1
  · exact rdvLoopV_einv fuel c.1 c.2 h2 (by omega) (by omega) fuel 0 u1 u' hu1 h2'

/-- The horizontal naked-subset `remove` preserves the invariant. -/
theorem ucdRemoveH_einv {w h : Nat} (fuel : Nat) (s : SState) (j : Nat)
    (c : List (Nat × Nat)) (values : List Int) (s' : SState)
    (hstep : ucdRemoveH fuel s j c values = some s')
    (he : einv w h s) (h2 : 2 ≤ w * h) (hj : j < w * h) : einv w h s' := by
  unfold ucdRemoveH at hstep
  have hsN : s.N = w * h := by
    show s.w * s.h = w * h
    rw [he.1, he.2.1]
  refine foldlM_preserve_mem (einv w h) _ _ ?_ s s' he hstep
  intro u a u' ha hu hustep
  have hab := (mem_rangeL _ _ a).mp ha
  split at hustep
  · injection hustep with hustep
    exact hustep ▸ hu
  · refine foldlM_preserve_mem (einv w h) _ _ ?_ u u' hu hustep
    intro x vv x' _ hx hxstep
    exact subV_einv fuel x j a vv x' hxstep hx h2 hj (by omega)

/-- The vertical naked-subset `remove` preserves the invariant. -/
theorem ucdRemoveV_einv {w h : Nat} (fuel : Nat) (s : SState) (i : Nat)
    (c : List (Nat × Nat)) (values : List Int) (s' : SState)
    (hstep : ucdRemoveV fuel s i c values = some s')
    (he : einv w h s) (h2 : 2 ≤ w * h) (hi : i < w * h) : einv w h s' := by
  unfold ucdRemoveV at hstep
  have hsN : s.N = w * h := by
    show s.w * s.h = w * h
    rw [he.1, he.2.1]
  refine foldlM_preserve_mem (einv w h) _ _ ?_ s s' he hstep
  intro u a u' ha hu hustep
  have hab := (mem_rangeL _ _ a).mp ha
  split at hustep
  · injection hustep with hustep
    exact hustep ▸ hu
  · refine foldlM_preserve_mem (einv w h) _ _ ?_ u u' hu hustep
    intro x vv x' _ hx hxstep
    exact subV_einv fuel x a i vv x' hxstep hx h2 (by omega) hi

/-- The region naked-subset `remove` preserves the invariant. -/
theorem ucdRemoveR_einv {w h : Nat} (fuel : Nat) (s : SState) (j i : Nat)
    (c : List (Nat × Nat)) (values : List Int) (s' : SState)
    (hstep : ucdRemoveR fuel s j i c values = some s')
    (he : einv w h s) (h2 : 2 ≤ w * h) (hj : j < w * h) (hi : i < w * h) :
    einv w h s' := by
  unfold ucdRemoveR at hstep
  have hsN : s.N = w * h := by
    show s.w * s.h = w * h
    rw [he.1, he.2.1]
  have hwp : 0 < s.w := by
    rcases Nat.eq_zero_or_pos s.w with h0 | h0
    · exfalso
      have hzz : s.N = 0 := by
        show s.w * s.h = 0
        rw [h0, Nat.zero_mul]
      omega
    · exact h0
  have hhp : 0 < s.h := by
    rcases Nat.eq_zero_or_pos s.h with h0 | h0
    · exfalso
      have hzz : s.N = 0 := by
        show s.w * s.h = 0
        rw [h0, Nat.mul_zero]
      omega
    · exact h0
  refine foldlM_preserve_mem (einv w h) _ _ ?_ s s' he hstep
  intro u a u' ha hu hustep
  have hab := regionCells_subset_grid hwp hhp
    (show j < s.N by omega) (show i < s.N by omega) a ha
  split at hustep
  · injection hustep with hustep
    exact hustep ▸ hu
  · refine foldlM_preserve_mem (einv w h) _ _ ?_ u u' hu hustep
    intro x vv x' _ hx hxstep
    exact subV_einv fuel x a.1 a.2 vv x' hxstep hx h2 (by omega) (by omega)

/-- The `horizontal` naked-subset pass preserves the invariant. -/
theorem ucdH_einv {w h : Nat} (fuel : Nat) (s : SState) (j : Nat) (s' : SState)
    (hstep : ucdH fuel s j = some s')
    (he : einv w h s) (h2 : 2 ≤ w * h) (hj : j < w * h) : einv w h s' := by
  unfold ucdH at hstep
  refine foldlM_preserve_mem (einv w h) _ _ ?_ s s' he hstep
  intro u x u' _ hu hustep
  refine foldlM_preserve_mem (einv w h) _ _ ?_ u u' hu hustep
  intro y cc y' _ hy hystep
  split at hystep
  · dsimp only at hystep
    split at hystep
    · exact ucdRemoveH_einv fuel y j cc _ y' hystep hy h2 hj
    · injection hystep with hystep
      exact hystep ▸ hy
  · injection hystep with hystep
    exact hystep ▸ hy

/-- The `vertical` naked-subset pass preserves the invariant. -/
theorem ucdV_einv {w h : Nat} (fuel : Nat) (s : SState) (i : Nat) (s' : SState)
    (hstep : ucdV fuel s i = some s')
    (he : einv w h s) (h2 : 2 ≤ w * h) (hi : i < w * h) : einv w h s' := by
  unfold ucdV at hstep
  refine foldlM_preserve_mem (einv w h) _ _ ?_ s s' he hstep
  intro u x u' _ hu hustep
  refine foldlM_preserve_mem (einv w h) _ _ ?_ u u' hu hustep
  intro y cc y' _ hy hystep
  have hystep2 : (if (uniqL (additionC y cc)).length = x then
      ucdRemoveV fuel y i cc (uniqL (additionC y cc)) else pure y) = some y' := hystep
  split at hystep2
  · exact ucdRemoveV_einv fuel y i cc _ y' hystep2 hy h2 hi
  · injection hystep2 with hystep2
    exact hystep2 ▸ hy

/-- The `region` naked-subset pass preserves the invariant. -/
theorem ucdR_einv {w h : Nat} (fuel : Nat) (s : SState) (j i : Nat) (s' : SState)
    (hstep : ucdR fuel s j i = some s')
    (he : einv w h s) (h2 : 2 ≤ w * h) (hj : j < w * h) (hi : i < w * h) :
    einv w h s' := by
  unfold ucdR at hstep
  refine foldlM_preserve_mem (einv w h) _ _ ?_ s s' he hstep
  intro u x u' _ hu hustep
  refine foldlM_preserve_mem (einv w h) _ _ ?_ u u' hu hustep
  intro y cc y' _ hy hystep
  split at hystep
  · dsimp only at hystep
    split at hystep
    · exact ucdRemoveR_einv fuel y j i cc _ y' hystep hy h2 hj hi
    · injection hystep with hystep
      exact hystep ▸ hy
  · injection hystep with hystep
    exact hystep ▸ hy

/-- `_unmatched_candidate_deletion` preserves the invariant. -/
theorem unmatchedCandidateDeletion_einv {w h : Nat} (fuel : Nat) (s s' : SState)
    (hstep : unmatchedCandidateDeletion fuel s = some s')
    (he : einv w h s) (h2 : 2 ≤ w * h) : einv w h s' := by
  unfold unmatchedCandidateDeletion at hstep
  simp only [Option.bind_eq_bind, bind, Option.bind_eq_some] at hstep
  rcases hstep with ⟨s1, h1, s2, h2', h3⟩
  have hsN : s.N = w * h := by
    show s.w * s.h = w * h
    rw [he.1, he.2.1]
  have he1 : einv w h s1 := by
    refine foldlM_preserve_mem (einv w h) _ _ ?_ s s1 he h1
    intro u a u' ha hu hustep
    have hab := (mem_rangeL _ _ a).mp ha
    exact ucdH_einv fuel u a u' hustep hu h2 (by omega)
  have h1N : s1.N = w * h := by
    show s1.w * s1.h = w * h
    rw [he1.1, he1.2.1]
  have he2 : einv w h s2 := by
    refine foldlM_preserve_mem (einv w h) _ _ ?_ s1 s2 he1 h2'
    intro u a u' ha hu hustep
    have hab := (mem_rangeL _ _ a).mp ha
    exact ucdV_einv fuel u a u' hustep hu h2 (by omega)
  have h2N : s2.N = w * h := by
    show s2.w * s2.h = w * h
    rw [he2.1, he2.2.1]
  have hhp : 0 < s2.h := by
    rcases Nat.eq_zero_or_pos s2.h with h0 | h0
    · exfalso
      have hzz : s2.N = 0 := by
        show s2.w * s2.h = 0
        rw [h0, Nat.mul_zero]
      omega
    · exact h0
  refine foldlM_preserve_mem (einv w h) _ _ ?_ s2 s' he2 h3
  intro u a u' ha hu hustep
  have hab := mem_rangeStep_lt hhp ha
  have huN : u.N = w * h := by
    show u.w * u.h = w * h
    rw [hu.1, hu.2.1]
  have hwp : 0 < u.w := by
    rcases Nat.eq_zero_or_pos u.w with h0 | h0
    · exfalso
      have hzz : u.N = 0 := by
        show u.w * u.h = 0
        rw [h0, Nat.zero_mul]
      omega
    · exact h0
  refine foldlM_preserve_mem (einv w h) _ _ ?_ u u' hu hustep
  intro x b x' hb hx hxstep
  have hbb := mem_rangeStep_lt hwp hb
  exact ucdR_einv fuel x a b x' hxstep hx h2 (by omega) (by omega)

/-- `__algorithms` preserves the invariant, for every difficulty. -/
theorem algorithmsF_einv {w h : Nat} (fuel : Nat) (d : Difficulty) (s s' : SState)
    (hstep : algorithmsF fuel d s = some s')
    (he : einv w h s) (h2 : 2 ≤ w * h) : einv w h s' := by
  cases d with
  | easy =>
      injection hstep with hstep
      exact hstep ▸ he
  | normal =>
      unfold algorithmsF at hstep
      simp only [Option.bind_eq_bind, bind, Option.bind_eq_some] at hstep
      rcases hstep with ⟨s1, h1, h2'⟩
      exact removeDeductableValues_einv fuel s1 s' h2'
        (calculateUniqValues_einv fuel s s1 h1 he h2) h2
  | hard =>
      unfold algorithmsF at hstep
      simp only [Option.bind_eq_bind, bind, Option.bind_eq_some] at hstep
      rcases hstep with ⟨s1, h1, s2, h2', h3⟩
      exact unmatchedCandidateDeletion_einv fuel s2 s' h3
        (removeDeductableValues_einv fuel s1 s2 h2'
          (calculateUniqValues_einv fuel s s1 h1 he h2) h2) h2

/-! ## The generator's number phase keeps the invariant -/

/-- `create_sudoku_position` preserves the invariant. -/
theorem createPosition_einv {w h : Nat} (fuel : Nat) (d : Difficulty)
    (orc : Nat → Nat) (cs cs' : CState) (j i : Nat)
    (hstep : createPosition fuel d orc cs j i = some cs')
    (he : einv w h cs.s) (h2 : 2 ≤ w * h) (hj : j < w * h) (hi : i < w * h) :
    einv w h cs'.s := by
  unfold createPosition at hstep
  split at hstep
  · injection hstep with hstep
    exact hstep ▸ he
  · rename_i hlen
    dsimp only at hstep
    split at hstep
    · exact absurd hstep (by simp)
    · rename_i s1 hset1
      have hvmem : (cs.s.vals j i).getD (orc cs.k % (cs.s.vals j i).length) 0
          ∈ cs.s.vals j i := by
        rw [List.getD_eq_getElem _ _ (Nat.mod_lt _ (by omega))]
        exact List.getElem_mem _
      have he1 := setV_einv fuel cs.s j i _ s1 hset1 he h2 hj hi hvmem
      split at hstep
      · split at hstep
        · exact absurd hstep (by simp)
        · rename_i s2 hset2
          injection hstep with hstep
          subst hstep
          show einv w h s2
          rcases setV_zero fuel s1 j i s2 hset2 with hcase | hcase
          · exact hcase ▸ he1
          · exact hcase ▸ einv_reset s1 j i he1 h2
      · split at hstep
        · exact absurd hstep (by simp)
        · rename_i s2 halg
          injection hstep with hstep
          subst hstep
          exact algorithmsF_einv fuel d s1 s2 halg he1 h2

/-- One sweep of `create_numbers` preserves the invariant. -/
theorem createSweep_einv {w h : Nat} (fuel : Nat) (d : Difficulty)
    (orc : Nat → Nat) (cs cs' : CState)
    (hstep : createSweep fuel d orc cs = some cs')
    (he : einv w h cs.s) (h2 : 2 ≤ w * h) : einv w h cs'.s := by
  unfold createSweep at hstep
  have hsN : cs.s.N = w * h := by
    show cs.s.w * cs.s.h = w * h
    rw [he.1, he.2.1]
  refine foldlM_preserve_mem (fun u : CState => einv w h u.s) _ _ ?_ cs cs' he hstep
  intro u c u' hc hu hustep
  have hcg := (mem_cellsOf cs.s.N c).mp hc
  split at hustep
  · exact createPosition_einv fuel d orc u u' c.1 c.2 hustep hu h2 (by omega) (by omega)
  · injection hustep with hustep
    exact hustep ▸ hu

/-- The inner fixpoint loop of `create_numbers` preserves the invariant. -/
theorem createInner_einv {w h : Nat} (fuel : Nat) (d : Difficulty)
    (orc : Nat → Nat) (h2 : 2 ≤ w * h) :
    ∀ (lf : Nat) (prev : Int) (cs cs' : CState), einv w h cs.s →
      createInner fuel d orc lf prev cs = some cs' → einv w h cs'.s
  | 0, prev, cs, cs', he, hstep => by
      rw [createInner] at hstep
      split at hstep
      · injection hstep with hstep
        exact hstep ▸ he
      · exact absurd hstep (by simp)
  | lf + 1, prev, cs, cs', he, hstep => by
      rw [createInner] at hstep
      split at hstep
      · injection hstep with hstep
        exact hstep ▸ he
      · simp only [Option.bind_eq_bind, bind, Option.bind_eq_some] at hstep
        rcases hstep with ⟨cs1, hsw, hrec⟩
        exact createInner_einv fuel d orc h2 lf cs.s.changes cs1 cs'
          (createSweep_einv fuel d orc cs cs1 hsw he h2) hrec

/-- The retry loop of `create_numbers` establishes the invariant and
finishes with every cell solved. -/
theorem createOuter_post {w h : Nat} (fuel lf : Nat) (d : Difficulty)
    (orc : Nat → Nat) (h2 : 2 ≤ w * h) :
    ∀ (onum : Nat) (cs cs' : CState), einv w h cs.s →
      createOuter fuel lf d orc onum cs = some cs' →
      einv w h cs'.s ∧ finishedF cs'.s = true
  | 0, cs, cs', _, hstep => by simp [createOuter] at hstep
  | onum + 1, cs, cs', he, hstep => by
      rw [createOuter] at hstep
      simp only [Option.bind_eq_bind, bind, Option.bind_eq_some] at hstep
      rcases hstep with ⟨cs1, hin, hrest⟩
      have he1 := createInner_einv fuel d orc h2 lf (-1) cs cs1 he hin
      split at hrest
      · rename_i hfin
        injection hrest with hrest
        exact hrest ▸ ⟨he1, hfin⟩
      · exact createOuter_post fuel lf d orc h2 onum _ cs'
          (einv_fresh cs1.s 0 he1.1 he1.2.1 h2) hrest

/-- `create_numbers` establishes the invariant and finishes the grid. -/
theorem createNumbers_post {w h : Nat} (fuel lf onum : Nat) (d : Difficulty)
    (orc : Nat → Nat) (cs cs' : CState) (h2 : 2 ≤ w * h)
    (hw : cs.s.w = w) (hh : cs.s.h = h)
    (hstep : createNumbers fuel lf onum d orc cs = some cs') :
    einv w h cs'.s ∧ finishedF cs'.s = true := by
  unfold createNumbers at hstep
  exact createOuter_post fuel lf d orc h2 onum _ cs'
    (einv_fresh cs.s 0 hw hh h2) hstep

/-! ## Characterizing `to_board` -/

/-- Solved values of an invariant state are within `[0, boardsize]`. -/
theorem getItem_le (s : SState) (hsub : subF s) (j i : Nat)
    (hj : j < s.N) (hi : i < s.N) :
    0 ≤ getItem s j i ∧ getItem s j i ≤ (s.N : Int) := by
  by_cases hlen : (s.vals j i).length = 1
  · have hl := eq_singleton_of_length_one hlen
    have hg : getItem s j i = (s.vals j i).headD 0 := getItem_of_singleton hl
    have hmem : (s.vals j i).headD 0 ∈ s.vals j i := headD_mem_of_length_one hlen
    have hr := (fullRange_mem_iff s.N _).mp (hsub j i hj hi hmem)
    rw [hg]
    omega
  · rw [getItem_of_length_ne_one hlen]
    constructor
    · exact le_refl 0
    · exact Int.natCast_nonneg s.N

/-- Writing the solved values into a board, cell by cell. -/
theorem toBoard_fold (s : SState)
    (hval : ∀ j i, j < s.N → i < s.N →
      0 ≤ getItem s j i ∧ getItem s j i ≤ (s.N : Int)) :
    ∀ (cells : List (Nat × Nat)), (∀ c ∈ cells, c.1 < s.N ∧ c.2 < s.N) →
    ∀ (b : Board), b.N = s.N →
      cells.foldlM (fun b c => (b.set c.1 c.2 (getItem s c.1 c.2)).toOption) b =
      some { b with numbers := fun j i =>
        if (j, i) ∈ cells then getItem s j i else b.numbers j i }
  | [], _, b, _ => by
      have hfn : (fun j i =>
          if (j, i) ∈ ([] : List (Nat × Nat)) then getItem s j i
          else b.numbers j i) = b.numbers := by
        funext j i
        simp
      rw [List.foldlM_nil, hfn]
      rfl
  | c :: cells, hg, b, hbN => by
      obtain ⟨hc1, hc2⟩ := hg c (List.mem_cons_self _ _)
      have hset : b.set c.1 c.2 (getItem s c.1 c.2) =
          .ok { b with numbers := fun j' i' =>
            if j' = c.1 ∧ i' = c.2 then getItem s c.1 c.2 else b.numbers j' i' } := by
        unfold Board.set
        rw [if_neg (by
          rw [hbN]
          have := hval c.1 c.2 hc1 hc2
          omega), if_pos (by rw [hbN]; exact ⟨hc1, hc2⟩)]
      rw [List.foldlM_cons, hset]
      rw [show ∀ (x : Board), (Except.ok x : Except BErr Board).toOption = some x
        from fun _ => rfl]
      simp only [Option.bind_eq_bind, Option.some_bind]
      rw [toBoard_fold s hval cells (fun x hx => hg x (List.mem_cons_of_mem _ hx))
        _ (by show b.w * b.h = s.N; exact hbN)]
      congr 1
      have hfn : ∀ (f g : Nat → Nat → Int), f = g →
          ({ b with numbers := f } : Board) = { b with numbers := g } := by
        intro f g hfg
        rw [hfg]
      apply hfn
      funext j i
      by_cases hmem : (j, i) ∈ cells
      · rw [if_pos hmem, if_pos (List.mem_cons_of_mem _ hmem)]
      · rw [if_neg hmem]
        show (if j = c.1 ∧ i = c.2 then getItem s c.1 c.2 else b.numbers j i) =
          if (j, i) ∈ c :: cells then getItem s j i else b.numbers j i
        by_cases hjc : j = c.1 ∧ i = c.2
        · rw [if_pos hjc, if_pos (by
            rw [List.mem_cons]
            exact Or.inl (Prod.ext hjc.1 hjc.2)), hjc.1, hjc.2]
        · rw [if_neg hjc, if_neg (by
            rw [List.mem_cons]
            rintro (hx | hx)
            · rw [Prod.mk.injEq] at hx
              exact hjc hx
            · exact hmem hx)]

/-- `to_board` succeeds on an in-range state and returns the grid of
solved values (zero on unsolved cells). -/
theorem toBoard_eq (s : SState) (h2 : 2 ≤ s.N) (hsub : subF s) :
    toBoard s = some
      { w := s.w, h := s.h,
        numbers := fun j i => if j < s.N ∧ i < s.N then getItem s j i else 0,
        filename := none } := by
  unfold toBoard
  have hbe : boardEmpty s.w s.h =
      .ok { w := s.w, h := s.h, numbers := fun _ _ => 0, filename := none } := by
    unfold boardEmpty
    rw [if_neg (by
      show ¬(s.w * s.h ≤ 1)
      have : s.N = s.w * s.h := rfl
      omega)]
  rw [hbe]
  rw [show ∀ (x : Board), (Except.ok x : Except BErr Board).toOption = some x
    from fun _ => rfl]
  simp only [Option.bind_eq_bind, Option.some_bind]
  rw [toBoard_fold s (getItem_le s hsub) (cellsOf s.N)
    (fun c hc => (mem_cellsOf s.N c).mp hc)
    { w := s.w, h := s.h, numbers := fun _ _ => 0, filename := none } rfl]
  congr 1
  have hfn : ∀ (f g : Nat → Nat → Int), f = g →
      ({ w := s.w, h := s.h, numbers := f, filename := none } : Board) =
      { w := s.w, h := s.h, numbers := g, filename := none } := by
    intro f g hfg
    rw [hfg]
  apply hfn
  funext j i
  by_cases hmem : (j, i) ∈ cellsOf s.N
  · rw [if_pos hmem, if_pos ((mem_cellsOf s.N (j, i)).mp hmem)]
  · rw [if_neg hmem, if_neg (fun hc => hmem ((mem_cellsOf s.N (j, i)).mpr hc))]

/-! ## Seeding a fresh engine from a complete valid board -/

/-- The measure is bounded by the grid size times the largest list. -/
theorem msum_le_of_lengths (N m : Nat) (s : SState)
    (hl : ∀ j i, j < N → i < N → (s.vals j i).length ≤ m) :
    msum N s ≤ N * N * m := by
  unfold msum
  calc ((cellsOf N).map (fun c => (s.vals c.1 c.2).length)).sum
      ≤ ((cellsOf N).map (fun c => (s.vals c.1 c.2).length)).length • m := by
        refine List.sum_le_card_nsmul _ m ?_
        intro x hx
        obtain ⟨c, hc, rfl⟩ := List.mem_map.mp hx
        obtain ⟨hg1, hg2⟩ := (mem_cellsOf N c).mp hc
        exact hl c.1 c.2 hg1 hg2
    _ = N * N * m := by rw [List.length_map, cellsOf_length, smul_eq_mul]

/-- Seeding: assigning the true value of every listed cell succeeds and
pins those cells to their singletons. -/
theorem seed_fold (w h : Nat) (t : Nat → Nat → Int) (hval : validT w h t)
    (F : Nat) (b : Board)
    (hbt : ∀ j i, j < w * h → i < w * h → b.numbers j i = t j i) :
    ∀ (cells : List (Nat × Nat)), (∀ c ∈ cells, c.1 < w * h ∧ c.2 < w * h) →
    ∀ (s : SState) (m : Nat), s.w = w → s.h = h → nodupS s → noZero s →
      trueIn (w * h) t s → msum (w * h) s ≤ m → 3 * m + 3 ≤ F →
      (0 : Int) ≤ s.changes →
      ∃ s', cells.foldlM (fun s c =>
          if b.numbers c.1 c.2 ≠ 0 then setV F s c.1 c.2 (b.numbers c.1 c.2)
          else pure s) s = some s' ∧
        s'.w = w ∧ s'.h = h ∧ nodupS s' ∧ noZero s' ∧ trueIn (w * h) t s' ∧
        msum (w * h) s' ≤ m ∧ (0 : Int) ≤ s'.changes ∧
        (∀ c ∈ cells, s'.vals c.1 c.2 = [t c.1 c.2]) ∧
        (∀ p q, s'.vals p q ⊆ s.vals p q)
  | [], _, s, m, hw, hh, hnd, hz, htr, hm, hF, hch =>
      ⟨s, rfl, hw, hh, hnd, hz, htr, hm, hch,
        fun c hc => absurd hc (List.not_mem_nil c),
        fun _ _ _ hx => hx⟩
  | c :: cells, hg, s, m, hw, hh, hnd, hz, htr, hm, hF, hch => by
      obtain ⟨hc1, hc2⟩ := hg c (List.mem_cons_self _ _)
      have hbtc : b.numbers c.1 c.2 = t c.1 c.2 := hbt c.1 c.2 hc1 hc2
      have htrange := hval.1 c.1 c.2 hc1 hc2
      have hne : b.numbers c.1 c.2 ≠ 0 := by
        rw [hbtc]
        omega
      have hsN : s.N = w * h := by
        show s.w * s.h = w * h
        rw [hw, hh]
      have hvin : b.numbers c.1 c.2 ∈ s.vals c.1 c.2 := by
        rw [hbtc]
        exact htr c.1 c.2 hc1 hc2
      have htot := engineStep_total F .set s c.1 c.2 (b.numbers c.1 c.2)
        (w * h) m hsN hnd hz hc1 hc2 (fun _ _ => hvin) hm hF
      obtain ⟨s1, hs1⟩ := Option.isSome_iff_exists.mp htot
      have hok := engineStep_stepok F .set s c.1 c.2 (b.numbers c.1 c.2) s1 hs1
        hz (fun _ => hvin)
      have hnd1 := engineStep_nodup F .set s c.1 c.2 _ s1 hs1 hnd
      have htr1 := engineStep_truth F .set s c.1 c.2 _ s1 w h t hs1 hw hh hval htr
        hc1 hc2 (fun hx => by simp at hx) (fun hx => by simp at hx)
        (fun _ _ => hbtc)
      have hcell1 : s1.vals c.1 c.2 = [t c.1 c.2] := by
        refine eq_singleton_of_subset (hnd1 c.1 c.2) ?_ (htr1 c.1 c.2 hc1 hc2)
        have := (hok.2 rfl).1
        rw [hbtc] at this
        exact this
      obtain ⟨s', hfold, hw', hh', hnd', hz', htr', hm', hch', hcells', hsub'⟩ :=
        seed_fold w h t hval F b hbt cells
          (fun x hx => hg x (List.mem_cons_of_mem _ hx)) s1 m
          (hok.1.1.trans hw) (hok.1.2.1.trans hh) hnd1
          (noZero_of_stepok hok.1 hz) htr1
          (le_trans (msum_le_of_stepok hok.1 hnd1) hm) hF
          (le_trans hch (le_trans (by omega) hok.1.2.2.2))
      refine ⟨s', ?_, hw', hh', hnd', hz', htr', hm', hch', ?_, ?_⟩
      · simp only [List.foldlM_cons, Option.pure_def, Option.bind_eq_bind]
        rw [if_pos hne]
        have hs1b : setV F s c.1 c.2 (b.numbers c.1 c.2) = some s1 := hs1
        rw [hs1b, Option.some_bind]
        exact hfold
      · intro x hx
        rcases List.mem_cons.mp hx with rfl | hx'
        · refine eq_singleton_of_subset (hnd' x.1 x.2) ?_ (htr' x.1 x.2 hc1 hc2)
          intro y hy
          have := hsub' x.1 x.2 hy
          rw [hcell1] at this
          exact this
        · exact hcells' x hx'
      · intro p q x hx
        exact hok.1.2.2.1 p q (hsub' p q hx)

/-- A fresh engine seeded from a complete valid board terminates with
every cell solved to its true value. -/
theorem fromBoard_complete (w h : Nat) (t : Nat → Nat → Int) (b : Board)
    (hbw : b.w = w) (hbh : b.h = h) (hval : validT w h t)
    (hbt : ∀ j i, j < w * h → i < w * h → b.numbers j i = t j i) :
    ∃ se, fromBoard (3 * (w * h * (w * h) * (w * h)) + 3) b = some se ∧
      se.w = w ∧ se.h = h ∧ nodupS se ∧ noZero se ∧
      (∀ j i, j < w * h → i < w * h → se.vals j i = [t j i]) ∧
      (0 : Int) ≤ se.changes := by
  unfold fromBoard
  have hbN : b.w * b.h = w * h := by rw [hbw, hbh]
  obtain ⟨s', hfold, hw', hh', hnd', hz', htr', hm', hch', hcells', hsub'⟩ :=
    seed_fold w h t hval (3 * (w * h * (w * h) * (w * h)) + 3) b hbt
      (cellsOf (b.w * b.h))
      (fun c hc => by
        have := (mem_cellsOf _ c).mp hc
        omega)
      { w := b.w, h := b.h, vals := fun _ _ => fullRange (b.w * b.h), changes := 0 }
      (w * h * (w * h) * (w * h))
      hbw hbh (fun _ _ => fullRange_nodup _)
      (fun _ _ => by
        show (0 : Int) ∉ fullRange (b.w * b.h)
        rw [fullRange_mem_iff]
        omega)
      (fun j i hj hi => by
        show t j i ∈ fullRange (b.w * b.h)
        rw [hbN, fullRange_mem_iff]
        have := hval.1 j i hj hi
        omega)
      (by
        have := msum_le_of_lengths (w * h) (w * h)
          { w := b.w, h := b.h, vals := fun _ _ => fullRange (b.w * b.h), changes := 0 }
          (fun _ _ _ _ => by
            show (fullRange (b.w * b.h)).length ≤ w * h
            rw [fullRange_length]
            omega)
        exact this)
      (le_refl _) (le_refl 0)
  refine ⟨s', hfold, hw', hh', hnd', hz', ?_, hch'⟩
  intro j i hj hi
  exact hcells' (j, i) ((mem_cellsOf _ (j, i)).mpr (by omega))

/-! ## A complete valid state passes `solvable` -/

/-- `xrange` lists are duplicate-free. -/
theorem rangeL_nodup (a b : Nat) : (rangeL a b).Nodup := by
  unfold rangeL
  refine List.Nodup.map ?_ (List.nodup_range _)
  intro x y hxy
  have hxy2 : a + x = a + y := hxy
  omega

/-- Region cell lists are duplicate-free. -/
theorem regionCells_nodup (s : SState) (j i : Nat) :
    (regionCells s j i).Nodup := by
  unfold regionCells
  rw [List.nodup_flatMap]
  constructor
  · intro v _
    refine List.Nodup.map ?_ (rangeL_nodup _ _)
    intro x y hxy
    exact ((Prod.mk.injEq _ _ _ _).mp hxy).2
  · refine List.Pairwise.imp_of_mem ?_ (rangeL_nodup _ _)
    intro v v' _ _ hne
    intro c hc hc'
    obtain ⟨x, _, rfl⟩ := List.mem_map.mp hc
    obtain ⟨y, _, heq⟩ := List.mem_map.mp hc'
    exact hne (((Prod.mk.injEq _ _ _ _).mp heq).1.symm)

/-- The duplicate walk of `solvable` accepts pairwise-distinct solved
values. -/
theorem noDupSolved_of (s : SState) :
    ∀ (cells : List (Nat × Nat)) (seen : List Int),
      (∀ c ∈ cells, (s.vals c.1 c.2).length = 1) →
      (∀ c ∈ cells, (s.vals c.1 c.2).headD 0 ∉ seen) →
      List.Pairwise (fun c d : Nat × Nat =>
        (s.vals c.1 c.2).headD 0 ≠ (s.vals d.1 d.2).headD 0) cells →
      noDupSolved s cells seen = true
  | [], _, _, _, _ => rfl
  | c :: cells, seen, hlen, hseen, hpw => by
      rw [noDupSolved, if_pos (hlen c (List.mem_cons_self _ _))]
      dsimp only
      rw [if_neg (hseen c (List.mem_cons_self _ _))]
      rw [List.pairwise_cons] at hpw
      refine noDupSolved_of s cells _
        (fun d hd => hlen d (List.mem_cons_of_mem _ hd)) ?_ hpw.2
      intro d hd
      rw [List.mem_cons]
      rintro (hx | hx)
      · exact hpw.1 d hd hx.symm
      · exact hseen d (List.mem_cons_of_mem _ hd) hx

/-- Distinct peers of a complete valid state hold distinct values. -/
theorem pairwise_value_ne (s : SState) (w h : Nat) (t : Nat → Nat → Int)
    (hval : validT w h t)
    (hvals : ∀ j i, j < w * h → i < w * h → s.vals j i = [t j i])
    (cells : List (Nat × Nat)) (hnd : cells.Nodup)
    (hgrid : ∀ c ∈ cells, c.1 < w * h ∧ c.2 < w * h)
    (hpeer : ∀ c ∈ cells, ∀ d ∈ cells, c ≠ d → peer w h c d) :
    List.Pairwise (fun c d : Nat × Nat =>
      (s.vals c.1 c.2).headD 0 ≠ (s.vals d.1 d.2).headD 0) cells := by
  refine List.Pairwise.imp_of_mem ?_ hnd
  intro c d hc hd hne
  obtain ⟨hcg1, hcg2⟩ := hgrid c hc
  obtain ⟨hdg1, hdg2⟩ := hgrid d hd
  rw [hvals c.1 c.2 hcg1 hcg2, hvals d.1 d.2 hdg1 hdg2]
  simp only [List.headD_cons]
  exact hval.2 c d hcg1 hcg2 hdg1 hdg2 (hpeer c hc d hd hne)

/-- `solvable` accepts every complete valid state — rows, columns and
the (partially) checked regions are all duplicate-free. -/
theorem solvableF_complete (w h : Nat) (t : Nat → Nat → Int) (s : SState)
    (hsw : s.w = w) (hsh : s.h = h) (h2 : 2 ≤ w * h) (hval : validT w h t)
    (hvals : ∀ j i, j < w * h → i < w * h → s.vals j i = [t j i]) :
    solvableF s = true := by
  have hsN : s.N = w * h := by
    show s.w * s.h = w * h
    rw [hsw, hsh]
  have hwp : 0 < s.w := by
    rcases Nat.eq_zero_or_pos s.w with h0 | h0
    · exfalso
      have hzz : s.N = 0 := by
        show s.w * s.h = 0
        rw [h0, Nat.zero_mul]
      omega
    · exact h0
  have hhp : 0 < s.h := by
    rcases Nat.eq_zero_or_pos s.h with h0 | h0
    · exfalso
      have hzz : s.N = 0 := by
        show s.w * s.h = 0
        rw [h0, Nat.mul_zero]
      omega
    · exact h0
  unfold solvableF
  rw [Bool.and_eq_true, Bool.and_eq_true]
  refine ⟨⟨?_, ?_⟩, ?_⟩
  · rw [List.all_eq_true]
    intro j hj
    have hjN : j < w * h := by
      have := (mem_rangeL _ _ j).mp hj
      omega
    refine noDupSolved_of s _ [] ?_ (fun c _ => List.not_mem_nil _) ?_
    · intro c hc
      obtain ⟨i, hi, rfl⟩ := List.mem_map.mp hc
      have hiN : i < w * h := by
        have := (mem_rangeL _ _ i).mp hi
        omega
      show (s.vals j i).length = 1
      rw [hvals j i hjN hiN]
      rfl
    · refine pairwise_value_ne s w h t hval hvals _ ?_ ?_ ?_
      · refine List.Nodup.map ?_ (rangeL_nodup _ _)
        intro x y hxy
        exact ((Prod.mk.injEq _ _ _ _).mp hxy).2
      · intro c hc
        obtain ⟨i, hi, rfl⟩ := List.mem_map.mp hc
        have hiN : i < w * h := by
          have := (mem_rangeL _ _ i).mp hi
          omega
        exact ⟨hjN, hiN⟩
      · intro c hc d hd hne
        obtain ⟨i, hi, rfl⟩ := List.mem_map.mp hc
        obtain ⟨i', hi', rfl⟩ := List.mem_map.mp hd
        exact ⟨hne, Or.inl rfl⟩
  · rw [List.all_eq_true]
    intro i hi
    have hiN : i < w * h := by
      have := (mem_rangeL _ _ i).mp hi
      omega
    refine noDupSolved_of s _ [] ?_ (fun c _ => List.not_mem_nil _) ?_
    · intro c hc
      obtain ⟨j, hj, rfl⟩ := List.mem_map.mp hc
      have hjN : j < w * h := by
        have := (mem_rangeL _ _ j).mp hj
        omega
      show (s.vals j i).length = 1
      rw [hvals j i hjN hiN]
      rfl
    · refine pairwise_value_ne s w h t hval hvals _ ?_ ?_ ?_
      · refine List.Nodup.map ?_ (rangeL_nodup _ _)
        intro x y hxy
        exact ((Prod.mk.injEq _ _ _ _).mp hxy).1
      · intro c hc
        obtain ⟨j, hj, rfl⟩ := List.mem_map.mp hc
        have hjN : j < w * h := by
          have := (mem_rangeL _ _ j).mp hj
          omega
        exact ⟨hjN, hiN⟩
      · intro c hc d hd hne
        obtain ⟨j, hj, rfl⟩ := List.mem_map.mp hc
        obtain ⟨j', hj', rfl⟩ := List.mem_map.mp hd
        exact ⟨hne, Or.inr (Or.inl rfl)⟩
  · rw [List.all_eq_true]
    intro j hj
    have hjN : j < s.N := (mem_rangeStep_lt hhp hj).2
    rw [List.all_eq_true]
    intro i hi
    have hiN : i < s.N := (mem_rangeStep_lt hwp hi).2
    refine noDupSolved_of s _ [] ?_ (fun c _ => List.not_mem_nil _) ?_
    · intro c hc
      have hcg := regionCells_subset_grid hwp hhp hjN hiN c hc
      rw [hvals c.1 c.2 (by omega) (by omega)]
      rfl
    · refine pairwise_value_ne s w h t hval hvals _ (regionCells_nodup s j i) ?_ ?_
      · intro c hc
        have hcg := regionCells_subset_grid hwp hhp hjN hiN c hc
        exact ⟨by omega, by omega⟩
      · intro c hc d hd hne
        obtain ⟨hc1, hc2⟩ := (mem_regionCells hwp hhp j i c).mp hc
        obtain ⟨hd1, hd2⟩ := (mem_regionCells hwp hhp j i d).mp hd
        refine ⟨hne, Or.inr (Or.inr ⟨?_, ?_⟩)⟩
        · rw [← hsh]
          rw [hc1, hd1]
        · rw [← hsw]
          rw [hc2, hd2]

/-- On a fully solved state every deduction pass is the identity. -/
theorem algorithmsF_finished (fuel : Nat) (d : Difficulty) (s : SState)
    (hwp : 0 < s.w) (hhp : 0 < s.h)
    (hfin : ∀ c ∈ cellsOf s.N, (s.vals c.1 c.2).length = 1) :
    algorithmsF fuel d s = some s := by
  have hlen : ∀ j i, j < s.N → i < s.N → (s.vals j i).length = 1 := by
    intro j i hj hi
    exact hfin (j, i) ((mem_cellsOf s.N (j, i)).mpr ⟨hj, hi⟩)
  have hcalc : calculateUniqValues fuel s = some s := by
    unfold calculateUniqValues
    refine foldlM_id _ _ _ ?_
    intro c hc
    rw [if_pos (hfin c hc)]
    rfl
  have hrdv : removeDeductableValues fuel s = some s := by
    unfold removeDeductableValues
    refine foldlM_id _ _ _ ?_
    intro c hc
    have h1 : rdvH fuel s c.1 c.2 = some s := by
      unfold rdvH
      rw [if_pos (Nat.le_of_eq (hfin c hc))]
    have h2 : rdvV fuel s c.1 c.2 = some s := by
      unfold rdvV
      rw [if_pos (Nat.le_of_eq (hfin c hc))]
    rw [h1]
    exact h2
  have hH : ∀ j, j < s.N → ucdH fuel s j = some s := by
    intro j hj
    have hu : unsolvedH s j = [] := by
      rw [List.eq_nil_iff_forall_not_mem]
      intro c hc
      unfold unsolvedH at hc
      obtain ⟨i, hi, hfi⟩ := List.mem_filterMap.mp hc
      have hiN : i < s.N := by
        have := (mem_rangeL _ _ i).mp hi
        omega
      rw [if_neg (by rw [hlen j i hj hiN]; omega)] at hfi
      exact Option.noConfusion hfi
    unfold ucdH
    rw [hu]
    rfl
  have hV : ∀ i, i < s.N → ucdV fuel s i = some s := by
    intro i hi
    have hu : unsolvedV s i = [] := by
      rw [List.eq_nil_iff_forall_not_mem]
      intro c hc
      unfold unsolvedV at hc
      obtain ⟨j, hj, hfj⟩ := List.mem_filterMap.mp hc
      have hjN : j < s.N := by
        have := (mem_rangeL _ _ j).mp hj
        omega
      rw [if_neg (by rw [hlen j i hjN hi]; omega)] at hfj
      exact Option.noConfusion hfj
    unfold ucdV
    rw [hu]
    rfl
  have hR : ∀ j i, j < s.N → i < s.N → ucdR fuel s j i = some s := by
    intro j i hj hi
    have hu : unsolvedR s j i = [] := by
      rw [List.eq_nil_iff_forall_not_mem]
      intro c hc
      unfold unsolvedR at hc
      have hc2 := List.mem_filter.mp hc
      have hcg := regionCells_subset_grid hwp hhp hj hi c hc2.1
      have hgt := hc2.2
      rw [decide_eq_true_eq] at hgt
      rw [hlen c.1 c.2 hcg.1 hcg.2] at hgt
      omega
    unfold ucdR
    rw [hu]
    rfl
  have hucd : unmatchedCandidateDeletion fuel s = some s := by
    unfold unmatchedCandidateDeletion
    have hA : (rangeL 0 s.N).foldlM (fun t j => ucdH fuel t j) s = some s := by
      refine foldlM_id _ _ _ ?_
      intro j hj
      refine hH j ?_
      have := (mem_rangeL _ _ j).mp hj
      omega
    have hB : (rangeL 0 s.N).foldlM (fun t i => ucdV fuel t i) s = some s := by
      refine foldlM_id _ _ _ ?_
      intro i hi
      refine hV i ?_
      have := (mem_rangeL _ _ i).mp hi
      omega
    have hC : (rangeStep 0 s.N s.h).foldlM
        (fun t j => (rangeStep 0 t.N t.w).foldlM (fun u i => ucdR fuel u j i) t)
        s = some s := by
      refine foldlM_id _ _ _ ?_
      intro j hj
      refine foldlM_id _ _ _ ?_
      intro i hi
      exact hR j i (mem_rangeStep_lt hhp hj).2 (mem_rangeStep_lt hwp hi).2
    simp only [Option.bind_eq_bind, Option.bind_eq_some]
    refine ⟨s, hA, s, hB, ?_⟩
    exact hC
  cases d with
  | easy => rfl
  | normal =>
      show (do
        let t ← calculateUniqValues fuel s
        removeDeductableValues fuel t) = some s
      rw [hcalc]
      exact hrdv
  | hard =>
      show (do
        let t ← calculateUniqValues fuel s
        let t ← removeDeductableValues fuel t
        unmatchedCandidateDeletion fuel t) = some s
      rw [hcalc]
      show (do
        let t ← removeDeductableValues fuel s
        unmatchedCandidateDeletion fuel t) = some s
      rw [hrdv]
      exact hucd

/-- `solve` on a fully solved, solvable state returns success at once
(two fixpoint iterations suffice). -/
theorem solveF_complete (fuel : Nat) (d : Difficulty) (s : SState)
    (hsolv : solvableF s = true)
    (hfin : ∀ c ∈ cellsOf s.N, (s.vals c.1 c.2).length = 1)
    (hwp : 0 < s.w) (hhp : 0 < s.h) (hch : (0 : Int) ≤ s.changes) :
    solveF fuel 2 d s = some (true, s) := by
  have hloop : solveLoop fuel d 2 (-1) s = some s := by
    rw [show (2 : Nat) = 1 + 1 from rfl, solveLoop]
    rw [if_neg (by intro hx; omega)]
    simp only [Option.bind_eq_bind, Option.bind_eq_some]
    refine ⟨s, algorithmsF_finished fuel d s hwp hhp hfin, ?_⟩
    rw [show (1 : Nat) = 0 + 1 from rfl, solveLoop, if_pos rfl]
  have hfb : finishedF s = true := by
    unfold finishedF
    rw [List.all_eq_true]
    intro c hc
    exact decide_eq_true (hfin c hc)
  unfold solveF
  rw [if_pos hsolv]
  simp only [Option.bind_eq_bind, Option.bind_eq_some]
  exact ⟨s, hloop, by rw [hfb]⟩

/-- A board holding a complete valid assignment re-solves under every
difficulty, with explicit resource bounds. -/
theorem complete_board_solves (w h : Nat) (t : Nat → Nat → Int) (b : Board)
    (h2 : 2 ≤ w * h) (hbw : b.w = w) (hbh : b.h = h) (hval : validT w h t)
    (hbt : ∀ j i, j < w * h → i < w * h → b.numbers j i = t j i)
    (d : Difficulty) :
    solvesWith (3 * (w * h * (w * h) * (w * h)) + 3) 2 d b := by
  obtain ⟨se, hse, hw, hh, hnd, hz, hcells, hch⟩ :=
    fromBoard_complete w h t b hbw hbh hval hbt
  have hseN : se.N = w * h := by
    show se.w * se.h = w * h
    rw [hw, hh]
  have hwp : 0 < se.w := by
    rcases Nat.eq_zero_or_pos se.w with h0 | h0
    · exfalso
      have hzz : se.N = 0 := by
        show se.w * se.h = 0
        rw [h0, Nat.zero_mul]
      omega
    · exact h0
  have hhp : 0 < se.h := by
    rcases Nat.eq_zero_or_pos se.h with h0 | h0
    · exfalso
      have hzz : se.N = 0 := by
        show se.w * se.h = 0
        rw [h0, Nat.mul_zero]
      omega
    · exact h0
  have hfin : ∀ c ∈ cellsOf se.N, (se.vals c.1 c.2).length = 1 := by
    intro c hc
    obtain ⟨hc1, hc2⟩ := (mem_cellsOf se.N c).mp hc
    rw [hcells c.1 c.2 (by omega) (by omega)]
    rfl
  have hsolv : solvableF se = true :=
    solvableF_complete w h t se hw hh h2 hval hcells
  exact ⟨se, se, hse, solveF_complete _ d se hsolv hfin hwp hhp hch⟩

/-! ## Hole punching preserves a re-solve witness -/

/-- `__setitem__` with `0` on a solved cell re-initializes it. -/
theorem setV_zero_solved (fuel : Nat) (s : SState) (j i : Nat) (s' : SState)
    (hg : getItem s j i ≠ 0) (h : setV fuel s j i 0 = some s') :
    s' = { setCell s j i (fullRange s.N) with changes := s.changes - 1 } := by
  unfold setV at h
  rcases fuel with _ | fuel
  · simp [engineStep] at h
  rw [engineStep] at h
  rw [if_neg (by simp)] at h
  rw [if_pos hg] at h
  injection h with h
  exact h.symm

/-- `Board.__setitem__` as an `Option`, for an in-range value. -/
theorem board_set_toOption (b : Board) (j i : Nat) (v : Int)
    (hv : v ≤ (b.N : Int)) :
    (b.set j i v).toOption =
      if j < b.N ∧ i < b.N then
        some { b with numbers := fun p q =>
          if p = j ∧ q = i then v else b.numbers p q }
      else none := by
  unfold Board.set
  rw [if_neg (by omega)]
  by_cases hidx : j < b.N ∧ i < b.N
  · rw [if_pos hidx, if_pos hidx]
    rfl
  · rw [if_neg hidx, if_neg hidx]
    rfl

/-- Clearing one cell of an in-range state yields the same board with
that cell zeroed. -/
theorem toBoard_reset (s : SState) (j i : Nat) (h2 : 2 ≤ s.N) (hsub : subF s)
    (hj : j < s.N) (hi : i < s.N) :
    toBoard { setCell s j i (fullRange s.N) with changes := s.changes - 1 } =
      some
        { w := s.w, h := s.h,
          numbers := fun p q =>
            if p = j ∧ q = i then 0
            else if p < s.N ∧ q < s.N then getItem s p q else 0,
          filename := none } := by
  have h2' : 2 ≤ SState.N
      { setCell s j i (fullRange s.N) with changes := s.changes - 1 } := h2
  have hsub' : subF
      { setCell s j i (fullRange s.N) with changes := s.changes - 1 } := by
    intro p q hp hq
    show (setCell s j i (fullRange s.N)).vals p q ⊆ fullRange s.N
    rw [setCell_vals]
    split
    · exact fun x hx => hx
    · exact hsub p q hp hq
  rw [toBoard_eq _ h2' hsub']
  have hfn : ∀ (f g : Nat → Nat → Int), f = g →
      (some { w := s.w, h := s.h, numbers := f, filename := none } : Option Board) =
      some { w := s.w, h := s.h, numbers := g, filename := none } := by
    intro f g hfg
    rw [hfg]
  refine hfn _ _ ?_
  funext p q
  by_cases hpi : p = j ∧ q = i
  · rw [if_pos hpi]
    show (if p < s.N ∧ q < s.N then
        getItem { setCell s j i (fullRange s.N) with changes := s.changes - 1 } p q
      else 0) = 0
    rw [if_pos (show p < s.N ∧ q < s.N from
      ⟨by rw [hpi.1]; exact hj, by rw [hpi.2]; exact hi⟩)]
    rw [hpi.1, hpi.2]
    have hv : SState.vals
        { setCell s j i (fullRange s.N) with changes := s.changes - 1 } j i =
        fullRange s.N := by
      show (setCell s j i (fullRange s.N)).vals j i = _
      rw [setCell_self]
    rw [getItem_of_length_ne_one (by rw [hv, fullRange_length]; omega)]
  · rw [if_neg hpi]
    show (if p < s.N ∧ q < s.N then
        getItem { setCell s j i (fullRange s.N) with changes := s.changes - 1 } p q
      else 0) = (if p < s.N ∧ q < s.N then getItem s p q else 0)
    have hv : SState.vals
        { setCell s j i (fullRange s.N) with changes := s.changes - 1 } p q =
        s.vals p q := by
      show (setCell s j i (fullRange s.N)).vals p q = _
      rw [setCell_vals, if_neg hpi]
    have hgi : getItem
        { setCell s j i (fullRange s.N) with changes := s.changes - 1 } p q =
        getItem s p q := by
      unfold getItem
      rw [hv]
    by_cases hgr : p < s.N ∧ q < s.N
    · rw [if_pos hgr, if_pos hgr, hgi]
    · rw [if_neg hgr, if_neg hgr]

/-- `create_hole` preserves the hole-punching invariant: a skipped or
rejected cell leaves the state unchanged, and an accepted hole carries
its own verification run as the re-solve witness. -/
theorem createHole_hinv (fuel lf : Nat) (d : Difficulty) {w h : Nat}
    (h2 : 2 ≤ w * h) (cs cs' : CState) (j i : Nat)
    (hinv : holeInv fuel lf d w h cs)
    (hstep : createHole fuel lf d cs j i = some cs') :
    holeInv fuel lf d w h cs' := by
  obtain ⟨he, hrest⟩ := hinv
  have hw := he.1
  have hh := he.2.1
  have hsub := he.2.2.2.2.1
  have hsN : cs.s.N = w * h := by
    show cs.s.w * cs.s.h = w * h
    rw [hw, hh]
  unfold createHole at hstep
  by_cases hg : getItem cs.s j i = 0
  · rw [if_pos hg] at hstep
    injection hstep with hstep
    rw [← hstep]
    exact ⟨he, hrest⟩
  · rw [if_neg hg] at hstep
    simp only [Option.bind_eq_bind, Option.bind_eq_some] at hstep
    obtain ⟨b, hb, b1, hb1, s2, hs2, ⟨r, s2x⟩, hp, hk⟩ := hstep
    have hk2 : (if r = true then
        (do
          let s1 ← setV fuel cs.s j i 0
          some (⟨s1, cs.k⟩ : CState))
      else some cs) = some cs' := hk
    by_cases hr : r = true
    · rw [if_pos hr] at hk2
      simp only [Option.bind_eq_bind, Option.bind_eq_some] at hk2
      obtain ⟨s1, hs1, hcs'⟩ := hk2
      injection hcs' with hcs'
      have hs1' := setV_zero_solved fuel cs.s j i s1 hg hs1
      subst hs1'
      subst hcs'
      have htb := toBoard_eq cs.s (by omega) hsub
      rw [htb] at hb
      have hbval : b =
          { w := cs.s.w, h := cs.s.h,
            numbers := fun p q =>
              if p < cs.s.N ∧ q < cs.s.N then getItem cs.s p q else 0,
            filename := none } := by
        injection hb with hb
        exact hb.symm
      have hbN : b.N = cs.s.N := by
        rw [hbval]
        rfl
      rw [board_set_toOption b j i 0 (by omega)] at hb1
      by_cases hidx : j < b.N ∧ i < b.N
      · rw [if_pos hidx] at hb1
        have hb1val : b1 = { b with numbers := fun p q =>
            if p = j ∧ q = i then 0 else b.numbers p q } := by
          injection hb1 with hb1
          exact hb1.symm
        refine ⟨einv_reset cs.s j i he h2,
          Or.inr ⟨b1, s2, s2x, ?_, hs2, by rw [hr] at hp; exact hp⟩⟩
        have hjN : j < cs.s.N := by omega
        have hiN : i < cs.s.N := by omega
        show toBoard
          { setCell cs.s j i (fullRange cs.s.N) with changes := cs.s.changes - 1 } =
          some b1
        rw [toBoard_reset cs.s j i (by omega) hsub hjN hiN, hb1val, hbval]
      · rw [if_neg hidx] at hb1
        exact Option.noConfusion hb1
    · rw [if_neg hr] at hk2
      injection hk2 with hk2
      rw [← hk2]
      exact ⟨he, hrest⟩

/-- The randomized hole attempts preserve the invariant. -/
theorem createHolesRandom_hinv (fuel lf : Nat) (d : Difficulty)
    (orc : Nat → Nat) {w h : Nat} (h2 : 2 ≤ w * h) :
    ∀ (n : Nat) (cs cs' : CState), holeInv fuel lf d w h cs →
      createHolesRandom fuel lf d orc n cs = some cs' →
      holeInv fuel lf d w h cs'
  | 0, cs, cs', hinv, hstep => by
      injection hstep with hstep
      rw [← hstep]
      exact hinv
  | n + 1, cs, cs', hinv, hstep => by
      rw [createHolesRandom] at hstep
      simp only [Option.bind_eq_bind, Option.bind_eq_some] at hstep
      obtain ⟨cs1, hc1, hc2⟩ := hstep
      exact createHolesRandom_hinv fuel lf d orc h2 n cs1 cs'
        (createHole_hinv fuel lf d h2 ⟨cs.s, cs.k + 2⟩ cs1 _ _ ⟨hinv.1, hinv.2⟩ hc1)
        hc2

/-- The deterministic sweep preserves the invariant. -/
theorem createHolesSweep_hinv (fuel lf : Nat) (d : Difficulty) {w h : Nat}
    (h2 : 2 ≤ w * h) (cs cs' : CState) (hinv : holeInv fuel lf d w h cs)
    (hstep : createHolesSweep fuel lf d cs = some cs') :
    holeInv fuel lf d w h cs' := by
  unfold createHolesSweep at hstep
  exact foldlM_preserve_mem _ _ _
    (fun t c t' _ ht hstep' => createHole_hinv fuel lf d h2 t t' c.1 c.2 ht hstep')
    cs cs' hinv hstep

/-- The fixpoint loop around the sweep preserves the invariant. -/
theorem createHolesLoop_hinv (fuel lf : Nat) (d : Difficulty) {w h : Nat}
    (h2 : 2 ≤ w * h) :
    ∀ (n : Nat) (prev : Int) (cs cs' : CState), holeInv fuel lf d w h cs →
      createHolesLoop fuel lf d n prev cs = some cs' →
      holeInv fuel lf d w h cs'
  | 0, prev, cs, cs', hinv, hstep => by
      rw [createHolesLoop] at hstep
      split at hstep
      · injection hstep with hstep
        rw [← hstep]
        exact hinv
      · exact Option.noConfusion hstep
  | n + 1, prev, cs, cs', hinv, hstep => by
      rw [createHolesLoop] at hstep
      split at hstep
      · injection hstep with hstep
        rw [← hstep]
        exact hinv
      · simp only [Option.bind_eq_bind, Option.bind_eq_some] at hstep
        obtain ⟨cs1, hc1, hc2⟩ := hstep
        exact createHolesLoop_hinv fuel lf d h2 n cs.s.changes cs1 cs'
          (createHolesSweep_hinv fuel lf d h2 cs cs1 hinv hc1) hc2

/-- `create_holes` preserves the invariant. -/
theorem createHoles_hinv (fuel lf hf : Nat) (d : Difficulty)
    (orc : Nat → Nat) {w h : Nat} (h2 : 2 ≤ w * h) (cs cs' : CState)
    (hinv : holeInv fuel lf d w h cs)
    (hstep : createHoles fuel lf hf d orc cs = some cs') :
    holeInv fuel lf d w h cs' := by
  unfold createHoles at hstep
  simp only [Option.bind_eq_bind, Option.bind_eq_some] at hstep
  obtain ⟨cs1, hc1, hc2⟩ := hstep
  exact createHolesLoop_hinv fuel lf d h2 hf (-1) cs1 cs'
    (createHolesRandom_hinv fuel lf d orc h2 (cs.s.N ^ 2) cs cs1 hinv hc1) hc2

/-! ## C1: the generated board re-solves -/

/-- C1: for every cell size `(w, h)` — i.e. every cell size of a
constructible engine: `create` is only reachable through a `Sudoku`
seeded from a `Board`, and `Board.__init__` is the fatal
"board too small" gate, embedded as the `boardEmpty` hypothesis —
every difficulty tier and every oracle (sequence of random choices)
under which `create(handicap=0)` terminates, the board it returns via
`to_board` exists, and a fresh engine seeded from that board and solved
under the same difficulty tier returns success — the reported flag
being `finished()` of the solved engine.  The embedding's fuel and
iteration bounds are existentially quantified, as the Python has
none. -/
theorem c1_create_sound (fuel lf onum hf w h : Nat) (d : Difficulty)
    (orc : Nat → Nat) (s : SState) (b0 : Board)
    (hboard : boardEmpty w h = Except.ok b0)
    (hcr : createF fuel lf onum hf w h d orc = some s) :
    ∃ b F L, toBoard s = some b ∧ solvesWith F L d b := by
  have h2 : 2 ≤ w * h := by
    have hb2 : (if w * h ≤ 1 then (Except.error BErr.tooSmall : Except BErr Board)
        else Except.ok
          { w := w, h := h, numbers := fun _ _ => 0, filename := none }) =
        Except.ok b0 := hboard
    by_cases hle : w * h ≤ 1
    · rw [if_pos hle] at hb2
      exact Except.noConfusion hb2
    · omega
  unfold createF at hcr
  simp only [Option.bind_eq_bind, Option.bind_eq_some] at hcr
  obtain ⟨cs1, hcn, cs2, hch, hs⟩ := hcr
  injection hs with hs
  have hpost := createNumbers_post fuel lf onum d orc _ cs1 h2 rfl rfl hcn
  obtain ⟨he1, hf1⟩ := hpost
  have hinv2 : holeInv fuel lf d w h cs2 :=
    createHoles_hinv fuel lf hf d orc h2 cs1 cs2 ⟨he1, Or.inl hf1⟩ hch
  obtain ⟨he2, hrest⟩ := hinv2
  obtain ⟨hw2, hh2, hnd2, hz2, hsub2, hv22⟩ := he2
  have hsN2 : cs2.s.N = w * h := by
    show cs2.s.w * cs2.s.h = w * h
    rw [hw2, hh2]
  rcases hrest with hfin | ⟨b, se, s', htb, hfb, hsf⟩
  · unfold finishedF at hfin
    rw [List.all_eq_true] at hfin
    have hlen : ∀ p q, p < w * h → q < w * h → (cs2.s.vals p q).length = 1 := by
      intro p q hp hq
      have hx := hfin (p, q) ((mem_cellsOf cs2.s.N (p, q)).mpr ⟨by omega, by omega⟩)
      exact of_decide_eq_true hx
    have hval : validT w h (fun p q => getItem cs2.s p q) := by
      constructor
      · intro p q hp hq
        have hl := hlen p q hp hq
        have hv := eq_singleton_of_length_one hl
        have hm := headD_mem_of_length_one hl
        have hr := (fullRange_mem_iff cs2.s.N _).mp
          (hsub2 p q (by omega) (by omega) hm)
        show 1 ≤ getItem cs2.s p q ∧ getItem cs2.s p q ≤ ((w * h : Nat) : Int)
        rw [getItem_of_singleton hv]
        omega
      · intro c dd hc1 hc2 hd1 hd2 hpe heq
        have hvc := eq_singleton_of_length_one (hlen c.1 c.2 hc1 hc2)
        have hvd := eq_singleton_of_length_one (hlen dd.1 dd.2 hd1 hd2)
        have heq2 : getItem cs2.s c.1 c.2 = getItem cs2.s dd.1 dd.2 := heq
        rw [getItem_of_singleton hvc, getItem_of_singleton hvd] at heq2
        rw [← heq2] at hvd
        exact hv22 c dd hc1 hc2 hd1 hd2 hpe _ hvc hvd
    have htb2 := toBoard_eq cs2.s (by omega) hsub2
    rw [← hs, htb2]
    refine ⟨_, 3 * (w * h * (w * h) * (w * h)) + 3, 2, rfl, ?_⟩
    refine complete_board_solves w h (fun p q => getItem cs2.s p q) _ h2
      ?_ ?_ hval ?_ d
    · exact hw2
    · exact hh2
    · intro p q hp hq
      show (if p < cs2.s.N ∧ q < cs2.s.N then getItem cs2.s p q else 0) =
        getItem cs2.s p q
      rw [if_pos ⟨by omega, by omega⟩]
  · refine ⟨b, fuel, lf, ?_, se, s', hfb, hsf⟩
    rw [← hs]
    exact htb

/-- C1 witness: a concrete terminating generation run on cell size
`(1, 2)` whose returned board exists and re-solves. -/
theorem c1_create_sound_witness :
    ∃ b F L, toBoard c1WitS = some b ∧ solvesWith F L .easy b :=
  c1_create_sound 30 10 5 10 1 2 .easy (fun _ => 0) c1WitS _ rfl rfl

end PySudoku
